import Mathlib

/-!
# Spreadsheet engine: positions, cells, sheet

A shallow embedding of `structures.cpp`, `formula.cpp`, `cell.cpp` and `sheet.cpp`.

* `std::string` is a `String`, read through its list of characters (every test
  the code makes on a byte -- `isupper`, `isdigit`, `== '='`, `== '\''` -- is a
  test on an ASCII character).
* `int` is `Int`; the arithmetic below never leaves the 32-bit range on the
  inputs the code accepts, except inside `std::stoi`, which is modelled with its
  range check.
* A `Cell*` is an address (`Nat`) into an explicit heap; `nullptr` is `none`.
  A freed address is never handed out again, and dereferencing it is undefined
  behaviour, which the model reports instead of hiding.
* C++ exceptions are values of `Exception`.
* A `double` is its bit pattern. The floating-point operations and the
  extraction of a double from a stream are library code and enter as a
  parameter (`Arith`); `FormulaAST.h` is not among the sources, and what the
  model needs of it is modelled from the spec.
* Loops and the reads of cells by cells run on fuel; the theorems say when the
  fuel suffices.
-/

namespace Spreadsheet

/-! ## common.h (constants and exception kinds; the header is not among the sources) -/

/-- Modelled from the spec: the exception kinds of `common.h`, plus the two
kinds raised by code that is present: `CellImplException` (cell.cpp) and the
`std::out_of_range` of `std::stoi`. -/
inductive Exception where
  | InvalidPositionException
  | FormulaException
  | CircularDependencyException
  | CellImplException
  | out_of_range
deriving DecidableEq, Repr

deriving instance DecidableEq for Except

/-- Modelled from the spec: `Position::MAX_ROWS` of `common.h` (16384). -/
def MAX_ROWS : Int := 16384

/-- Modelled from the spec: `Position::MAX_COLS` of `common.h` (16384). -/
def MAX_COLS : Int := 16384

/-! ## structures.cpp -/

def LETTERS : Int := 26
def MAX_POSITION_LENGTH : Nat := 17
def MAX_POS_LETTER_COUNT : Nat := 3
def ALPHA_OFFSET : Int := 65

/-- The `struct Position { int row; int col; }`. -/
structure Position where
  row : Int
  col : Int
deriving DecidableEq, Repr

namespace Position

/-- The sentinel `Position::NONE = { -1, -1 }`. -/
def NONE : Position := ⟨-1, -1⟩

/-- The method `Position::IsValid`. -/
def IsValid (p : Position) : Bool :=
  if p = NONE then false
  else if p.row < 0 || p.col < 0 then false
  else if p.row + 1 > MAX_ROWS || p.col + 1 > MAX_COLS then false
  else true

end Position

/-- The helper `LetToInt`: `static_cast<int>(letter) - ALPHA_OFFSET`. -/
def LetToInt (letter : Char) : Int := (letter.toNat : Int) - ALPHA_OFFSET

/-- The helper `IntToChar`: `static_cast<char>(character + ALPHA_OFFSET)`. -/
def IntToChar (character : Int) : Char := Char.ofNat (character + ALPHA_OFFSET).toNat

/-- The `while (i > 0)` loop of `IntToColStr`, with `ret` as accumulator. `i`
strictly decreases while it is positive, so `i.toNat` iterations are enough;
the fuel is spent only by iterations that really happen. -/
def IntToColStrLoop : Nat → Int → Int → List Char → List Char
  | 0, _, j, ret => IntToChar j :: ret
  | fuel + 1, i, j, ret =>
    if i > 0 then
      IntToColStrLoop fuel ((i - 1).tdiv LETTERS) ((i - 1).tmod LETTERS) (IntToChar j :: ret)
    else IntToChar j :: ret

/-- The function `IntToColStr` (its argument is the 1-based column). -/
def IntToColStr (col : Int) : List Char :=
  let i := (col - 1).tdiv LETTERS
  let j := (col - 1).tmod LETTERS
  IntToColStrLoop i.toNat i j []

/-- The library function `std::to_string(int)`: decimal digits, with a minus
sign for a negative number. -/
def to_string (n : Int) : List Char :=
  if n < 0 then '-' :: Nat.toDigits 10 n.natAbs else Nat.toDigits 10 n.natAbs

/-- The method `Position::ToString`. -/
def Position.ToString (p : Position) : String :=
  if p.IsValid then String.mk (IntToColStr (p.col + 1) ++ to_string (p.row + 1))
  else ""

/-- The function `Split`: the length of the leading run of upper-case letters,
or `none` (`std::nullopt`). -/
def Split (str : List Char) : Option Nat :=
  let alpha_len := (str.takeWhile Char.isUpper).length
  if alpha_len = 0 ∨ alpha_len > MAX_POS_LETTER_COUNT then none
  else
    let rest := str.drop alpha_len
    if rest.all Char.isDigit = false then none
    else
      let number_len := rest.length
      if number_len = 0 ∨ alpha_len + number_len > MAX_POSITION_LENGTH then none
      else some alpha_len

/-- The function `ColStrToInt`. The source reads `str[0]` of a non-empty
string; `Position::FromString` only passes the non-empty letter run. -/
def ColStrToInt : List Char → Int
  | [] => 0
  | [c] => LetToInt c
  | c :: d :: rest =>
    (LetToInt c + 1) * LETTERS ^ (d :: rest).length + ColStrToInt (d :: rest)

/-- The decimal value of a run of digits, as `strtol` accumulates it. -/
def decimalValue (ds : List Char) : Nat :=
  ds.foldl (fun acc c => 10 * acc + (c.toNat - 48)) 0

/-- The largest `int`. -/
def INT_MAX : Int := 2147483647

/-- The library function `std::stoi` on a non-empty run of digits (the only
argument `Position::FromString` passes): the decimal value, or
`std::out_of_range` when it does not fit an `int`. -/
def stoi (ds : List Char) : Except Exception Int :=
  if (decimalValue ds : Int) > INT_MAX then .error .out_of_range
  else .ok (decimalValue ds)

/-- The function `Position::FromString`. -/
def Position.FromString (str : String) : Except Exception Position :=
  match Split str.data with
  | some col_len =>
    match stoi (str.data.drop col_len) with
    | .error e => .error e
    | .ok n =>
      let ret : Position := ⟨n - 1, ColStrToInt (str.data.take col_len)⟩
      if ret.IsValid then .ok ret else .ok Position.NONE
  | none => .ok Position.NONE


/-! ## formula.cpp and the formula AST -/

/-- A C++ `double`, kept as its IEEE-754 bit pattern; its arithmetic is not
interpreted here. -/
structure Double where
  bits : Nat
deriving DecidableEq, Repr

/-- Modelled from the spec: the categories of `FormulaError` (`common.h` is
not among the sources). -/
inductive FormulaError where
  | Ref
  | Value
  | Arithmetic
deriving DecidableEq, Repr

/-- The variant `CellInterface::Value` = `std::variant<std::string, double, FormulaError>`. -/
inductive Value where
  | text (s : String)
  | number (d : Double)
  | error (e : FormulaError)
deriving DecidableEq, Repr

/-- Modelled from the spec: the unary operators of the expression grammar. -/
inductive UnaryOp where
  | UnaryPlus
  | UnaryMinus
deriving DecidableEq, Repr

/-- Modelled from the spec: the binary operators of the expression grammar. -/
inductive BinaryOp where
  | Add
  | Subtract
  | Multiply
  | Divide
deriving DecidableEq, Repr

/-- Modelled from the spec: the expression tree of `FormulaAST.h`, which is not
among the sources (numeric literals, cell references, unary and binary
operators; parentheses are tree structure). -/
inductive Expr where
  | number (d : Double)
  | cell (p : Position)
  | unary (op : UnaryOp) (e : Expr)
  | binary (op : BinaryOp) (l r : Expr)
deriving DecidableEq, Repr

/-- Modelled from the spec: the class `FormulaAST` of `FormulaAST.h`, which is
not among the sources: the expression and the cell list that `GetCells()`
returns. Nothing is assumed about the order or the content of the list. -/
structure FormulaAST where
  root_expr_ : Expr
  cells_ : List Position
deriving DecidableEq, Repr

/-- The parser `ParseFormulaAST` of `FormulaAST.h` is not among the sources: it
is a parameter of the model, `none` standing for a thrown `FormulaException`. -/
abbrev Parser := String → Option FormulaAST

/-- The algorithm `std::unique`: of every run of equal neighbours one element is kept. -/
def unique : List Position → List Position
  | [] => []
  | [a] => [a]
  | a :: b :: rest => if a = b then unique (b :: rest) else a :: unique (b :: rest)

/-- The method `Formula::GetReferencedCells`. -/
def FormulaAST.GetReferencedCells (ast_ : FormulaAST) : List Position :=
  unique ast_.cells_

/-! ## cell.cpp -/

def ESCAPE_SIGN : Char := '\''
def FORMULA_SIGN : Char := '='

/-- The three implementations of `Cell::Impl`; a `FormulaImpl` carries its
formula and its `cache_`. -/
inductive Impl where
  | EmptyImpl
  | TextImpl (str_ : String)
  | FormulaImpl (formula_ : FormulaAST) (cache_ : Option Value)
deriving DecidableEq, Repr

/-- The class `Cell`: `impl_`, `in_nodes_` and `out_nodes_` (vectors of `Cell*`,
never null). -/
structure Cell where
  impl_ : Impl
  in_nodes_ : List Nat
  out_nodes_ : List Nat
deriving DecidableEq, Repr

/-- The memory that holds the cells: address `a` holds `heap[a]`, and `none`
marks an address whose cell has been destroyed. -/
abbrev Heap := List (Option Cell)

/-- The class `Sheet`: the grid `sheet_` of `unique_ptr`s (`none` = `nullptr`)
and the memory its cells live in. -/
structure Sheet where
  sheet_ : List (List (Option Nat))
  heap : Heap
deriving DecidableEq, Repr

/-- The result of a call that may throw or run into undefined behaviour. `fuel`
is the answer of a loop that was cut off; the loops below are given enough
fuel for it never to occur (`ThrowIfCircularDependencyLoop_fuel`,
`InvalidateCacheLoop_fuel`). -/
inductive Res (α : Type) where
  | ok (a : α)
  | throw (e : Exception)
  | undefined
  | fuel
deriving DecidableEq, Repr

/-- The result of a call on the sheet: the sheet it leaves behind, also when
it throws. -/
inductive Outcome where
  | ok (s : Sheet)
  | throw (e : Exception) (s : Sheet)
  | undefined
  | fuel
deriving DecidableEq, Repr

/-- Dereference a `Cell*`; `none` when the cell has been destroyed. -/
def deref (heap : Heap) (a : Nat) : Option Cell := (heap[a]?).join

/-- The default constructor `Cell::Cell`: an `EmptyImpl` and no edges. -/
def Cell.new : Cell := ⟨.EmptyImpl, [], []⟩

/-- The method `std::deque::resize`. -/
def resize {α : Type} (l : List α) (n : Nat) (d : α) : List α :=
  l.take n ++ List.replicate (n - l.length) d

/-- The empty sheet. -/
def Sheet.empty : Sheet := ⟨[], []⟩

/-- The method `Sheet::GetCell`. -/
def Sheet.GetCell (s : Sheet) (pos : Position) : Except Exception (Option Nat) :=
  if pos.IsValid = false then .error .InvalidPositionException
  else if s.sheet_.length > pos.row.toNat ∧ (s.sheet_.getD pos.row.toNat []).length > pos.col.toNat then
    .ok ((s.sheet_.getD pos.row.toNat []).getD pos.col.toNat none)
  else .ok none

/-- The method `Sheet::UpSizeIfNeed`, on the grid. -/
def UpSizeIfNeed (sheet_ : List (List (Option Nat))) (pos : Position) : List (List (Option Nat)) :=
  let sheet1 :=
    if sheet_.length ≤ pos.row.toNat then resize sheet_ (pos.row + 1).toNat [] else sheet_
  if (sheet1.getD pos.row.toNat []).length ≤ pos.col.toNat then
    sheet1.set pos.row.toNat (resize (sheet1.getD pos.row.toNat []) (pos.col + 1).toNat none)
  else sheet1

/-- The loop of `ThrowIfCircularDependency`: `next_cells` is the forward list,
`visited` the set. -/
def ThrowIfCircularDependencyLoop (heap : Heap) (this : Nat) :
    Nat → List (Option Nat) → List (Option Nat) → Res Unit
  | 0, _, _ => .fuel
  | _ + 1, [], _ => .ok ()
  | n + 1, front :: next_cells, visited =>
    if front ∈ visited then ThrowIfCircularDependencyLoop heap this n next_cells visited
    else if front = some this then .throw .CircularDependencyException
    else
      match front with
      | none => ThrowIfCircularDependencyLoop heap this n next_cells (front :: visited)
      | some a =>
        match deref heap a with
        | none => .undefined
        | some c =>
          ThrowIfCircularDependencyLoop heap this n
            (c.out_nodes_.map some ++ next_cells) (front :: visited)

/-- The first loop of `ThrowIfCircularDependency`: `push_front` of
`sheet_.GetCell(pos)` for every position. -/
def collectCells (s : Sheet) : List Position → List (Option Nat) → Except Exception (List (Option Nat))
  | [], next_cells => .ok next_cells
  | pos :: positions, next_cells =>
    match s.GetCell pos with
    | .error e => .error e
    | .ok cell => collectCells s positions (cell :: next_cells)

/-- The number of `out_nodes_` entries of a heap slot. -/
def outDegree : Option Cell → Nat
  | some c => c.out_nodes_.length
  | none => 0

/-- The number of `in_nodes_` entries of a heap slot. -/
def inDegree : Option Cell → Nat
  | some c => c.in_nodes_.length
  | none => 0

/-- The number of `out_nodes_` entries in the whole heap. -/
def outDegreeSum (heap : Heap) : Nat := (heap.map outDegree).sum

/-- The number of `in_nodes_` entries in the whole heap. -/
def inDegreeSum (heap : Heap) : Nat := (heap.map inDegree).sum

/-- The method `Cell::ThrowIfCircularDependency`. -/
def ThrowIfCircularDependency (s : Sheet) (this : Nat) (positions : List Position) : Res Unit :=
  match collectCells s positions [] with
  | .error e => .throw e
  | .ok next_cells =>
    ThrowIfCircularDependencyLoop s.heap this
      (next_cells.length + outDegreeSum s.heap + 1) next_cells []

/-- The method `FormulaImpl::ClearCache` on the cell at address `a`. -/
def ClearCache (c : Cell) : Cell :=
  match c.impl_ with
  | .FormulaImpl f _ => { c with impl_ := .FormulaImpl f none }
  | _ => c

/-- The loop of `Cell::InvalidateCache`. -/
def InvalidateCacheLoop : Nat → Heap → List Nat → Res Heap
  | 0, _, _ => .fuel
  | _ + 1, heap, [] => .ok heap
  | n + 1, heap, inspect_cell :: next_cells =>
    match deref heap inspect_cell with
    | none => .undefined
    | some c =>
      match c.impl_ with
      | .FormulaImpl _ (some _) =>
        InvalidateCacheLoop n (heap.set inspect_cell (some (ClearCache c)))
          (c.in_nodes_.reverse ++ next_cells)
      | _ => InvalidateCacheLoop n heap next_cells

/-- The method `Cell::InvalidateCache`. -/
def InvalidateCache (heap : Heap) (this : Nat) : Res Heap :=
  match deref heap this with
  | none => .undefined
  | some c =>
    InvalidateCacheLoop (c.in_nodes_.length + inDegreeSum heap + 1) heap c.in_nodes_.reverse

/-- The loop of `Cell::UninstallFormulaCell` over `out_nodes_`: one occurrence
of `this` is erased from the `in_nodes_` of every target. -/
def eraseInNodes (this : Nat) : Heap → List Nat → Option Heap
  | heap, [] => some heap
  | heap, cell :: rest =>
    match deref heap cell with
    | none => none
    | some c => eraseInNodes this (heap.set cell (some { c with in_nodes_ := c.in_nodes_.erase this })) rest

/-- The method `Cell::UninstallFormulaCell`. -/
def UninstallFormulaCell (heap : Heap) (this : Nat) : Res Heap :=
  match deref heap this with
  | none => .undefined
  | some c =>
    match c.impl_ with
    | .FormulaImpl _ _ =>
      match eraseInNodes this heap c.out_nodes_ with
      | none => .undefined
      | some heap1 =>
        match deref heap1 this with
        | none => .undefined
        | some c1 => InvalidateCache (heap1.set this (some { c1 with out_nodes_ := [] })) this
    | _ => .ok heap

/-- The start of `Sheet::SetCell`, after the validity check: `UpSizeIfNeed`,
and a fresh `Cell` when the slot holds `nullptr`. Returns the sheet and the
address of the cell at `pos`. -/
def Sheet.AllocCell (s : Sheet) (pos : Position) : Sheet × Nat :=
  let sheet1 := UpSizeIfNeed s.sheet_ pos
  match (sheet1.getD pos.row.toNat []).getD pos.col.toNat none with
  | some a => (⟨sheet1, s.heap⟩, a)
  | none =>
    (⟨sheet1.set pos.row.toNat ((sheet1.getD pos.row.toNat []).set pos.col.toNat (some s.heap.length)),
      s.heap ++ [some Cell.new]⟩, s.heap.length)

/-- The loop of `Cell::TryInstallFormulaCell` over `out_cells`. The nested
`sheet_.SetCell(pos, { })` on an absent cell is `Sheet.AllocCell`: setting the
empty text on the fresh cell leaves it as it is (`SetCell_empty_text`). -/
def installEdges (this : Nat) : Sheet → List Position → Outcome
  | s, [] => .ok s
  | s, pos :: out_cells =>
    match s.GetCell pos with
    | .error e => .throw e s
    | .ok found =>
      let s1 := match found with
        | none => (s.AllocCell pos).1
        | some _ => s
      match s1.GetCell pos with
      | .ok (some cell) =>
        match deref s1.heap cell, deref s1.heap this with
        | some c, some _ =>
          let heap1 := s1.heap.set cell (some { c with in_nodes_ := c.in_nodes_ ++ [this] })
          match deref heap1 this with
          | some t =>
            installEdges this
              ⟨s1.sheet_, heap1.set this (some { t with out_nodes_ := t.out_nodes_ ++ [cell] })⟩
              out_cells
          | none => .undefined
        | _, _ => .undefined
      | _ => .undefined

/-- The method `Cell::TryInstallFormulaCell`. -/
def TryInstallFormulaCell (s : Sheet) (this : Nat) (new_impl : Impl) : Outcome :=
  match new_impl with
  | .FormulaImpl formula_ _ =>
    let out_cells := formula_.GetReferencedCells
    match ThrowIfCircularDependency s this out_cells with
    | .throw e => .throw e s
    | .undefined => .undefined
    | .fuel => .fuel
    | .ok () =>
      match UninstallFormulaCell s.heap this with
      | .throw e => .throw e s
      | .undefined => .undefined
      | .fuel => .fuel
      | .ok heap1 => installEdges this ⟨s.sheet_, heap1⟩ out_cells
  | _ =>
    match UninstallFormulaCell s.heap this with
    | .throw e => .throw e s
    | .undefined => .undefined
    | .fuel => .fuel
    | .ok heap1 => .ok ⟨s.sheet_, heap1⟩

/-- The constructor of `FormulaImpl`. -/
def FormulaImpl.new (parse : Parser) (str : String) : Except Exception Impl :=
  if str.length > 1 ∧ str.data.head? = some FORMULA_SIGN then .error .CellImplException
  else
    match parse str with
    | none => .error .FormulaException
    | some ast => .ok (.FormulaImpl ast none)

/-- The constructor of `TextImpl`. -/
def TextImpl.new (str : String) : Except Exception Impl :=
  if str.length = 0 then .error .CellImplException else .ok (.TextImpl str)

/-- The first statement of `Cell::Set`: the new `Impl` for a text. -/
def Cell.newImpl (parse : Parser) (text : String) : Except Exception Impl :=
  if text.length > 1 ∧ text.data.head? = some FORMULA_SIGN then
    FormulaImpl.new parse (String.mk (text.data.drop 1))
  else if text.length ≠ 0 then TextImpl.new text
  else .ok .EmptyImpl

/-- The method `Cell::Set` on the cell at address `this`. -/
def Cell.Set (parse : Parser) (s : Sheet) (this : Nat) (text : String) : Outcome :=
  match Cell.newImpl parse text with
  | .error e => .throw e s
  | .ok new_impl =>
    match TryInstallFormulaCell s this new_impl with
    | .ok s1 =>
      match deref s1.heap this with
      | none => .undefined
      | some c => .ok ⟨s1.sheet_, s1.heap.set this (some { c with impl_ := new_impl })⟩
    | o => o

/-- The method `Sheet::SetCell`. -/
def Sheet.SetCell (parse : Parser) (s : Sheet) (pos : Position) (text : String) : Outcome :=
  if pos.IsValid = false then .throw .InvalidPositionException s
  else
    let sa := s.AllocCell pos
    Cell.Set parse sa.1 sa.2 text

/-- The first loop of `Sheet::DownSizeIfNeed`; the argument is `col_len + 1`. -/
def DownSizeRow (row : List (Option Nat)) : Nat → List (Option Nat)
  | 0 => []
  | col_len + 1 =>
    if row.getD col_len none ≠ none then resize row (col_len + 1) none
    else DownSizeRow row col_len

/-- The second loop of `Sheet::DownSizeIfNeed`; the argument is `row_len + 1`. -/
def DownSizeRows (sheet_ : List (List (Option Nat))) : Nat → List (List (Option Nat))
  | 0 => []
  | row_len + 1 =>
    if (sheet_.getD row_len []).length ≠ 0 then resize sheet_ (row_len + 1) []
    else DownSizeRows sheet_ row_len

/-- The method `Sheet::DownSizeIfNeed`, on the grid. -/
def DownSizeIfNeed (sheet_ : List (List (Option Nat))) (pos : Position) : List (List (Option Nat)) :=
  let row := sheet_.getD pos.row.toNat []
  if (row.length : Int) - 1 = pos.col then
    let sheet1 := sheet_.set pos.row.toNat (DownSizeRow row row.length)
    if (sheet1.getD pos.row.toNat []).length = 0 then DownSizeRows sheet1 sheet1.length
    else sheet1
  else sheet_

/-- The method `Sheet::ClearCell`: `reset(nullptr)` runs `Cell::~Cell`, that is
`UninstallFormulaCell`, and frees the cell. -/
def Sheet.ClearCell (s : Sheet) (pos : Position) : Outcome :=
  if pos.IsValid = false then .throw .InvalidPositionException s
  else if s.sheet_.length > pos.row.toNat ∧ (s.sheet_.getD pos.row.toNat []).length > pos.col.toNat then
    let sheet1 := s.sheet_.set pos.row.toNat ((s.sheet_.getD pos.row.toNat []).set pos.col.toNat none)
    match (s.sheet_.getD pos.row.toNat []).getD pos.col.toNat none with
    | none => .ok ⟨DownSizeIfNeed sheet1 pos, s.heap⟩
    | some a =>
      match UninstallFormulaCell s.heap a with
      | .throw e => .throw e s
      | .undefined => .undefined
      | .fuel => .fuel
      | .ok heap1 => .ok ⟨DownSizeIfNeed sheet1 pos, heap1.set a none⟩
  else .ok s

/-- The `struct Size { int rows; int cols; }`. -/
structure Size where
  rows : Int
  cols : Int
deriving DecidableEq, Repr

/-- The method `Sheet::GetPrintableSize`. -/
def Sheet.GetPrintableSize (s : Sheet) : Size :=
  ⟨s.sheet_.length,
    s.sheet_.foldl (fun cols row => if (row.length : Int) > cols then row.length else cols) 0⟩

/-! ## Runs of the public operations -/

/-- A call of `Sheet::SetCell` or `Sheet::ClearCell`. -/
inductive Op where
  | set (pos : Position) (text : String)
  | clear (pos : Position)
deriving DecidableEq, Repr

/-- One call on the sheet. -/
def Sheet.step (parse : Parser) (s : Sheet) : Op → Outcome
  | .set pos text => s.SetCell parse pos text
  | .clear pos => s.ClearCell pos

/-- A sequence of calls, each on the sheet the one before left behind, whether
it returned or threw; `none` when a call runs into undefined behaviour. -/
def Sheet.run (parse : Parser) : Sheet → List Op → Option Sheet
  | s, [] => some s
  | s, op :: ops =>
    match s.step parse op with
    | .ok s1 => Sheet.run parse s1 ops
    | .throw _ s1 => Sheet.run parse s1 ops
    | _ => none

/-! ## Reading a cell: `GetValue` and `GetText` -/

/-- The floating-point operations and the stream extraction the evaluation
uses. They are library code working on doubles and are not interpreted: the model
takes them as a parameter. `extract s` stands for `istringstream str(s); str >> arg`:
the value the extraction writes to `arg`, and `str.eof()` afterwards. The value is
`none` when the extraction writes nothing, which is what happens when the
stream sentry fails (a text of white space only): `arg` is then left as it was
declared, without a value. -/
structure Arith where
  add : Double → Double → Double
  sub : Double → Double → Double
  mul : Double → Double → Double
  div : Double → Double → Double
  neg : Double → Double
  isfinite : Double → Bool
  extract : String → Option Double × Bool

/-- The double `0.0`. -/
def zero : Double := ⟨0⟩

/-- The visitor `Formula::VarVal`; a thrown `FormulaError` is the `error` case.
On a text, `arg` is returned when `eof()` holds, whether or not the extraction
has written it: the result `none` is the read of the `double arg` that was never
given a value, which is undefined behaviour. -/
def VarVal (ar : Arith) : Value → Option (Except FormulaError Double)
  | .number var => some (.ok var)
  | .error var => some (.error var)
  | .text var =>
    if var.length = 0 then some (.ok zero)
    else if (ar.extract var).2 then
      match (ar.extract var).1 with
      | some arg => some (.ok arg)
      | none => none
    else some (.error .Value)

/-- The lambda `args` of `Formula::Evaluate`, given the `GetValue` of cells:
`cell ? std::visit(VarVal { }, cell->GetValue()) : 0.0`. -/
def argsOf (ar : Arith) (sheet_ : List (List (Option Nat)))
    (getValue : Heap → Nat → Res (Value × Heap)) (pos : Position) (heap : Heap) :
    Res (Except FormulaError Double × Heap) :=
  match Sheet.GetCell ⟨sheet_, heap⟩ pos with
  | .error e => .throw e
  | .ok none => .ok (.ok zero, heap)
  | .ok (some cell) =>
    match getValue heap cell with
    | .ok (v, heap1) =>
      match VarVal ar v with
      | some d => .ok (d, heap1)
      | none => .undefined
    | .throw e => .throw e
    | .undefined => .undefined
    | .fuel => .fuel

/-- Modelled from the spec: an operator result that is not finite is the
`Arithmetic` error. -/
def checkFinite (ar : Arith) (d : Double) : Except FormulaError Double :=
  if ar.isfinite d then .ok d else .error .Arithmetic

/-- Modelled from the spec: the unary operators on a double. -/
def applyUnary (ar : Arith) : UnaryOp → Double → Double
  | .UnaryPlus, x => x
  | .UnaryMinus, x => ar.neg x

/-- Modelled from the spec: the binary operators on doubles. -/
def applyBinary (ar : Arith) : BinaryOp → Double → Double → Double
  | .Add, x, y => ar.add x y
  | .Subtract, x, y => ar.sub x y
  | .Multiply, x, y => ar.mul x y
  | .Divide, x, y => ar.div x y

/-- Modelled from the spec: `FormulaAST::Execute` of `FormulaAST.h`, which is not
among the sources. A cell reference is looked up with `args`; the operands of a
binary operator are evaluated left to right; evaluation stops at the first
error. The heap is threaded through because `args` reads cells, and reading a
formula cell writes its cache. -/
def Execute (ar : Arith) (args : Position → Heap → Res (Except FormulaError Double × Heap)) :
    Expr → Heap → Res (Except FormulaError Double × Heap)
  | .number d, heap => .ok (.ok d, heap)
  | .cell p, heap => args p heap
  | .unary op e, heap =>
    match Execute ar args e heap with
    | .ok (.ok x, heap1) => .ok (checkFinite ar (applyUnary ar op x), heap1)
    | r => r
  | .binary op l r, heap =>
    match Execute ar args l heap with
    | .ok (.ok x, heap1) =>
      match Execute ar args r heap1 with
      | .ok (.ok y, heap2) => .ok (checkFinite ar (applyBinary ar op x y), heap2)
      | r => r
    | r => r

/-- The method `Formula::Evaluate`: the result of `Execute`, a caught
`FormulaError` being returned as a value. -/
def Evaluate (ar : Arith) (sheet_ : List (List (Option Nat)))
    (getValue : Heap → Nat → Res (Value × Heap)) (ast_ : FormulaAST) (heap : Heap) :
    Res (Value × Heap) :=
  match Execute ar (argsOf ar sheet_ getValue) ast_.root_expr_ heap with
  | .ok (.ok d, heap1) => .ok (.number d, heap1)
  | .ok (.error fe, heap1) => .ok (.error fe, heap1)
  | .throw e => .throw e
  | .undefined => .undefined
  | .fuel => .fuel

/-- The method `TextImpl::GetValue`. -/
def TextImpl.GetValue (str_ : String) : Value :=
  if str_.length > 0 ∧ str_.data.head? = some ESCAPE_SIGN then .text (String.mk (str_.data.drop 1))
  else .text str_

/-- The assignment `cache_ = arg` in the cell at address `this`. -/
def setCache (heap : Heap) (this : Nat) (v : Value) : Option Heap :=
  match deref heap this with
  | some ⟨.FormulaImpl f _, i, o⟩ => some (heap.set this (some ⟨.FormulaImpl f (some v), i, o⟩))
  | _ => none

/-- The method `Cell::GetValue` on the cell at address `this`, with the heap it
leaves behind. For a formula cell this is `FormulaImpl::GetValue`,
`cache_.value_or(std::visit(lambda, formula_->Evaluate(sheet_)))`: the argument
of `value_or` is evaluated before `value_or` looks at `cache_`, and the lambda
stores the result in `cache_`, so `value_or` finds and returns that result. The
fuel bounds the depth of the reads of cells by cells. -/
def GetValue (ar : Arith) (sheet_ : List (List (Option Nat))) : Nat → Heap → Nat → Res (Value × Heap)
  | 0, _, _ => .fuel
  | fuel + 1, heap, this =>
    match deref heap this with
    | none => .undefined
    | some c =>
      match c.impl_ with
      | .EmptyImpl => .ok (.text "", heap)
      | .TextImpl str_ => .ok (TextImpl.GetValue str_, heap)
      | .FormulaImpl formula_ _ =>
        match Evaluate ar sheet_ (GetValue ar sheet_ fuel) formula_ heap with
        | .ok (arg, heap1) =>
          match setCache heap1 this arg with
          | some heap2 => .ok (arg, heap2)
          | none => .undefined
        | r => r

/-- The method `Cell::GetText`; `print` stands for `FormulaAST::PrintFormula`,
which is not among the sources. -/
def Cell.GetText (print : FormulaAST → String) (heap : Heap) (this : Nat) : Option String :=
  match deref heap this with
  | none => none
  | some c =>
    match c.impl_ with
    | .EmptyImpl => some ""
    | .TextImpl str_ => some str_
    | .FormulaImpl formula_ _ => some (String.mk (FORMULA_SIGN :: (print formula_).data))

/-- A read `GetCell(pos)->GetValue()` on the sheet: the value and the sheet it
leaves behind (`none` for an absent cell). -/
def Sheet.read (ar : Arith) (fuel : Nat) (s : Sheet) (pos : Position) : Res (Option Value × Sheet) :=
  match s.GetCell pos with
  | .error e => .throw e
  | .ok none => .ok (none, s)
  | .ok (some cell) =>
    match GetValue ar s.sheet_ fuel s.heap cell with
    | .ok (v, heap1) => .ok (some v, ⟨s.sheet_, heap1⟩)
    | .throw e => .throw e
    | .undefined => .undefined
    | .fuel => .fuel

/-! ## Reference definitions -/

/-- The bijective base-26 value of a run of letters, with A = 1, ..., Z = 26. -/
def bijectiveBase26 (letters : List Char) : Int :=
  letters.foldl (fun acc c => acc * 26 + ((c.toNat : Int) - 64)) 0

/-- Validity of a position as the specification words it: both coordinates
are at least 0 and below 16384. -/
def Position.validSpec (p : Position) : Prop :=
  0 ≤ p.row ∧ p.row < 16384 ∧ 0 ≤ p.col ∧ p.col < 16384

instance (p : Position) : Decidable p.validSpec := by
  unfold Position.validSpec; infer_instance

/-- The reference definition of `from_string` in the specification's words,
with the bound on the digit run as a parameter: `s` is a run of 1 to 3
upper-case letters followed by a run of digits that satisfies `digitsOk`, and
nothing else; the row is the decimal value of the digits minus one, the column
the bijective base-26 value of the letters minus one. -/
def fromStringSpec (digitsOk : Nat → Nat → Prop) [∀ a b, Decidable (digitsOk a b)]
    (s : String) : Position :=
  let letters := s.data.takeWhile Char.isUpper
  let digits := s.data.drop letters.length
  if 1 ≤ letters.length ∧ letters.length ≤ 3 ∧ digits.all Char.isDigit = true
      ∧ digitsOk letters.length digits.length then
    let p : Position := ⟨(decimalValue digits : Int) - 1, bijectiveBase26 letters - 1⟩
    if p.validSpec then p else Position.NONE
  else Position.NONE

/-- The reference definition with a digit run of 1 to 14 digits. -/
def fromStringSpec14 (s : String) : Position :=
  fromStringSpec (fun _ digits => 1 ≤ digits ∧ digits ≤ 14) s

/-- The reference definition with a digit run of at least one digit and a
total length of at most 17. -/
def fromStringSpec17 (s : String) : Position :=
  fromStringSpec (fun letters digits => 1 ≤ digits ∧ letters + digits ≤ 17) s

/-- The cell pointer stored at row `r`, column `c` of the grid: `none` outside
the grid and for `nullptr`. -/
def cellAt (g : List (List (Option Nat))) (r c : Nat) : Option Nat :=
  (g.getD r []).getD c none

/-- The length of row `r` of the grid (0 outside the grid). -/
def rowLen (g : List (List (Option Nat))) (r : Nat) : Nat :=
  (g.getD r []).length

/-- The specification's printable region: `size` is the smallest rectangle
that contains every present cell, `(0, 0)` when no cell is present and otherwise
one more than the largest row index and one more than the largest column index
of a present cell. -/
def Sheet.IsBoundingBox (s : Sheet) (size : Size) : Prop :=
  ((∀ r c, cellAt s.sheet_ r c = none) → size = ⟨0, 0⟩) ∧
  ((∃ r c, cellAt s.sheet_ r c ≠ none) →
    (∃ r c, cellAt s.sheet_ r c ≠ none ∧ size.rows = (r : Int) + 1) ∧
    (∀ r c, cellAt s.sheet_ r c ≠ none → (r : Int) + 1 ≤ size.rows) ∧
    (∃ r c, cellAt s.sheet_ r c ≠ none ∧ size.cols = (c : Int) + 1) ∧
    (∀ r c, cellAt s.sheet_ r c ≠ none → (c : Int) + 1 ≤ size.cols))

/-- The grid carries no trailing `nullptr` in a row and no trailing empty row. -/
def GridTight (g : List (List (Option Nat))) : Prop :=
  (∀ r, rowLen g r ≠ 0 → cellAt g r (rowLen g r - 1) ≠ none) ∧
  (g.length ≠ 0 → rowLen g (g.length - 1) ≠ 0)

/-- A property of the sheet an outcome leaves behind, when it leaves one. -/
def Outcome.All (P : Sheet → Prop) : Outcome → Prop
  | .ok s => P s
  | .throw _ s => P s
  | .undefined => True
  | .fuel => True

/-- An instance of the parser parameter: it accepts exactly the formulas that
are one valid cell reference. -/
def refParser : Parser := fun str =>
  match Position.FromString str with
  | .ok p => if p.IsValid then some ⟨.cell p, [p]⟩ else none
  | .error _ => none

/-- The cell at address `a` has not been destroyed. -/
def live (heap : Heap) (a : Nat) : Prop := deref heap a ≠ none

instance (heap : Heap) (a : Nat) : Decidable (live heap a) := by
  unfold live; infer_instance

/-- The `out_nodes_` of the cell at address `a`; empty for a destroyed cell. -/
def outOf (heap : Heap) (a : Nat) : List Nat :=
  match deref heap a with
  | some c => c.out_nodes_
  | none => []

/-- The `in_nodes_` of the cell at address `a`; empty for a destroyed cell. -/
def inOf (heap : Heap) (a : Nat) : List Nat :=
  match deref heap a with
  | some c => c.in_nodes_
  | none => []

/-- An edge of the dependency graph: `b` occurs in the `out_nodes_` of `a`. -/
def edge (heap : Heap) (a b : Nat) : Prop := b ∈ outOf heap a

instance (heap : Heap) (a b : Nat) : Decidable (edge heap a b) := by
  unfold edge; infer_instance

/-- Acyclicity: no cell reaches itself along one or more `out_nodes_` edges. -/
def Acyclic (heap : Heap) : Prop := ∀ a, ¬ Relation.TransGen (edge heap) a a

/-- No edge list names a destroyed cell. -/
def NoDangling (heap : Heap) : Prop :=
  ∀ a, (∀ b ∈ outOf heap a, live heap b) ∧ (∀ b ∈ inOf heap a, live heap b)

/-- Edge symmetry: `b` occurs in `out_nodes(a)` as often as `a` occurs in
`in_nodes(b)`, and every cell named in an edge list is a cell of the sheet. -/
def Sheet.EdgeSymmetry (s : Sheet) : Prop :=
  (∀ a b, live s.heap a → live s.heap b →
    (outOf s.heap a).count b = (inOf s.heap b).count a) ∧ NoDangling s.heap

/-- Every `unique_ptr` of the grid owns a cell that has not been destroyed. -/
def Sheet.GridLive (s : Sheet) : Prop :=
  ∀ r c a, cellAt s.sheet_ r c = some a → live s.heap a

/-- The cell `this` is one of the cells at the positions `O`, or can be reached
from one of them along `out_nodes_`. -/
def Sheet.ReachedFrom (s : Sheet) (O : List Position) (this : Nat) : Prop :=
  ∃ p ∈ O, ∃ a, s.GetCell p = .ok (some a) ∧ Relation.ReflTransGen (edge s.heap) a this

/-- The number of `out_nodes_` entries of the cells that the search has not
visited yet, the heap being scanned from address `k` on. -/
def unvisitedOut : Heap → List (Option Nat) → Nat → Nat
  | [], _, _ => 0
  | c :: rest, V, k => (if some k ∈ V then 0 else outDegree c) + unvisitedOut rest V (k + 1)

/-- The number of `in_nodes_` entries of a heap slot that holds a formula cell
with a populated cache. -/
def cachedInDegree : Option Cell → Nat
  | some ⟨.FormulaImpl _ (some _), in_nodes_, _⟩ => in_nodes_.length
  | _ => 0

/-- The number of `in_nodes_` entries of the formula cells whose cache is populated. -/
def cachedIn (heap : Heap) : Nat := (heap.map cachedInDegree).sum

/-- The cells a formula with cell list `O` can get an edge to: the cells at the
positions of `O`, and the cells created for them (at fresh addresses). -/
def Sheet.Target (s : Sheet) (O : List Position) (b : Nat) : Prop :=
  (∃ p ∈ O, s.GetCell p = .ok (some b)) ∨ s.heap.length ≤ b

/-- The sheet on which one iteration of the loop of `TryInstallFormulaCell`
works: the sheet itself when the cell at `pos` exists, and the sheet with a
fresh cell at `pos` otherwise. -/
def Sheet.materialize (s : Sheet) (pos : Position) : Sheet :=
  match cellAt s.sheet_ pos.row.toNat pos.col.toNat with
  | none => (s.AllocCell pos).1
  | some _ => s

/-- The heap after one iteration of the loop of `TryInstallFormulaCell`: `this`
is appended to the `in_nodes_` of `cell`, and `cell` to the `out_nodes_` of `this`. -/
def addEdge (heap : Heap) (this cell : Nat) : Heap :=
  let heap1 := heap.set cell ((deref heap cell).map
    (fun c => { c with in_nodes_ := c.in_nodes_ ++ [this] }))
  heap1.set this ((deref heap1 this).map (fun t => { t with out_nodes_ := t.out_nodes_ ++ [cell] }))

/-- The position A1. -/
def A1 : Position := ⟨0, 0⟩

/-- The position B1. -/
def B1 : Position := ⟨0, 1⟩

/-- The position C1. -/
def C1 : Position := ⟨0, 2⟩

/-- The position C3. -/
def C3 : Position := ⟨2, 2⟩

/-- The double 10.0. -/
def ten : Double := ⟨0x4024000000000000⟩

/-- The sheet after `set A1 "10"`, `set B1 "=A1"`, `set C1 "=B1"`, with the
given caches in B1 and C1 (`none` right after the three calls; the value 10.0
once C1 has been read). -/
def chainSheet (cacheB cacheC : Option Value) : Sheet :=
  ⟨[[some 0, some 1, some 2]],
    [some ⟨.TextImpl "10", [1], []⟩,
     some ⟨.FormulaImpl ⟨.cell A1, [A1]⟩ cacheB, [2], [0]⟩,
     some ⟨.FormulaImpl ⟨.cell B1, [B1]⟩ cacheC, [], [1]⟩]⟩

/-- The sheet after `set A1 "=B1"`, `set B1 "=C1"`. -/
def cycleSheet : Sheet :=
  ⟨[[some 0, some 1, some 2]],
    [some ⟨.FormulaImpl ⟨.cell B1, [B1]⟩ none, [], [1]⟩,
     some ⟨.FormulaImpl ⟨.cell C1, [C1]⟩ none, [0], [2]⟩,
     some ⟨.EmptyImpl, [1], []⟩]⟩

/-- The sheet after `set B1 "=A1"`: B1 lives at address 0, the cell A1 created
for it at address 1. -/
def refSheet : Sheet :=
  ⟨[[some 1, some 0]],
    [some ⟨.FormulaImpl ⟨.cell A1, [A1]⟩ none, [], [1]⟩,
     some ⟨.EmptyImpl, [0], []⟩]⟩

/-- The sheet holds no pointer to a destroyed cell, neither in an edge list nor
in the grid. -/
def Sheet.NoDanglingPointer (s : Sheet) : Prop := NoDangling s.heap ∧ s.GridLive

/-- The outcome is not undefined behaviour. -/
def Outcome.Defined : Outcome → Prop
  | .undefined => False
  | _ => True


/-! ## Reference definitions: reading, searching, invalidating -/

/-- The double 20.0. -/
def twenty : Double := ⟨0x4034000000000000⟩

/-- An instance of the library parameter for the examples. The extraction is
the one of the C++ library on the texts the examples use: "10" and "20" are
read to the end; "-" fails at the end of the text, with 0 written to `arg` and
`eof()` set; on " " the sentry meets the end of the text, nothing is written
and `eof()` is set; "hello" fails at its first character, with 0 written. The
arithmetic is not exercised by the examples. -/
def exampleArith : Arith :=
  { add := fun x _ => x, sub := fun x _ => x, mul := fun x _ => x, div := fun x _ => x,
    neg := fun x => x, isfinite := fun _ => true,
    extract := fun s =>
      if s = "10" then (some ten, true) else if s = "20" then (some twenty, true)
      else if s = "-" then (some zero, true) else if s = " " then (none, true)
      else (some zero, false) }

/-- An instance of the printing parameter for the examples. -/
def examplePrint : FormulaAST → String := fun _ => ""

/-- Reference for `referenced_cells()`: the positions of a list, each once, in
the order of their first occurrence. -/
def firstOccurrence : List Position → List Position
  | [] => []
  | a :: l => a :: (firstOccurrence l).filter (fun b => b ≠ a)

/-- Equal positions are neighbours in the list: a position that occurs again
further on is followed immediately by itself. A sorted list is of this kind. -/
def equalsAdjacent : List Position → Bool
  | [] => true
  | a :: l => decide (a ∈ l → l.head? = some a) && equalsAdjacent l

/-- The formula `A1+B1+A1`, its cell list in the order of occurrence. -/
def sumABA : FormulaAST :=
  ⟨.binary .Add (.binary .Add (.cell A1) (.cell B1)) (.cell A1), [A1, B1, A1]⟩

/-- The formula `A1+A1+B1`. -/
def sumAAB : FormulaAST :=
  ⟨.binary .Add (.binary .Add (.cell A1) (.cell A1)) (.cell B1), [A1, A1, B1]⟩

/-- A check of `Sheet.NoDanglingPointer` that can be evaluated: every address in
an edge list or in the grid is the address of a cell that has not been
destroyed. -/
def Sheet.checkPointers (s : Sheet) : Bool :=
  s.heap.all (fun slot =>
    match slot with
    | none => true
    | some c =>
      c.out_nodes_.all (fun b => decide (live s.heap b)) &&
        c.in_nodes_.all (fun b => decide (live s.heap b))) &&
  s.sheet_.all (fun row =>
    row.all (fun x =>
      match x with
      | none => true
      | some a => decide (live s.heap a)))

/-- The loop of `ThrowIfCircularDependency` once more, this time keeping a
record: besides the result it returns the cells whose `out_nodes_` the search
has put on the work list, in the order in which it did. -/
def searchTrace (heap : Heap) (this : Nat) :
    Nat → List (Option Nat) → List (Option Nat) → Res Unit × List Nat
  | 0, _, _ => (.fuel, [])
  | _ + 1, [], _ => (.ok (), [])
  | n + 1, front :: next_cells, visited =>
    if front ∈ visited then searchTrace heap this n next_cells visited
    else if front = some this then (.throw .CircularDependencyException, [])
    else
      match front with
      | none => searchTrace heap this n next_cells (front :: visited)
      | some a =>
        match deref heap a with
        | none => (.undefined, [])
        | some c =>
          ((searchTrace heap this n (c.out_nodes_.map some ++ next_cells) (front :: visited)).1,
            a :: (searchTrace heap this n (c.out_nodes_.map some ++ next_cells)
              (front :: visited)).2)

/-- A sheet whose graph holds a cycle: A1 is "=B1" and B1 is "=A1" (addresses 0
and 1), C1 is an empty cell (address 2) outside the cycle. -/
def loopSheet : Sheet :=
  ⟨[[some 0, some 1, some 2]],
    [some ⟨.FormulaImpl ⟨.cell B1, [B1]⟩ none, [1], [1]⟩,
     some ⟨.FormulaImpl ⟨.cell A1, [A1]⟩ none, [0], [0]⟩,
     some ⟨.EmptyImpl, [], []⟩]⟩

/-- The cell at address `a` is a formula cell whose cache is populated. -/
def Populated (heap : Heap) (a : Nat) : Prop :=
  ∃ c f v, deref heap a = some c ∧ c.impl_ = .FormulaImpl f (some v)

/-- One step along `in_nodes_` to a formula cell whose cache is populated. -/
def popStep (heap : Heap) (a b : Nat) : Prop := b ∈ inOf heap a ∧ Populated heap b

/-- The cell `y` is reached from `c` along `in_nodes_` by a path of one or more
steps, every cell after `c` on the path being a formula cell whose cache is
populated in `heap`. -/
def InvalidatedFrom (heap : Heap) (c y : Nat) : Prop := Relation.TransGen (popStep heap) c y

/-- The cell `y` is reached from a cell of the work list as in
`InvalidatedFrom`, the cell of the work list being one of the path. -/
def ClearedFrom (heap : Heap) (W : List Nat) (y : Nat) : Prop :=
  ∃ w ∈ W, Populated heap w ∧ Relation.ReflTransGen (popStep heap) w y

/-- The sheet after `set A1 a1`, `set B1 "=A1"` for a text `a1` that is not a
formula: A1 at address 0, B1 at address 1 with the given cache. -/
def pairSheet (a1 : String) (cacheB : Option Value) : Sheet :=
  ⟨[[some 0, some 1]],
    [some ⟨.TextImpl a1, [1], []⟩,
     some ⟨.FormulaImpl ⟨.cell A1, [A1]⟩ cacheB, [], [0]⟩]⟩

/-- The sheet after `set A1 "=C3"` on `pairSheet`: A1 at address 0 refers to
the empty cell C3 at address 2, B1 at address 1 has the given cache. -/
def tripleSheet (cacheB : Option Value) : Sheet :=
  ⟨[[some 0, some 1], [], [none, none, some 2]],
    [some ⟨.FormulaImpl ⟨.cell C3, [C3]⟩ none, [1], [2]⟩,
     some ⟨.FormulaImpl ⟨.cell A1, [A1]⟩ cacheB, [], [0]⟩,
     some ⟨.EmptyImpl, [0], []⟩]⟩

/-- The positions an expression refers to, in the order of occurrence. -/
def Expr.cells : Expr → List Position
  | .number _ => []
  | .cell p => [p]
  | .unary _ e => e.cells
  | .binary _ l r => l.cells ++ r.cells

/-- A cell without its cached value: the content, `in_nodes_` and `out_nodes_`
are kept, the cache of a formula cell is emptied. -/
def forgetCache : Cell → Cell
  | ⟨.FormulaImpl f _, in_nodes_, out_nodes_⟩ => ⟨.FormulaImpl f none, in_nodes_, out_nodes_⟩
  | c => c

/-- A heap with every cache emptied: what two heaps that differ only in cached
values have in common. -/
def eraseCaches (heap : Heap) : Heap := heap.map (Option.map forgetCache)

/-- Reference for `GetValue`, the operand at a position: an absent cell gives
0.0, a cell gives its value converted by `VarVal`; `value` gives the value of
the cell at an address. -/
def operandOf (ar : Arith) (sheet_ : List (List (Option Nat))) (heap : Heap)
    (value : Nat → Res Value) (pos : Position) : Res (Except FormulaError Double) :=
  match Sheet.GetCell ⟨sheet_, heap⟩ pos with
  | .error e => .throw e
  | .ok none => .ok (.ok zero)
  | .ok (some cell) =>
    match value cell with
    | .ok v =>
      match VarVal ar v with
      | some d => .ok d
      | none => .undefined
    | .throw e => .throw e
    | .undefined => .undefined
    | .fuel => .fuel

/-- Reference for `GetValue`, the evaluation of an expression: as `Execute`,
without a heap to write to. -/
def evalExpr (ar : Arith) (operand : Position → Res (Except FormulaError Double)) :
    Expr → Res (Except FormulaError Double)
  | .number d => .ok (.ok d)
  | .cell p => operand p
  | .unary op e =>
    match evalExpr ar operand e with
    | .ok (.ok x) => .ok (checkFinite ar (applyUnary ar op x))
    | r => r
  | .binary op l r =>
    match evalExpr ar operand l with
    | .ok (.ok x) =>
      match evalExpr ar operand r with
      | .ok (.ok y) => .ok (checkFinite ar (applyBinary ar op x y))
      | r => r
    | r => r

/-- Reference for `GetValue`: the result of an expression as a value, an error
of the evaluation being a value as well. -/
def resultValue : Res (Except FormulaError Double) → Res Value
  | .ok (.ok d) => .ok (.number d)
  | .ok (.error fe) => .ok (.error fe)
  | .throw e => .throw e
  | .undefined => .undefined
  | .fuel => .fuel

/-- Reference for `GetValue`: the value of the cell at address `this` as the
contents of the cells determine it. The value of a formula cell is the result
of evaluating its expression against the values of the cells it refers to; no
cache is read and none is written. The fuel bounds the depth of the references
followed. -/
def valueOf (ar : Arith) (sheet_ : List (List (Option Nat))) (heap : Heap) : Nat → Nat → Res Value
  | 0, _ => .fuel
  | fuel + 1, this =>
    match deref heap this with
    | none => .undefined
    | some c =>
      match c.impl_ with
      | .EmptyImpl => .ok (.text "")
      | .TextImpl str_ => .ok (TextImpl.GetValue str_)
      | .FormulaImpl formula_ _ =>
        resultValue
          (evalExpr ar (operandOf ar sheet_ heap (valueOf ar sheet_ heap fuel)) formula_.root_expr_)

/-- The cell at address `a` is a formula cell whose expression refers to a
position at which the grid holds the cell at address `b`. -/
def refEdge (s : Sheet) (a b : Nat) : Prop :=
  ∃ c f cache, deref s.heap a = some c ∧ c.impl_ = .FormulaImpl f cache ∧
    ∃ p ∈ f.root_expr_.cells, s.GetCell p = .ok (some b)

/-- Every position in the expression of a formula cell is valid. -/
def Sheet.RefsValid (s : Sheet) : Prop :=
  ∀ a c f cache, deref s.heap a = some c → c.impl_ = .FormulaImpl f cache →
    ∀ p ∈ f.root_expr_.cells, p.IsValid = true

/-- A check of `Sheet.RefsValid` that can be evaluated. -/
def Sheet.checkRefs (s : Sheet) : Bool :=
  s.heap.all (fun slot =>
    match slot with
    | some ⟨.FormulaImpl f _, _, _⟩ => f.root_expr_.cells.all (fun p => p.IsValid)
    | _ => true)

/-- A check that can be evaluated: every formula cell refers only to cells at
a smaller address. A sheet that passes has no cycle of references. -/
def Sheet.checkRefsDescend (s : Sheet) : Bool :=
  (List.range s.heap.length).all (fun a =>
    match deref s.heap a with
    | some ⟨.FormulaImpl f _, _, _⟩ =>
      f.root_expr_.cells.all (fun p =>
        match s.GetCell p with
        | .ok (some b) => decide (b < a)
        | _ => true)
    | _ => true)

/-- A result of the code, which carries the heap it leaves behind, against a
result of the reference: the same outcome, the same value, and a heap that
differs from the heaps with erasure `E` in cached values only. -/
def Sim {α : Type} (E : Heap) : Res (α × Heap) → Res α → Prop
  | .ok (x, heap), .ok y => x = y ∧ eraseCaches heap = E
  | .throw e, .throw e1 => e = e1
  | .undefined, .undefined => True
  | .fuel, .fuel => True
  | _, _ => False
/-! ## Theorems: positions -/

theorem Position.isValid_iff (p : Position) :
    p.IsValid = true ↔ 0 ≤ p.row ∧ p.row < 16384 ∧ 0 ≤ p.col ∧ p.col < 16384 := by
  unfold Position.IsValid Position.NONE MAX_ROWS MAX_COLS
  constructor
  · intro h
    split_ifs at h with h1 h2 h3
    simp only [Bool.or_eq_true, decide_eq_true_eq, not_or, not_lt] at h2 h3
    omega
  · rintro ⟨h1, h2, h3, h4⟩
    have hne : ¬ p = ⟨-1, -1⟩ := by
      intro h
      rw [h] at h1
      simp at h1
    rw [if_neg hne, if_neg, if_neg]
    · simp only [Bool.or_eq_true, decide_eq_true_eq, not_or, not_lt]; omega
    · simp only [Bool.or_eq_true, decide_eq_true_eq, not_or, not_lt]; omega

theorem letToInt_intToChar (j : Int) (h0 : 0 ≤ j) (h1 : j < 26) :
    LetToInt (IntToChar j) = j ∧ (IntToChar j).isUpper = true := by
  interval_cases j <;> decide

theorem bijectiveBase26_append (l : List Char) (c : Char) :
    bijectiveBase26 (l ++ [c]) = bijectiveBase26 l * 26 + (LetToInt c + 1) := by
  unfold bijectiveBase26 LetToInt ALPHA_OFFSET
  rw [List.foldl_append]
  simp only [List.foldl_cons, List.foldl_nil]
  omega

theorem bijectiveBase26_foldl (l : List Char) (a : Int) :
    l.foldl (fun acc c => acc * 26 + ((c.toNat : Int) - 64)) a
      = a * 26 ^ l.length + bijectiveBase26 l := by
  induction l generalizing a with
  | nil => simp [bijectiveBase26]
  | cons c l ih =>
    unfold bijectiveBase26
    simp only [List.foldl_cons, List.length_cons]
    rw [ih, ih (0 * 26 + _)]
    ring

theorem bijectiveBase26_cons (c : Char) (l : List Char) :
    bijectiveBase26 (c :: l) = (LetToInt c + 1) * 26 ^ l.length + bijectiveBase26 l := by
  unfold LetToInt ALPHA_OFFSET
  conv_lhs => unfold bijectiveBase26
  simp only [List.foldl_cons]
  rw [bijectiveBase26_foldl]
  ring

/-- The recursion of `ColStrToInt` computes the bijective base-26 value minus one. -/
theorem ColStrToInt_eq (l : List Char) (h : l ≠ []) :
    ColStrToInt l = bijectiveBase26 l - 1 := by
  induction l with
  | nil => exact absurd rfl h
  | cons c l ih =>
    cases l with
    | nil => simp [ColStrToInt, bijectiveBase26, LetToInt, ALPHA_OFFSET]; omega
    | cons d rest =>
      rw [ColStrToInt, ih (by simp), bijectiveBase26_cons c (d :: rest)]
      simp only [LETTERS]
      ring

theorem IntToColStrLoop_spec (fuel : Nat) : ∀ (i j : Int) (ret : List Char),
    0 ≤ i → i ≤ fuel → 0 ≤ j → j < 26 →
    ∃ pre, IntToColStrLoop fuel i j ret = pre ++ ret ∧ (∀ c ∈ pre, c.isUpper = true)
      ∧ pre ≠ [] ∧ bijectiveBase26 pre = i * 26 + j + 1 := by
  induction fuel with
  | zero =>
    intro i j ret hi hf hj0 hj1
    have : i = 0 := by omega
    subst this
    refine ⟨[IntToChar j], by simp [IntToColStrLoop], ?_, by simp, ?_⟩
    · intro c hc
      simp only [List.mem_singleton] at hc
      rw [hc]; exact (letToInt_intToChar j hj0 hj1).2
    · have := bijectiveBase26_append [] (IntToChar j)
      simp only [List.nil_append] at this
      rw [this, (letToInt_intToChar j hj0 hj1).1]
      simp [bijectiveBase26]
  | succ fuel ih =>
    intro i j ret hi hf hj0 hj1
    by_cases hpos : i > 0
    · have hd : (i - 1).tdiv LETTERS = (i - 1) / 26 := Int.tdiv_eq_ediv (by omega) (by decide)
      have hm : (i - 1).tmod LETTERS = (i - 1) % 26 := Int.tmod_eq_emod (by omega) (by decide)
      obtain ⟨pre, h1, h2, h3, h4⟩ := ih ((i - 1) / 26) ((i - 1) % 26) (IntToChar j :: ret)
        (by omega) (by push_cast at hf; omega) (by omega) (by omega)
      refine ⟨pre ++ [IntToChar j], ?_, ?_, by simp, ?_⟩
      · rw [IntToColStrLoop, if_pos hpos, hd, hm, h1]; simp
      · intro c hc
        rcases List.mem_append.1 hc with hc | hc
        · exact h2 c hc
        · simp only [List.mem_singleton] at hc
          rw [hc]; exact (letToInt_intToChar j hj0 hj1).2
      · rw [bijectiveBase26_append, h4, (letToInt_intToChar j hj0 hj1).1]; omega
    · have : i = 0 := by omega
      subst this
      refine ⟨[IntToChar j], by simp [IntToColStrLoop], ?_, by simp, ?_⟩
      · intro c hc
        simp only [List.mem_singleton] at hc
        rw [hc]; exact (letToInt_intToChar j hj0 hj1).2
      · have := bijectiveBase26_append [] (IntToChar j)
        simp only [List.nil_append] at this
        rw [this, (letToInt_intToChar j hj0 hj1).1]
        simp [bijectiveBase26]

theorem IntToColStr_spec (col : Int) (h : 1 ≤ col) :
    (∀ c ∈ IntToColStr col, c.isUpper = true) ∧ IntToColStr col ≠ []
      ∧ bijectiveBase26 (IntToColStr col) = col := by
  have hd : (col - 1).tdiv LETTERS = (col - 1) / 26 := Int.tdiv_eq_ediv (by omega) (by decide)
  have hm : (col - 1).tmod LETTERS = (col - 1) % 26 := Int.tmod_eq_emod (by omega) (by decide)
  obtain ⟨pre, h1, h2, h3, h4⟩ := IntToColStrLoop_spec ((col - 1) / 26).toNat ((col - 1) / 26)
    ((col - 1) % 26) [] (by omega) (by omega) (by omega) (by omega)
  unfold IntToColStr
  simp only [hd, hm, h1, List.append_nil]
  exact ⟨h2, h3, by omega⟩

/-- A run of upper-case letters whose bijective value is at most 16384 has at most 3 letters. -/
theorem bijectiveBase26_length (l : List Char) (hup : ∀ c ∈ l, c.isUpper = true)
    (hv : bijectiveBase26 l ≤ 16384) : l.length ≤ 3 := by
  have hnn : ∀ (l : List Char), (∀ c ∈ l, c.isUpper = true) → 0 ≤ bijectiveBase26 l := by
    intro l
    induction l with
    | nil => intro _; simp [bijectiveBase26]
    | cons c l ih =>
      intro h
      rw [bijectiveBase26_cons]
      have hc := h c (by simp)
      have hl := ih (fun x hx => h x (by simp [hx]))
      have : 0 ≤ LetToInt c + 1 := by
        unfold LetToInt ALPHA_OFFSET
        simp only [Char.isUpper, Bool.and_eq_true, decide_eq_true_eq] at hc
        have := hc.1
        have h65 : (65 : Nat) ≤ c.toNat := by
          have := UInt32.le_def.1 this
          simpa using this
        omega
      positivity
  by_contra hlen
  push_neg at hlen
  match l, hlen with
  | a :: b :: c :: d :: rest, _ =>
    have h1 := hnn rest (fun x hx => hup x (by simp [hx]))
    have ha : 1 ≤ LetToInt a + 1 := by
      have hc := hup a (by simp)
      unfold LetToInt ALPHA_OFFSET
      simp only [Char.isUpper, Bool.and_eq_true, decide_eq_true_eq] at hc
      have h65 : (65 : Nat) ≤ a.toNat := by
        have := UInt32.le_def.1 hc.1
        simpa using this
      omega
    have hb := hnn (b :: c :: d :: rest) (fun x hx => hup x (by simp at hx ⊢; tauto))
    rw [bijectiveBase26_cons] at hv
    have hp : (26 : Int) ^ 3 ≤ 26 ^ (b :: c :: d :: rest).length := by
      apply pow_le_pow_right₀ (by norm_num)
      simp
    have : (26:Int)^3 ≤ (LetToInt a + 1) * 26 ^ (b :: c :: d :: rest).length := by
      calc (26:Int)^3 ≤ 26 ^ (b :: c :: d :: rest).length := hp
        _ = 1 * 26 ^ (b :: c :: d :: rest).length := by ring
        _ ≤ (LetToInt a + 1) * 26 ^ (b :: c :: d :: rest).length := by
          apply mul_le_mul_of_nonneg_right ha (by positivity)
    have h3 : (26 : Int) ^ 3 = 17576 := by norm_num
    rw [h3] at this
    linarith


theorem isDigit_not_isUpper (c : Char) (h : c.isDigit = true) : c.isUpper = false := by
  simp only [Char.isDigit, Char.isUpper, Bool.and_eq_true, decide_eq_true_eq,
    Bool.and_eq_false_imp] at h ⊢
  intro h65
  have h1 := UInt32.le_def.1 h.2
  have h2 := UInt32.le_def.1 h65
  have h3 : c.val.val.val ≤ 57 := h1
  have h4 : 65 ≤ c.val.val.val := h2
  omega

theorem digitChar_spec (d : Nat) (h : d < 10) :
    (Nat.digitChar d).toNat - 48 = d ∧ (Nat.digitChar d).isDigit = true := by
  interval_cases d <;> decide

theorem toDigitsCore_spec (fuel : Nat) : ∀ (n : Nat) (ds : List Char), n < fuel →
    (Nat.toDigitsCore 10 fuel n ds).foldl (fun acc c => 10 * acc + (c.toNat - 48)) 0
        = ds.foldl (fun acc c => 10 * acc + (c.toNat - 48)) n
      ∧ (∀ c ∈ Nat.toDigitsCore 10 fuel n ds, c.isDigit = true ∨ c ∈ ds)
      ∧ Nat.toDigitsCore 10 fuel n ds ≠ [] := by
  induction fuel with
  | zero => intro n ds h; omega
  | succ fuel ih =>
    intro n ds h
    have hd := digitChar_spec (n % 10) (Nat.mod_lt _ (by decide))
    by_cases h0 : n / 10 = 0
    · simp only [Nat.toDigitsCore, h0, if_true]
      refine ⟨?_, ?_, by simp⟩
      · simp only [List.foldl_cons, hd.1]
        congr 1
        omega
      · intro c hc
        rcases List.mem_cons.1 hc with hc | hc
        · left; rw [hc]; exact hd.2
        · right; exact hc
    · simp only [Nat.toDigitsCore, h0, if_false]
      obtain ⟨h1, h2, h3⟩ := ih (n / 10) (Nat.digitChar (n % 10) :: ds) (by omega)
      refine ⟨?_, ?_, h3⟩
      · rw [h1]
        simp only [List.foldl_cons, hd.1]
        congr 1
        omega
      · intro c hc
        rcases h2 c hc with hc | hc
        · left; exact hc
        · rcases List.mem_cons.1 hc with hc | hc
          · left; rw [hc]; exact hd.2
          · right; exact hc

theorem to_string_spec (n : Int) (h1 : 1 ≤ n) (h2 : n ≤ 16384) :
    decimalValue (to_string n) = n.toNat ∧ (∀ c ∈ to_string n, c.isDigit = true)
      ∧ 1 ≤ (to_string n).length ∧ (to_string n).length ≤ 5 := by
  have hn : ¬ n < 0 := by omega
  unfold to_string decimalValue
  rw [if_neg hn]
  unfold Nat.toDigits
  obtain ⟨a, b, c⟩ := toDigitsCore_spec (n.natAbs + 1) n.natAbs [] (by omega)
  refine ⟨?_, ?_, ?_, ?_⟩
  · rw [a]; simp only [List.foldl_nil]; omega
  · intro x hx
    rcases b x hx with hx | hx
    · exact hx
    · simp at hx
  · exact List.length_pos.2 c
  · exact Nat.toDigitsCore_length 10 (by decide) _ _ 5 (by omega) (by decide)

theorem takeWhile_append_stop {α : Type} (p : α → Bool) (l1 l2 : List α)
    (h1 : ∀ c ∈ l1, p c = true) (h2 : ∀ c ∈ l2, p c = false) :
    (l1 ++ l2).takeWhile p = l1 := by
  induction l1 with
  | nil =>
    cases l2 with
    | nil => rfl
    | cons c l2 => simp [List.takeWhile, h2 c (by simp)]
  | cons c l1 ih =>
    have := ih (fun x hx => h1 x (by simp [hx]))
    simp only [List.cons_append, List.takeWhile_cons, h1 c (by simp), if_true, this]

theorem Split_append (letters digits : List Char)
    (hl : ∀ c ∈ letters, c.isUpper = true) (hd : ∀ c ∈ digits, c.isDigit = true)
    (h1 : 1 ≤ letters.length) (h3 : letters.length ≤ 3) (hd1 : 1 ≤ digits.length)
    (h17 : letters.length + digits.length ≤ 17) :
    Split (letters ++ digits) = some letters.length := by
  unfold Split
  have htw : (letters ++ digits).takeWhile Char.isUpper = letters :=
    takeWhile_append_stop _ _ _ hl (fun c hc => isDigit_not_isUpper c (hd c hc))
  simp only [htw, List.drop_left, MAX_POS_LETTER_COUNT, MAX_POSITION_LENGTH]
  rw [if_neg (by omega), if_neg, if_neg (by omega)]
  rw [List.all_eq_true.2 hd]
  simp


theorem take_length_takeWhile {α : Type} (p : α → Bool) (l : List α) :
    l.take (l.takeWhile p).length = l.takeWhile p := by
  induction l with
  | nil => rfl
  | cons c l ih =>
    by_cases hc : p c = true
    · simp [List.takeWhile_cons, hc, ih]
    · simp [List.takeWhile_cons, hc]

/-- C7. Position round trip: for every valid position `p`,
`from_string(to_string(p))` returns `p`. -/
theorem Position.fromString_toString (p : Position) (h : p.IsValid = true) :
    Position.FromString p.ToString = .ok p := by
  obtain ⟨hr0, hr1, hc0, hc1⟩ := (Position.isValid_iff p).1 h
  obtain ⟨lu, lne, lv⟩ := IntToColStr_spec (p.col + 1) (by omega)
  obtain ⟨dv, dd, dl1, dl5⟩ := to_string_spec (p.row + 1) (by omega) (by omega)
  have hlen3 := bijectiveBase26_length _ lu (by omega)
  have hlen1 : 1 ≤ (IntToColStr (p.col + 1)).length := List.length_pos.2 lne
  have hsplit := Split_append _ _ lu dd hlen1 hlen3 dl1 (by omega)
  unfold Position.ToString Position.FromString
  rw [if_pos h]
  simp only [hsplit, List.drop_left, List.take_left]
  have hst : stoi (to_string (p.row + 1)) = .ok (p.row + 1) := by
    unfold stoi INT_MAX
    rw [dv, if_neg (by omega)]
    congr 1
    omega
  rw [hst]
  simp only [ColStrToInt_eq _ lne, lv, add_sub_cancel_right]
  rw [if_pos h]

/-- C9, the failing input: on a digit run that denotes 2147483648 `std::stoi`
throws `std::out_of_range`, and `from_string` does not return. -/
theorem Position.fromString_out_of_range :
    Position.FromString "A2147483648" = .error .out_of_range := by
  decide

/-- C7, an instance: the position (99, 26), printed as "AA100". -/
theorem Position.fromString_toString_witness :
    (Position.mk 99 26).IsValid = true
      ∧ Position.FromString (Position.mk 99 26).ToString = .ok ⟨99, 26⟩ :=
  ⟨by decide, Position.fromString_toString ⟨99, 26⟩ (by decide)⟩


/-! ## Theorems: the grid and the printable region -/

theorem length_resize {α : Type} (l : List α) (n : Nat) (d : α) : (resize l n d).length = n := by
  unfold resize
  simp only [List.length_append, List.length_take, List.length_replicate]
  omega

theorem getD_resize {α : Type} (l : List α) (n i : Nat) (d : α) :
    (resize l n d).getD i d = if i < n then l.getD i d else d := by
  unfold resize
  simp only [List.getD_eq_getElem?_getD, List.getElem?_append, List.length_take,
    List.getElem?_take, List.getElem?_replicate]
  by_cases h1 : i < n
  · by_cases h2 : i < l.length
    · simp [h1, h2]
    · have h3 : l[i]? = none := List.getElem?_eq_none (by omega)
      have h4 : ¬ i < n ⊓ l.length := by omega
      have h5 : i - n ⊓ l.length < n - l.length := by omega
      simp [h1, h3, h4, h5]
  · have h4 : ¬ i < n ⊓ l.length := by omega
    have h5 : ¬ i - n ⊓ l.length < n - l.length := by omega
    simp [h1, h4, h5]

theorem getD_set {α : Type} (l : List α) (i j : Nat) (v d : α) :
    (l.set i v).getD j d = if i = j ∧ i < l.length then v else l.getD j d := by
  simp only [List.getD_eq_getElem?_getD, List.getElem?_set]
  by_cases h1 : i = j
  · subst h1
    by_cases h2 : i < l.length
    · simp [h2]
    · have h3 : l[i]? = none := List.getElem?_eq_none (by omega)
      simp [h2, h3]
  · simp [h1]

theorem getD_take {α : Type} (l : List α) (n i : Nat) (d : α) :
    (l.take n).getD i d = if i < n then l.getD i d else d := by
  simp only [List.getD_eq_getElem?_getD, List.getElem?_take]
  by_cases h1 : i < n <;> simp [h1]

theorem rowLen_eq_zero (g : List (List (Option Nat))) (r : Nat) (h : g.length ≤ r) :
    rowLen g r = 0 := by
  unfold rowLen
  rw [List.getD_eq_default _ _ h]
  rfl

theorem cellAt_eq_none (g : List (List (Option Nat))) (r c : Nat) (h : rowLen g r ≤ c) :
    cellAt g r c = none := by
  unfold cellAt
  exact List.getD_eq_default _ _ h

/-! ### `UpSizeIfNeed` and `AllocCell` -/

theorem getD_resize_nil (g : List (List (Option Nat))) (n i : Nat) (h : g.length ≤ n) :
    (resize g n []).getD i [] = g.getD i [] := by
  rw [getD_resize]
  by_cases h1 : i < n
  · rw [if_pos h1]
  · rw [if_neg h1, List.getD_eq_default _ _ (by omega)]

theorem UpSizeIfNeed_length (g : List (List (Option Nat))) (pos : Position) (h : 0 ≤ pos.row) :
    (UpSizeIfNeed g pos).length = max g.length (pos.row.toNat + 1) := by
  have h1 : (pos.row + 1).toNat = pos.row.toNat + 1 := by omega
  unfold UpSizeIfNeed
  simp only [h1]
  split_ifs <;> (try simp only [List.length_set, length_resize]) <;> omega

theorem UpSizeIfNeed_getD (g : List (List (Option Nat))) (pos : Position)
    (hr : 0 ≤ pos.row) (hc : 0 ≤ pos.col) (r : Nat) :
    (UpSizeIfNeed g pos).getD r [] =
      if r = pos.row.toNat ∧ (g.getD pos.row.toNat []).length ≤ pos.col.toNat then
        resize (g.getD pos.row.toNat []) (pos.col.toNat + 1) none
      else g.getD r [] := by
  have h1 : (pos.row + 1).toNat = pos.row.toNat + 1 := by omega
  have h2 : (pos.col + 1).toNat = pos.col.toNat + 1 := by omega
  unfold UpSizeIfNeed
  simp only [h1, h2]
  by_cases hlen : g.length ≤ pos.row.toNat
  · rw [if_pos hlen, getD_resize_nil _ _ _ (by omega)]
    by_cases h4 : (g.getD pos.row.toNat []).length ≤ pos.col.toNat
    · rw [if_pos h4, getD_set, length_resize]
      by_cases hrr : r = pos.row.toNat
      · rw [if_pos ⟨hrr.symm, by omega⟩, if_pos ⟨hrr, h4⟩]
      · rw [if_neg (by omega), if_neg (by tauto), getD_resize_nil _ _ _ (by omega)]
    · rw [if_neg h4, if_neg (by tauto), getD_resize_nil _ _ _ (by omega)]
  · rw [if_neg hlen]
    by_cases h4 : (g.getD pos.row.toNat []).length ≤ pos.col.toNat
    · rw [if_pos h4, getD_set]
      by_cases hrr : r = pos.row.toNat
      · rw [if_pos ⟨hrr.symm, by omega⟩, if_pos ⟨hrr, h4⟩]
      · rw [if_neg (by omega), if_neg (by tauto)]
    · rw [if_neg h4, if_neg (by tauto)]

theorem UpSizeIfNeed_rowLen (g : List (List (Option Nat))) (pos : Position)
    (hr : 0 ≤ pos.row) (hc : 0 ≤ pos.col) (r : Nat) :
    rowLen (UpSizeIfNeed g pos) r =
      if r = pos.row.toNat then max (rowLen g r) (pos.col.toNat + 1) else rowLen g r := by
  unfold rowLen
  rw [UpSizeIfNeed_getD g pos hr hc]
  by_cases hrr : r = pos.row.toNat
  · subst hrr
    rw [if_pos rfl]
    by_cases h4 : (g.getD pos.row.toNat []).length ≤ pos.col.toNat
    · rw [if_pos ⟨rfl, h4⟩, length_resize]; omega
    · rw [if_neg (by tauto)]; omega
  · rw [if_neg hrr, if_neg (by tauto)]

theorem UpSizeIfNeed_cellAt (g : List (List (Option Nat))) (pos : Position)
    (hr : 0 ≤ pos.row) (hc : 0 ≤ pos.col) (r c : Nat) :
    cellAt (UpSizeIfNeed g pos) r c = cellAt g r c := by
  unfold cellAt
  rw [UpSizeIfNeed_getD g pos hr hc]
  by_cases h4 : r = pos.row.toNat ∧ (g.getD pos.row.toNat []).length ≤ pos.col.toNat
  · rw [if_pos h4, getD_resize, h4.1]
    by_cases h5 : c < pos.col.toNat + 1
    · rw [if_pos h5]
    · rw [if_neg h5, List.getD_eq_default _ _ (by omega)]
  · rw [if_neg h4]

theorem setSlot_rowLen (g : List (List (Option Nat))) (r c : Nat) (v : Option Nat) (r' : Nat) :
    rowLen (g.set r ((g.getD r []).set c v)) r' = rowLen g r' := by
  unfold rowLen
  rw [getD_set]
  by_cases h : r = r' ∧ r < g.length
  · rw [if_pos h, List.length_set, h.1]
  · rw [if_neg h]

theorem setSlot_cellAt (g : List (List (Option Nat))) (r c : Nat) (v : Option Nat) (r' c' : Nat) :
    cellAt (g.set r ((g.getD r []).set c v)) r' c' =
      if r' = r ∧ c' = c ∧ c < rowLen g r then v else cellAt g r' c' := by
  unfold cellAt rowLen
  rw [getD_set]
  by_cases h : r = r' ∧ r < g.length
  · obtain ⟨h1, h2⟩ := h
    subst h1
    rw [if_pos ⟨rfl, h2⟩, getD_set]
    by_cases h3 : c = c' ∧ c < (g.getD r []).length
    · rw [if_pos h3, if_pos ⟨rfl, h3.1.symm, h3.2⟩]
    · rw [if_neg h3, if_neg (by intro hh; exact h3 ⟨hh.2.1.symm, hh.2.2⟩)]
  · rw [if_neg h]
    by_cases h3 : r' = r ∧ c' = c ∧ c < (g.getD r []).length
    · exfalso
      obtain ⟨h4, _, h6⟩ := h3
      apply h
      refine ⟨h4.symm, ?_⟩
      by_contra hlen
      rw [List.getD_eq_default _ _ (by omega)] at h6
      simp at h6
    · rw [if_neg h3]

theorem AllocCell_cases (s : Sheet) (pos : Position) :
    (∃ a, cellAt (UpSizeIfNeed s.sheet_ pos) pos.row.toNat pos.col.toNat = some a
      ∧ s.AllocCell pos = (⟨UpSizeIfNeed s.sheet_ pos, s.heap⟩, a)) ∨
    (cellAt (UpSizeIfNeed s.sheet_ pos) pos.row.toNat pos.col.toNat = none
      ∧ s.AllocCell pos =
        (⟨(UpSizeIfNeed s.sheet_ pos).set pos.row.toNat
            (((UpSizeIfNeed s.sheet_ pos).getD pos.row.toNat []).set pos.col.toNat
              (some s.heap.length)),
          s.heap ++ [some Cell.new]⟩, s.heap.length)) := by
  unfold cellAt
  cases h : ((UpSizeIfNeed s.sheet_ pos).getD pos.row.toNat []).getD pos.col.toNat none with
  | none =>
    right
    refine ⟨rfl, ?_⟩
    unfold Sheet.AllocCell
    simp only [h]
  | some a =>
    left
    refine ⟨a, rfl, ?_⟩
    unfold Sheet.AllocCell
    simp only [h]

theorem AllocCell_length (s : Sheet) (pos : Position) (hr : 0 ≤ pos.row) :
    (s.AllocCell pos).1.sheet_.length = max s.sheet_.length (pos.row.toNat + 1) := by
  rcases AllocCell_cases s pos with ⟨a, _, h⟩ | ⟨_, h⟩ <;> rw [h]
  · exact UpSizeIfNeed_length _ _ hr
  · simp only [List.length_set]
    exact UpSizeIfNeed_length _ _ hr

theorem AllocCell_rowLen (s : Sheet) (pos : Position) (hr : 0 ≤ pos.row) (hc : 0 ≤ pos.col)
    (r : Nat) :
    rowLen (s.AllocCell pos).1.sheet_ r =
      if r = pos.row.toNat then max (rowLen s.sheet_ r) (pos.col.toNat + 1)
      else rowLen s.sheet_ r := by
  rcases AllocCell_cases s pos with ⟨a, _, h⟩ | ⟨_, h⟩ <;> rw [h]
  · exact UpSizeIfNeed_rowLen _ _ hr hc r
  · simp only [setSlot_rowLen]
    exact UpSizeIfNeed_rowLen _ _ hr hc r

theorem AllocCell_cellAt (s : Sheet) (pos : Position) (hr : 0 ≤ pos.row) (hc : 0 ≤ pos.col)
    (r c : Nat) :
    cellAt (s.AllocCell pos).1.sheet_ r c =
      if r = pos.row.toNat ∧ c = pos.col.toNat then some (s.AllocCell pos).2
      else cellAt s.sheet_ r c := by
  rcases AllocCell_cases s pos with ⟨a, ha, h⟩ | ⟨_, h⟩ <;> rw [h]
  · simp only
    rw [UpSizeIfNeed_cellAt _ _ hr hc]
    by_cases h : r = pos.row.toNat ∧ c = pos.col.toNat
    · rw [if_pos h, h.1, h.2, ← ha, UpSizeIfNeed_cellAt s.sheet_ pos hr hc]
    · rw [if_neg h]
  · simp only [setSlot_cellAt]
    have hl := UpSizeIfNeed_rowLen s.sheet_ pos hr hc pos.row.toNat
    rw [if_pos rfl] at hl
    by_cases h : r = pos.row.toNat ∧ c = pos.col.toNat
    · rw [if_pos h, if_pos ⟨h.1, h.2, by omega⟩]
    · rw [if_neg h, if_neg (by tauto), UpSizeIfNeed_cellAt _ _ hr hc]

theorem AllocCell_snd (s : Sheet) (pos : Position) (hr : 0 ≤ pos.row) (hc : 0 ≤ pos.col) :
    (cellAt s.sheet_ pos.row.toNat pos.col.toNat = some (s.AllocCell pos).2
      ∧ (s.AllocCell pos).1.heap = s.heap) ∨
    (cellAt s.sheet_ pos.row.toNat pos.col.toNat = none ∧ (s.AllocCell pos).2 = s.heap.length
      ∧ (s.AllocCell pos).1.heap = s.heap ++ [some Cell.new]) := by
  rcases AllocCell_cases s pos with ⟨a, ha, h⟩ | ⟨ha, h⟩ <;> rw [h]
    <;> rw [UpSizeIfNeed_cellAt _ _ hr hc] at ha
  · left; exact ⟨ha, rfl⟩
  · right; exact ⟨ha, rfl, rfl⟩

theorem GridTight_AllocCell (s : Sheet) (pos : Position) (hr : 0 ≤ pos.row) (hc : 0 ≤ pos.col)
    (h : GridTight s.sheet_) : GridTight (s.AllocCell pos).1.sheet_ := by
  obtain ⟨t1, t2⟩ := h
  constructor
  · intro r hne
    rw [AllocCell_rowLen s pos hr hc] at hne ⊢
    rw [AllocCell_cellAt s pos hr hc]
    by_cases hrr : r = pos.row.toNat
    · rw [if_pos hrr] at hne ⊢
      by_cases hcc : max (rowLen s.sheet_ r) (pos.col.toNat + 1) - 1 = pos.col.toNat
      · rw [if_pos ⟨hrr, hcc⟩]; simp
      · rw [if_neg (by tauto)]
        have h1 : max (rowLen s.sheet_ r) (pos.col.toNat + 1) = rowLen s.sheet_ r := by omega
        rw [h1]
        exact t1 r (by omega)
    · rw [if_neg hrr] at hne ⊢
      rw [if_neg (by tauto)]
      exact t1 r hne
  · intro _
    rw [AllocCell_length s pos hr, AllocCell_rowLen s pos hr hc]
    by_cases hrr : max s.sheet_.length (pos.row.toNat + 1) - 1 = pos.row.toNat
    · rw [if_pos hrr]; omega
    · rw [if_neg hrr]
      have h1 : max s.sheet_.length (pos.row.toNat + 1) = s.sheet_.length := by omega
      rw [h1]
      exact t2 (by omega)

/-! ### `DownSizeIfNeed` and `ClearCell` -/

theorem resize_eq_take {α : Type} (l : List α) (n : Nat) (d : α) (h : n ≤ l.length) :
    resize l n d = l.take n := by
  unfold resize
  have : n - l.length = 0 := by omega
  rw [this]
  simp

theorem DownSizeRow_spec (row : List (Option Nat)) (n : Nat) (h : n ≤ row.length) :
    ∃ m, m ≤ n ∧ DownSizeRow row n = row.take m ∧ (m ≠ 0 → row.getD (m - 1) none ≠ none) := by
  induction n with
  | zero => exact ⟨0, le_refl _, by simp [DownSizeRow], fun h => absurd rfl h⟩
  | succ n ih =>
    by_cases hc : row.getD n none ≠ none
    · refine ⟨n + 1, le_refl _, ?_, fun _ => hc⟩
      rw [DownSizeRow, if_pos hc, resize_eq_take _ _ _ h]
    · obtain ⟨m, h1, h2, h3⟩ := ih (by omega)
      refine ⟨m, by omega, ?_, h3⟩
      rw [DownSizeRow, if_neg hc, h2]

theorem DownSizeRows_spec (g : List (List (Option Nat))) (n : Nat) (h : n ≤ g.length) :
    ∃ m, m ≤ n ∧ DownSizeRows g n = g.take m ∧ (m ≠ 0 → rowLen g (m - 1) ≠ 0) := by
  induction n with
  | zero => exact ⟨0, le_refl _, by simp [DownSizeRows], fun h => absurd rfl h⟩
  | succ n ih =>
    by_cases hc : (g.getD n []).length ≠ 0
    · refine ⟨n + 1, le_refl _, ?_, fun _ => hc⟩
      rw [DownSizeRows, if_pos hc, resize_eq_take _ _ _ h]
    · obtain ⟨m, h1, h2, h3⟩ := ih (by omega)
      refine ⟨m, by omega, ?_, h3⟩
      rw [DownSizeRows, if_neg hc, h2]

theorem take_rowLen (g : List (List (Option Nat))) (m r : Nat) :
    rowLen (g.take m) r = if r < m then rowLen g r else 0 := by
  unfold rowLen
  rw [getD_take]
  by_cases h : r < m
  · rw [if_pos h, if_pos h]
  · rw [if_neg h, if_neg h]; rfl

theorem take_cellAt (g : List (List (Option Nat))) (m r c : Nat) :
    cellAt (g.take m) r c = if r < m then cellAt g r c else none := by
  unfold cellAt
  rw [getD_take]
  by_cases h : r < m
  · rw [if_pos h, if_pos h]
  · rw [if_neg h, if_neg h]; rfl

theorem GridTight_take (g : List (List (Option Nat))) (m : Nat) (hm : m ≤ g.length)
    (t1 : ∀ r, rowLen g r ≠ 0 → cellAt g r (rowLen g r - 1) ≠ none)
    (t2 : m ≠ 0 → rowLen g (m - 1) ≠ 0) : GridTight (g.take m) := by
  constructor
  · intro r hne
    rw [take_rowLen] at hne ⊢
    rw [take_cellAt]
    by_cases h : r < m
    · rw [if_pos h] at hne ⊢
      rw [if_pos h]
      exact t1 r hne
    · rw [if_neg h] at hne
      exact absurd rfl hne
  · intro hlen
    rw [List.length_take] at hlen ⊢
    have h1 : min m g.length = m := by omega
    rw [h1] at hlen ⊢
    rw [take_rowLen, if_pos (by omega)]
    exact t2 hlen

theorem setRow_rowLen (g : List (List (Option Nat))) (r0 : Nat) (row : List (Option Nat))
    (h : r0 < g.length) (r : Nat) :
    rowLen (g.set r0 row) r = if r = r0 then row.length else rowLen g r := by
  unfold rowLen
  rw [getD_set]
  by_cases hr : r = r0
  · rw [if_pos ⟨hr.symm, h⟩, if_pos hr]
  · rw [if_neg (by intro hh; exact hr hh.1.symm), if_neg hr]

theorem setRow_cellAt (g : List (List (Option Nat))) (r0 : Nat) (row : List (Option Nat))
    (h : r0 < g.length) (r c : Nat) :
    cellAt (g.set r0 row) r c = if r = r0 then row.getD c none else cellAt g r c := by
  unfold cellAt
  rw [getD_set]
  by_cases hr : r = r0
  · rw [if_pos ⟨hr.symm, h⟩, if_pos hr]
  · rw [if_neg (by intro hh; exact hr hh.1.symm), if_neg hr]

/-- Clearing a slot and pruning keeps the grid tight. -/
theorem GridTight_DownSizeIfNeed (g : List (List (Option Nat))) (pos : Position)
    (hc : 0 ≤ pos.col) (h1 : pos.row.toNat < g.length)
    (h2 : pos.col.toNat < rowLen g pos.row.toNat) (ht : GridTight g) :
    GridTight (DownSizeIfNeed
      (g.set pos.row.toNat ((g.getD pos.row.toNat []).set pos.col.toNat none)) pos) := by
  obtain ⟨t1, t2⟩ := ht
  generalize hg1 : g.set pos.row.toNat ((g.getD pos.row.toNat []).set pos.col.toNat none) = g1
  have hlen1 : g1.length = g.length := by rw [← hg1, List.length_set]
  have hrow1 : ∀ r, rowLen g1 r = rowLen g r := by
    intro r; rw [← hg1, setSlot_rowLen]
  have hcell1 : ∀ r c, cellAt g1 r c =
      if r = pos.row.toNat ∧ c = pos.col.toNat then none else cellAt g r c := by
    intro r c
    rw [← hg1, setSlot_cellAt]
    by_cases hh : r = pos.row.toNat ∧ c = pos.col.toNat
    · rw [if_pos ⟨hh.1, hh.2, h2⟩, if_pos hh]
    · rw [if_neg (by tauto), if_neg hh]
  unfold DownSizeIfNeed
  have hrl : (g1.getD pos.row.toNat []).length = rowLen g pos.row.toNat := hrow1 _
  by_cases hlast : ((g1.getD pos.row.toNat []).length : Int) - 1 = pos.col
  · simp only [if_pos hlast]
    obtain ⟨m, hm1, hm2, hm3⟩ := DownSizeRow_spec (g1.getD pos.row.toNat [])
      (g1.getD pos.row.toNat []).length (le_refl _)
    rw [hm2]
    generalize hg2 : g1.set pos.row.toNat ((g1.getD pos.row.toNat []).take m) = g2
    have hlen2 : g2.length = g.length := by rw [← hg2, List.length_set, hlen1]
    have hrow2 : ∀ r, rowLen g2 r = if r = pos.row.toNat then m else rowLen g r := by
      intro r
      rw [← hg2, setRow_rowLen _ _ _ (by omega), List.length_take, hrow1]
      by_cases hh : r = pos.row.toNat
      · rw [if_pos hh, if_pos hh]; omega
      · rw [if_neg hh, if_neg hh]
    have hcell2 : ∀ r c, cellAt g2 r c =
        if r = pos.row.toNat then (if c < m then cellAt g1 r c else none) else cellAt g r c := by
      intro r c
      rw [← hg2, setRow_cellAt _ _ _ (by omega), getD_take]
      by_cases hh : r = pos.row.toNat
      · rw [if_pos hh, if_pos hh, hh]; rfl
      · rw [if_neg hh, if_neg hh, hcell1, if_neg (by tauto)]
    have t1' : ∀ r, rowLen g2 r ≠ 0 → cellAt g2 r (rowLen g2 r - 1) ≠ none := by
      intro r hne
      rw [hrow2] at hne ⊢
      rw [hcell2]
      by_cases hh : r = pos.row.toNat
      · rw [if_pos hh] at hne ⊢
        rw [if_pos hh, if_pos (by omega), hh]
        exact hm3 hne
      · rw [if_neg hh] at hne ⊢
        rw [if_neg hh]
        exact t1 r hne
    have hl2 : (g2.getD pos.row.toNat []).length = m := by
      have := hrow2 pos.row.toNat
      rw [if_pos rfl] at this
      exact this
    by_cases hm0 : m = 0
    · rw [if_pos (by rw [hl2]; exact hm0)]
      obtain ⟨k, hk1, hk2, hk3⟩ := DownSizeRows_spec g2 g2.length (le_refl _)
      rw [hk2]
      exact GridTight_take g2 k hk1 t1' hk3
    · rw [if_neg (by rw [hl2]; exact hm0)]
      refine ⟨t1', ?_⟩
      intro hlen
      rw [hlen2] at hlen ⊢
      rw [hrow2]
      by_cases hh : g.length - 1 = pos.row.toNat
      · rw [if_pos hh]; exact hm0
      · rw [if_neg hh]; exact t2 hlen
  · simp only [if_neg hlast]
    refine ⟨?_, ?_⟩
    · intro r hne
      rw [hrow1] at hne ⊢
      rw [hcell1, if_neg]
      · exact t1 r hne
      · rintro ⟨ha, hb⟩
        apply hlast
        rw [hrl, ← ha]
        omega
    · intro hlen
      rw [hlen1] at hlen ⊢
      rw [hrow1]
      exact t2 hlen

theorem GetCell_ok_valid (s : Sheet) (pos : Position) (x : Option Nat)
    (h : s.GetCell pos = .ok x) : pos.IsValid = true := by
  unfold Sheet.GetCell at h
  by_cases hv : pos.IsValid = false
  · rw [if_pos hv] at h; cases h
  · simpa using hv

theorem GetCell_eq_cellAt (s : Sheet) (pos : Position) (hv : pos.IsValid = true) :
    s.GetCell pos = .ok (cellAt s.sheet_ pos.row.toNat pos.col.toNat) := by
  unfold Sheet.GetCell
  rw [if_neg (by simp [hv])]
  by_cases h : s.sheet_.length > pos.row.toNat ∧
      (s.sheet_.getD pos.row.toNat []).length > pos.col.toNat
  · rw [if_pos h]; rfl
  · rw [if_neg h]
    congr 1
    symm
    apply cellAt_eq_none
    by_cases h1 : s.sheet_.length > pos.row.toNat
    · have : ¬ (s.sheet_.getD pos.row.toNat []).length > pos.col.toNat := fun hh => h ⟨h1, hh⟩
      unfold rowLen
      omega
    · rw [rowLen_eq_zero _ _ (by omega)]
      omega

theorem installEdges_GridTight (this : Nat) (out_cells : List Position) :
    ∀ s : Sheet, GridTight s.sheet_ →
      (installEdges this s out_cells).All (fun s1 => GridTight s1.sheet_) := by
  induction out_cells with
  | nil => intro s h; exact h
  | cons pos rest ih =>
    intro s h
    rw [installEdges]
    split
    · exact h
    · rename_i found hfound
      have hv := (Position.isValid_iff pos).1 (GetCell_ok_valid s pos found hfound)
      have hs1 : GridTight (match found with
          | none => (s.AllocCell pos).1
          | some _ => s).sheet_ := by
        cases found with
        | none => exact GridTight_AllocCell s pos hv.1 hv.2.2.1 h
        | some a => exact h
      simp only
      split
      · split
        · split
          · exact ih _ hs1
          · trivial
        · trivial
      · trivial

theorem TryInstallFormulaCell_GridTight (s : Sheet) (this : Nat) (new_impl : Impl)
    (h : GridTight s.sheet_) :
    (TryInstallFormulaCell s this new_impl).All (fun s1 => GridTight s1.sheet_) := by
  have hu : (match UninstallFormulaCell s.heap this with
      | .throw e => Outcome.throw e s
      | .undefined => .undefined
      | .fuel => .fuel
      | .ok heap1 => .ok ⟨s.sheet_, heap1⟩).All (fun s1 => GridTight s1.sheet_) := by
    cases UninstallFormulaCell s.heap this <;> first | exact h | trivial
  cases new_impl with
  | EmptyImpl => exact hu
  | TextImpl str => exact hu
  | FormulaImpl f c =>
    simp only [TryInstallFormulaCell]
    cases ThrowIfCircularDependency s this f.GetReferencedCells with
    | throw e => exact h
    | undefined => trivial
    | fuel => trivial
    | ok u =>
      simp only
      cases UninstallFormulaCell s.heap this with
      | throw e => exact h
      | undefined => trivial
      | fuel => trivial
      | ok heap1 => exact installEdges_GridTight _ _ _ h

theorem CellSet_GridTight (parse : Parser) (s : Sheet) (this : Nat) (text : String)
    (h : GridTight s.sheet_) :
    (Cell.Set parse s this text).All (fun s1 => GridTight s1.sheet_) := by
  unfold Cell.Set
  split
  · exact h
  · have := TryInstallFormulaCell_GridTight s this ‹Impl› h
    split
    · rename_i s1 hs1
      rw [hs1] at this
      split
      · trivial
      · exact this
    · rename_i o ho
      exact this

theorem SetCell_GridTight (parse : Parser) (s : Sheet) (pos : Position) (text : String)
    (h : GridTight s.sheet_) :
    (s.SetCell parse pos text).All (fun s1 => GridTight s1.sheet_) := by
  unfold Sheet.SetCell
  by_cases hv : pos.IsValid = false
  · rw [if_pos hv]; exact h
  · rw [if_neg hv]
    have hv1 := (Position.isValid_iff pos).1 (by simpa using hv)
    exact CellSet_GridTight parse _ _ _ (GridTight_AllocCell s pos hv1.1 hv1.2.2.1 h)

theorem ClearCell_GridTight (s : Sheet) (pos : Position) (h : GridTight s.sheet_) :
    (s.ClearCell pos).All (fun s1 => GridTight s1.sheet_) := by
  unfold Sheet.ClearCell
  by_cases hv : pos.IsValid = false
  · rw [if_pos hv]; exact h
  · rw [if_neg hv]
    have hv1 := (Position.isValid_iff pos).1 (by simpa using hv)
    by_cases hb : s.sheet_.length > pos.row.toNat ∧
        (s.sheet_.getD pos.row.toNat []).length > pos.col.toNat
    · rw [if_pos hb]
      have ht := GridTight_DownSizeIfNeed s.sheet_ pos hv1.2.2.1 hb.1 hb.2 h
      simp only
      split
      · exact ht
      · split
        · exact h
        · trivial
        · trivial
        · exact ht
    · rw [if_neg hb]; exact h

theorem run_GridTight (parse : Parser) (ops : List Op) :
    ∀ s s1 : Sheet, GridTight s.sheet_ → Sheet.run parse s ops = some s1 →
      GridTight s1.sheet_ := by
  induction ops with
  | nil =>
    intro s s1 h hrun
    simp only [Sheet.run, Option.some.injEq] at hrun
    rw [← hrun]; exact h
  | cons op ops ih =>
    intro s s1 h hrun
    have hstep : (s.step parse op).All (fun s1 => GridTight s1.sheet_) := by
      cases op with
      | set pos text => exact SetCell_GridTight parse s pos text h
      | clear pos => exact ClearCell_GridTight s pos h
    rw [Sheet.run] at hrun
    split at hrun
    · rename_i s2 h2
      rw [h2] at hstep
      exact ih _ _ hstep hrun
    · rename_i e s2 h2
      rw [h2] at hstep
      exact ih _ _ hstep hrun
    · cases hrun

theorem foldl_cols_spec (g : List (List (Option Nat))) : ∀ a : Int,
    a ≤ g.foldl (fun cols row => if (row.length : Int) > cols then row.length else cols) a
    ∧ (∀ row ∈ g, (row.length : Int) ≤
        g.foldl (fun cols row => if (row.length : Int) > cols then row.length else cols) a)
    ∧ (g.foldl (fun cols row => if (row.length : Int) > cols then row.length else cols) a = a
        ∨ ∃ row ∈ g, (row.length : Int) =
          g.foldl (fun cols row => if (row.length : Int) > cols then row.length else cols) a) := by
  induction g with
  | nil => intro a; simp
  | cons row g ih =>
    intro a
    simp only [List.foldl_cons]
    by_cases hgt : (row.length : Int) > a
    · rw [if_pos hgt]
      obtain ⟨h1, h2, h3⟩ := ih (row.length : Int)
      refine ⟨by omega, ?_, ?_⟩
      · intro x hx
        rcases List.mem_cons.1 hx with hx | hx
        · rw [hx]; exact h1
        · exact h2 x hx
      · right
        rcases h3 with h3 | ⟨x, hx, h3⟩
        · exact ⟨row, by simp, h3.symm⟩
        · exact ⟨x, by simp [hx], h3⟩
    · rw [if_neg hgt]
      obtain ⟨h1, h2, h3⟩ := ih a
      refine ⟨h1, ?_, ?_⟩
      · intro x hx
        rcases List.mem_cons.1 hx with hx | hx
        · rw [hx]; omega
        · exact h2 x hx
      · rcases h3 with h3 | ⟨x, hx, h3⟩
        · left; exact h3
        · right; exact ⟨x, by simp [hx], h3⟩

theorem cellAt_ne_none_bounds (g : List (List (Option Nat))) (r c : Nat)
    (h : cellAt g r c ≠ none) : r < g.length ∧ c < rowLen g r := by
  have hc : c < rowLen g r := by
    by_contra hh
    exact h (cellAt_eq_none g r c (by omega))
  refine ⟨?_, hc⟩
  by_contra hh
  rw [rowLen_eq_zero g r (by omega)] at hc
  omega

theorem GridTight_IsBoundingBox (s : Sheet) (h : GridTight s.sheet_) :
    s.IsBoundingBox s.GetPrintableSize := by
  obtain ⟨t1, t2⟩ := h
  obtain ⟨f1, f2, f3⟩ := foldl_cols_spec s.sheet_ 0
  have hrow : ∀ r, (rowLen s.sheet_ r : Int) ≤ s.GetPrintableSize.cols := by
    intro r
    by_cases hr : r < s.sheet_.length
    · have hm : s.sheet_.getD r [] ∈ s.sheet_ := by
        rw [List.getD_eq_getElem _ _ hr]
        exact List.getElem_mem hr
      exact f2 _ hm
    · rw [rowLen_eq_zero _ _ (by omega)]
      exact f1
  constructor
  · intro hnone
    have hlen : s.sheet_.length = 0 := by
      by_contra hne
      exact t1 _ (t2 hne) (hnone _ _)
    have hnil : s.sheet_ = [] := List.length_eq_zero.1 hlen
    unfold Sheet.GetPrintableSize
    rw [hnil]
    rfl
  · rintro ⟨r, c, hrc⟩
    obtain ⟨hr, hc⟩ := cellAt_ne_none_bounds _ _ _ hrc
    have hlen : s.sheet_.length ≠ 0 := by omega
    refine ⟨⟨s.sheet_.length - 1, rowLen s.sheet_ (s.sheet_.length - 1) - 1,
      t1 _ (t2 hlen), ?_⟩, ?_, ?_, ?_⟩
    · show (s.sheet_.length : Int) = _
      omega
    · intro r1 c1 h1
      have := (cellAt_ne_none_bounds _ _ _ h1).1
      show _ ≤ (s.sheet_.length : Int)
      omega
    · have hpos : (0 : Int) < s.GetPrintableSize.cols := by
        have := hrow r
        omega
      rcases f3 with f3 | ⟨row, hrow1, f3⟩
      · exfalso
        have : s.GetPrintableSize.cols = 0 := f3
        omega
      · obtain ⟨n, hn, hrn⟩ := List.mem_iff_getElem.1 hrow1
        have hrl : rowLen s.sheet_ n = row.length := by
          unfold rowLen
          rw [List.getD_eq_getElem _ _ hn, hrn]
        have hcols : s.GetPrintableSize.cols = (rowLen s.sheet_ n : Int) := by
          rw [hrl]; exact f3.symm
        refine ⟨n, rowLen s.sheet_ n - 1, t1 n (by omega), ?_⟩
        omega
    · intro r1 c1 h1
      have := (cellAt_ne_none_bounds _ _ _ h1).2
      have := hrow r1
      omega

theorem GridTight_empty : GridTight Sheet.empty.sheet_ := by
  constructor
  · intro r h
    exact absurd (rowLen_eq_zero [] r (Nat.zero_le _)) h
  · intro h
    exact absurd rfl h

/-- C10. Printable-region tightness: after every sequence of `Sheet::SetCell`
and `Sheet::ClearCell` calls on an empty sheet (returning or throwing, and
with defined behaviour throughout), `GetPrintableSize` is the smallest
rectangle that contains all present cells: `(0, 0)` when no cell is present,
otherwise one more than the largest row index and one more than the largest
column index of a present cell. -/
theorem printable_size_tight (parse : Parser) (ops : List Op) (s : Sheet)
    (h : Sheet.run parse Sheet.empty ops = some s) :
    s.IsBoundingBox s.GetPrintableSize :=
  GridTight_IsBoundingBox s (run_GridTight parse ops Sheet.empty s GridTight_empty h)

/-- C10, the scenario: on an empty sheet set C3 "x", set A1 "y", clear C3 gives (1, 1). -/
theorem printable_size_tight_witness :
    Sheet.run refParser Sheet.empty [.set C3 "x", .set A1 "y", .clear C3]
        = some ⟨[[some 1]], [none, some ⟨.TextImpl "y", [], []⟩]⟩
      ∧ (Sheet.mk [[some 1]] [none, some ⟨.TextImpl "y", [], []⟩]).GetPrintableSize = ⟨1, 1⟩
      ∧ (Sheet.mk [[some 1]] [none, some ⟨.TextImpl "y", [], []⟩]).IsBoundingBox
          (Sheet.mk [[some 1]] [none, some ⟨.TextImpl "y", [], []⟩]).GetPrintableSize :=
  ⟨by decide, by decide,
    printable_size_tight refParser [.set C3 "x", .set A1 "y", .clear C3] _ (by decide)⟩


/-! ## Theorems: the heap and the dependency graph -/

theorem deref_set (heap : Heap) (a b : Nat) (c : Option Cell) :
    deref (heap.set a c) b = if a = b ∧ a < heap.length then c else deref heap b := by
  unfold deref
  rw [List.getElem?_set]
  by_cases h1 : a = b
  · subst h1
    by_cases h2 : a < heap.length
    · simp [h2]
    · have h3 : heap[a]? = none := List.getElem?_eq_none (by omega)
      simp [h2, h3]
  · simp [h1]

theorem deref_lt (heap : Heap) (a : Nat) (c : Cell) (h : deref heap a = some c) :
    a < heap.length := by
  by_contra hlt
  unfold deref at h
  rw [List.getElem?_eq_none (by omega)] at h
  cases h

theorem live_lt (heap : Heap) (a : Nat) (h : live heap a) : a < heap.length := by
  unfold live at h
  cases hd : deref heap a with
  | none => exact absurd hd h
  | some c => exact deref_lt heap a c hd

theorem live_iff (heap : Heap) (a : Nat) : live heap a ↔ ∃ c, deref heap a = some c := by
  unfold live
  cases deref heap a <;> simp

theorem deref_set_live (heap : Heap) (a b : Nat) (c : Option Cell) (h : live heap a) :
    deref (heap.set a c) b = if a = b then c else deref heap b := by
  rw [deref_set]
  have := live_lt heap a h
  by_cases h1 : a = b
  · rw [if_pos ⟨h1, this⟩, if_pos h1]
  · rw [if_neg (fun hh => h1 hh.1), if_neg h1]

theorem deref_append (heap : Heap) (c : Option Cell) (b : Nat) :
    deref (heap ++ [c]) b = if b = heap.length then c else deref heap b := by
  unfold deref
  rw [List.getElem?_append]
  by_cases h1 : b < heap.length
  · rw [if_pos h1, if_neg (by omega)]
  · rw [if_neg h1]
    by_cases h2 : b = heap.length
    · rw [if_pos h2, h2]; simp
    · rw [if_neg h2, List.getElem?_eq_none (by simp; omega), List.getElem?_eq_none (by omega)]

theorem outOf_of_deref (heap : Heap) (a : Nat) (c : Cell) (h : deref heap a = some c) :
    outOf heap a = c.out_nodes_ := by
  unfold outOf; rw [h]

theorem inOf_of_deref (heap : Heap) (a : Nat) (c : Cell) (h : deref heap a = some c) :
    inOf heap a = c.in_nodes_ := by
  unfold inOf; rw [h]

theorem outOf_not_live (heap : Heap) (a : Nat) (h : ¬ live heap a) : outOf heap a = [] := by
  unfold live at h
  unfold outOf
  cases hd : deref heap a with
  | none => rfl
  | some c => exact absurd (by simp [hd]) h


/-! ### The acyclicity search -/

theorem loop_nil (heap : Heap) (this n : Nat) (V : List (Option Nat)) :
    ThrowIfCircularDependencyLoop heap this (n + 1) [] V = .ok () := by
  rw [ThrowIfCircularDependencyLoop]

theorem loop_visited (heap : Heap) (this n : Nat) (front : Option Nat)
    (W V : List (Option Nat)) (h : front ∈ V) :
    ThrowIfCircularDependencyLoop heap this (n + 1) (front :: W) V =
      ThrowIfCircularDependencyLoop heap this n W V := by
  cases front <;> rw [ThrowIfCircularDependencyLoop, if_pos h]

theorem loop_this (heap : Heap) (this n : Nat) (W V : List (Option Nat))
    (h : some this ∉ V) :
    ThrowIfCircularDependencyLoop heap this (n + 1) (some this :: W) V =
      .throw .CircularDependencyException := by
  rw [ThrowIfCircularDependencyLoop, if_neg h, if_pos rfl]

theorem loop_null (heap : Heap) (this n : Nat) (W V : List (Option Nat))
    (h : none ∉ V) :
    ThrowIfCircularDependencyLoop heap this (n + 1) (none :: W) V =
      ThrowIfCircularDependencyLoop heap this n W (none :: V) := by
  rw [ThrowIfCircularDependencyLoop, if_neg h, if_neg (by simp)]

theorem loop_dangling (heap : Heap) (this n a : Nat) (W V : List (Option Nat))
    (h : some a ∉ V) (ha : a ≠ this) (hd : deref heap a = none) :
    ThrowIfCircularDependencyLoop heap this (n + 1) (some a :: W) V = .undefined := by
  rw [ThrowIfCircularDependencyLoop, if_neg h, if_neg (by simpa using ha)]
  simp only [hd]

theorem loop_expand (heap : Heap) (this n a : Nat) (W V : List (Option Nat)) (c : Cell)
    (h : some a ∉ V) (ha : a ≠ this) (hd : deref heap a = some c) :
    ThrowIfCircularDependencyLoop heap this (n + 1) (some a :: W) V =
      ThrowIfCircularDependencyLoop heap this n (c.out_nodes_.map some ++ W) (some a :: V) := by
  rw [ThrowIfCircularDependencyLoop, if_neg h, if_neg (by simpa using ha)]
  simp only [hd]

/-- The search throws only `CircularDependencyException`, and only when `this`
is reached from a cell of the work list. -/
theorem loop_throw (heap : Heap) (this : Nat) : ∀ (fuel : Nat) (W V : List (Option Nat))
    (e : Exception), ThrowIfCircularDependencyLoop heap this fuel W V = .throw e →
    e = .CircularDependencyException ∧
      ∃ a, some a ∈ W ∧ Relation.ReflTransGen (edge heap) a this := by
  intro fuel
  induction fuel with
  | zero => intro W V e h; rw [ThrowIfCircularDependencyLoop] at h; cases h
  | succ n ih =>
    intro W V e h
    cases W with
    | nil => rw [loop_nil] at h; cases h
    | cons front W =>
      by_cases hV : front ∈ V
      · rw [loop_visited _ _ _ _ _ _ hV] at h
        obtain ⟨h1, a, h2, h3⟩ := ih W V e h
        exact ⟨h1, a, List.mem_cons_of_mem _ h2, h3⟩
      · cases front with
        | none =>
          rw [loop_null _ _ _ _ _ hV] at h
          obtain ⟨h1, a, h2, h3⟩ := ih W _ e h
          exact ⟨h1, a, List.mem_cons_of_mem _ h2, h3⟩
        | some a =>
          by_cases ha : a = this
          · subst ha
            rw [loop_this _ _ _ _ _ hV] at h
            cases h
            exact ⟨rfl, a, by simp, Relation.ReflTransGen.refl⟩
          · cases hd : deref heap a with
            | none => rw [loop_dangling _ _ _ _ _ _ hV ha hd] at h; cases h
            | some c =>
              rw [loop_expand _ _ _ _ _ _ c hV ha hd] at h
              obtain ⟨h1, b, h2, h3⟩ := ih _ _ e h
              refine ⟨h1, ?_⟩
              rcases List.mem_append.1 h2 with h2 | h2
              · refine ⟨a, by simp, Relation.ReflTransGen.head ?_ h3⟩
                unfold edge
                rw [outOf_of_deref heap a c hd]
                simpa using h2
              · exact ⟨b, List.mem_cons_of_mem _ h2, h3⟩

/-- When the search returns, the visited set it ends with contains the work
list, does not contain `this`, and is closed under `out_nodes_` for every cell
it added. -/
theorem loop_ok (heap : Heap) (this : Nat) : ∀ (fuel : Nat) (W V : List (Option Nat)),
    ThrowIfCircularDependencyLoop heap this fuel W V = .ok () → some this ∉ V →
    ∃ V1 : List (Option Nat), (∀ x ∈ V, x ∈ V1) ∧ (∀ x ∈ W, x ∈ V1) ∧ some this ∉ V1 ∧
      (∀ a, some a ∈ V1 → some a ∉ V → ∀ b, edge heap a b → some b ∈ V1) := by
  intro fuel
  induction fuel with
  | zero => intro W V h; rw [ThrowIfCircularDependencyLoop] at h; cases h
  | succ n ih =>
    intro W V h hthis
    cases W with
    | nil => exact ⟨V, fun x hx => hx, by simp, hthis, fun a h1 h2 => absurd h1 h2⟩
    | cons front W =>
      by_cases hV : front ∈ V
      · rw [loop_visited _ _ _ _ _ _ hV] at h
        obtain ⟨V1, h1, h2, h3, h4⟩ := ih W V h hthis
        refine ⟨V1, h1, ?_, h3, h4⟩
        intro x hx
        rcases List.mem_cons.1 hx with hx | hx
        · rw [hx]; exact h1 _ hV
        · exact h2 x hx
      · cases front with
        | none =>
          rw [loop_null _ _ _ _ _ hV] at h
          obtain ⟨V1, h1, h2, h3, h4⟩ := ih W _ h (by simpa using hthis)
          refine ⟨V1, fun x hx => h1 x (List.mem_cons_of_mem _ hx), ?_, h3, ?_⟩
          · intro x hx
            rcases List.mem_cons.1 hx with hx | hx
            · rw [hx]; exact h1 _ (by simp)
            · exact h2 x hx
          · intro a ha1 ha2
            exact h4 a ha1 (by simpa using ha2)
        | some a =>
          by_cases ha : a = this
          · subst ha
            rw [loop_this _ _ _ _ _ hV] at h
            cases h
          · cases hd : deref heap a with
            | none => rw [loop_dangling _ _ _ _ _ _ hV ha hd] at h; cases h
            | some c =>
              rw [loop_expand _ _ _ _ _ _ c hV ha hd] at h
              obtain ⟨V1, h1, h2, h3, h4⟩ := ih _ _ h (by
                intro hh
                rcases List.mem_cons.1 hh with hh | hh
                · exact ha (Option.some.inj hh).symm
                · exact hthis hh)
              refine ⟨V1, fun x hx => h1 x (List.mem_cons_of_mem _ hx), ?_, h3, ?_⟩
              · intro x hx
                rcases List.mem_cons.1 hx with hx | hx
                · rw [hx]; exact h1 _ (by simp)
                · exact h2 x (List.mem_append_right _ hx)
              · intro b hb1 hb2 d hd1
                by_cases hba : b = a
                · subst hba
                  apply h2
                  apply List.mem_append_left
                  unfold edge at hd1
                  rw [outOf_of_deref heap b c hd] at hd1
                  exact List.mem_map.2 ⟨d, hd1, rfl⟩
                · apply h4 b hb1 _ d hd1
                  intro hh
                  rcases List.mem_cons.1 hh with hh | hh
                  · exact hba (Option.some.inj hh)
                  · exact hb2 hh

/-- When the search started with an empty visited set returns, `this` cannot
be reached from any cell of the work list. -/
theorem loop_ok_unreachable (heap : Heap) (this fuel : Nat) (W : List (Option Nat))
    (h : ThrowIfCircularDependencyLoop heap this fuel W [] = .ok ())
    (a : Nat) (ha : some a ∈ W) : ¬ Relation.ReflTransGen (edge heap) a this := by
  obtain ⟨V1, _, h2, h3, h4⟩ := loop_ok heap this fuel W [] h (by simp)
  intro hreach
  have hclosed : ∀ x, Relation.ReflTransGen (edge heap) a x → some x ∈ V1 := by
    intro x hx
    induction hx with
    | refl => exact h2 _ ha
    | tail _ hbc ih => exact h4 _ ih (by simp) _ hbc
  exact h3 (hclosed this hreach)


/-! ### The loops are never cut off -/

theorem unvisitedOut_nil (heap : Heap) : ∀ k, unvisitedOut heap [] k = outDegreeSum heap := by
  induction heap with
  | nil => intro k; rfl
  | cons c rest ih =>
    intro k
    rw [unvisitedOut, ih (k + 1)]
    simp [outDegreeSum]

theorem unvisitedOut_cons_le (heap : Heap) (x : Option Nat) (V : List (Option Nat)) :
    ∀ k, unvisitedOut heap (x :: V) k ≤ unvisitedOut heap V k := by
  induction heap with
  | nil => intro k; exact le_refl _
  | cons c rest ih =>
    intro k
    rw [unvisitedOut, unvisitedOut]
    have := ih (k + 1)
    by_cases h1 : some k ∈ V
    · rw [if_pos h1, if_pos (List.mem_cons_of_mem _ h1)]; omega
    · rw [if_neg h1]
      by_cases h2 : some k ∈ x :: V
      · rw [if_pos h2]; omega
      · rw [if_neg h2]; omega

theorem unvisitedOut_visit (heap : Heap) (a : Nat) (V : List (Option Nat)) (c : Cell)
    (hV : some a ∉ V) : ∀ k, k ≤ a → heap[a - k]? = some (some c) →
    unvisitedOut heap (some a :: V) k + c.out_nodes_.length ≤ unvisitedOut heap V k := by
  induction heap with
  | nil => intro k _ h; simp at h
  | cons hd rest ih =>
    intro k hk h
    rw [unvisitedOut, unvisitedOut]
    by_cases hak : a = k
    · subst hak
      simp only [Nat.sub_self, List.getElem?_cons_zero, Option.some.injEq] at h
      subst h
      rw [if_pos (by simp), if_neg hV]
      have := unvisitedOut_cons_le rest (some a) V (a + 1)
      simp only [outDegree]
      omega
    · have h1 : a - k = (a - (k + 1)) + 1 := by omega
      rw [h1, List.getElem?_cons_succ] at h
      have := ih (k + 1) (by omega) h
      have h2 : (some k ∈ some a :: V) ↔ some k ∈ V := by
        simp only [List.mem_cons, Option.some.injEq]
        constructor
        · rintro (hh | hh)
          · exact absurd hh.symm hak
          · exact hh
        · intro hh; exact Or.inr hh
      by_cases h3 : some k ∈ V
      · rw [if_pos h3, if_pos (h2.2 h3)]; omega
      · rw [if_neg h3, if_neg (fun hh => h3 (h2.1 hh))]; omega

theorem deref_getElem? (heap : Heap) (a : Nat) (c : Cell) (h : deref heap a = some c) :
    heap[a]? = some (some c) := by
  unfold deref at h
  cases hh : heap[a]? with
  | none => rw [hh] at h; cases h
  | some x =>
    rw [hh] at h
    simp only [Option.join] at h
    rw [← h]
    rfl

/-- The search is never cut off when it starts with more fuel than the length of
the work list plus the number of `out_nodes_` entries not yet expanded. -/
theorem ThrowIfCircularDependencyLoop_fuel_aux (heap : Heap) (this : Nat) :
    ∀ (fuel : Nat) (W V : List (Option Nat)), W.length + unvisitedOut heap V 0 < fuel →
      ThrowIfCircularDependencyLoop heap this fuel W V ≠ .fuel := by
  intro fuel
  induction fuel with
  | zero => intro W V h; omega
  | succ n ih =>
    intro W V h
    cases W with
    | nil => rw [loop_nil]; simp
    | cons front W =>
      simp only [List.length_cons] at h
      by_cases hV : front ∈ V
      · rw [loop_visited _ _ _ _ _ _ hV]
        exact ih W V (by omega)
      · cases front with
        | none =>
          rw [loop_null _ _ _ _ _ hV]
          have := unvisitedOut_cons_le heap none V 0
          exact ih W _ (by omega)
        | some a =>
          by_cases ha : a = this
          · subst ha
            rw [loop_this _ _ _ _ _ hV]; simp
          · cases hd : deref heap a with
            | none => rw [loop_dangling _ _ _ _ _ _ hV ha hd]; simp
            | some c =>
              rw [loop_expand _ _ _ _ _ _ c hV ha hd]
              have := unvisitedOut_visit heap a V c hV 0 (Nat.zero_le _)
                (deref_getElem? heap a c hd)
              apply ih
              simp only [List.length_append, List.length_map]
              omega

/-- The search of `ThrowIfCircularDependency` is never cut off: it terminates on
every heap. -/
theorem ThrowIfCircularDependencyLoop_fuel (heap : Heap) (this : Nat) (W : List (Option Nat)) :
    ThrowIfCircularDependencyLoop heap this (W.length + outDegreeSum heap + 1) W [] ≠ .fuel := by
  apply ThrowIfCircularDependencyLoop_fuel_aux
  rw [unvisitedOut_nil]
  omega

theorem ThrowIfCircularDependency_fuel (s : Sheet) (this : Nat) (positions : List Position) :
    ThrowIfCircularDependency s this positions ≠ .fuel := by
  unfold ThrowIfCircularDependency
  cases collectCells s positions [] with
  | error e => simp
  | ok W => exact ThrowIfCircularDependencyLoop_fuel s.heap this W


/-! ### Cache invalidation -/

theorem inv_nil (n : Nat) (heap : Heap) : InvalidateCacheLoop (n + 1) heap [] = .ok heap := by
  rw [InvalidateCacheLoop]

theorem inv_dangling (n : Nat) (heap : Heap) (a : Nat) (W : List Nat)
    (hd : deref heap a = none) : InvalidateCacheLoop (n + 1) heap (a :: W) = .undefined := by
  rw [InvalidateCacheLoop]
  simp only [hd]

theorem inv_clear (n : Nat) (heap : Heap) (a : Nat) (W : List Nat) (c : Cell)
    (f : FormulaAST) (v : Value) (hd : deref heap a = some c)
    (hi : c.impl_ = .FormulaImpl f (some v)) :
    InvalidateCacheLoop (n + 1) heap (a :: W) =
      InvalidateCacheLoop n (heap.set a (some (ClearCache c))) (c.in_nodes_.reverse ++ W) := by
  rw [InvalidateCacheLoop]
  simp only [hd, hi]

theorem inv_skip (n : Nat) (heap : Heap) (a : Nat) (W : List Nat) (c : Cell)
    (hd : deref heap a = some c) (hi : ∀ f v, c.impl_ ≠ .FormulaImpl f (some v)) :
    InvalidateCacheLoop (n + 1) heap (a :: W) = InvalidateCacheLoop n heap W := by
  rw [InvalidateCacheLoop]
  simp only [hd]

theorem impl_cases (c : Cell) :
    (∃ f v, c.impl_ = .FormulaImpl f (some v)) ∨ (∀ f v, c.impl_ ≠ .FormulaImpl f (some v)) := by
  cases h : c.impl_ with
  | EmptyImpl => right; intro f v hh; cases hh
  | TextImpl s => right; intro f v hh; cases hh
  | FormulaImpl f cache =>
    cases cache with
    | none => right; intro f v hh; cases hh
    | some v => left; exact ⟨f, v, rfl⟩

theorem sum_map_set {α : Type} (g : α → Nat) (l : List α) (a : Nat) (x y : α)
    (h : l[a]? = some y) : ((l.set a x).map g).sum + g y = (l.map g).sum + g x := by
  induction l generalizing a with
  | nil => simp at h
  | cons hd tl ih =>
    cases a with
    | zero =>
      simp only [List.getElem?_cons_zero, Option.some.injEq] at h
      subst h
      simp only [List.set_cons_zero, List.map_cons, List.sum_cons]
      omega
    | succ a =>
      simp only [List.getElem?_cons_succ] at h
      have := ih a h
      simp only [List.set_cons_succ, List.map_cons, List.sum_cons]
      omega

theorem cachedIn_clear (heap : Heap) (a : Nat) (c : Cell) (f : FormulaAST) (v : Value)
    (hd : deref heap a = some c) (hi : c.impl_ = .FormulaImpl f (some v)) :
    cachedIn (heap.set a (some (ClearCache c))) + c.in_nodes_.length = cachedIn heap := by
  have h := sum_map_set cachedInDegree heap a (some (ClearCache c)) (some c)
    (deref_getElem? heap a c hd)
  have h1 : cachedInDegree (some c) = c.in_nodes_.length := by
    obtain ⟨impl, i, o⟩ := c
    simp only at hi
    subst hi
    rfl
  have h2 : cachedInDegree (some (ClearCache c)) = 0 := by
    obtain ⟨impl, i, o⟩ := c
    simp only at hi
    subst hi
    rfl
  unfold cachedIn
  omega

theorem InvalidateCacheLoop_fuel_aux : ∀ (fuel : Nat) (heap : Heap) (W : List Nat),
    W.length + cachedIn heap < fuel → InvalidateCacheLoop fuel heap W ≠ .fuel := by
  intro fuel
  induction fuel with
  | zero => intro heap W h; omega
  | succ n ih =>
    intro heap W h
    cases W with
    | nil => rw [inv_nil]; simp
    | cons a W =>
      simp only [List.length_cons] at h
      cases hd : deref heap a with
      | none => rw [inv_dangling _ _ _ _ hd]; simp
      | some c =>
        rcases impl_cases c with ⟨f, v, hi⟩ | hi
        · rw [inv_clear _ _ _ _ c f v hd hi]
          apply ih
          have := cachedIn_clear heap a c f v hd hi
          simp only [List.length_append, List.length_reverse]
          omega
        · rw [inv_skip _ _ _ _ c hd hi]
          exact ih _ _ (by omega)

theorem cachedIn_le (heap : Heap) : cachedIn heap ≤ inDegreeSum heap := by
  unfold cachedIn inDegreeSum
  induction heap with
  | nil => simp
  | cons c rest ih =>
    simp only [List.map_cons, List.sum_cons]
    have : cachedInDegree c ≤ inDegree c := by
      cases c with
      | none => simp [cachedInDegree, inDegree]
      | some c =>
        obtain ⟨impl, i, o⟩ := c
        cases impl with
        | EmptyImpl => simp [cachedInDegree]
        | TextImpl s => simp [cachedInDegree]
        | FormulaImpl f cache =>
          cases cache with
          | none => simp [cachedInDegree]
          | some v => simp [cachedInDegree, inDegree]
    omega

/-- The traversal of `InvalidateCache` is never cut off: it terminates on every heap. -/
theorem InvalidateCacheLoop_fuel (heap : Heap) (W : List Nat) :
    InvalidateCacheLoop (W.length + inDegreeSum heap + 1) heap W ≠ .fuel := by
  apply InvalidateCacheLoop_fuel_aux
  have := cachedIn_le heap
  omega

theorem InvalidateCache_fuel (heap : Heap) (this : Nat) : InvalidateCache heap this ≠ .fuel := by
  unfold InvalidateCache
  cases deref heap this with
  | none => simp
  | some c =>
    have := InvalidateCacheLoop_fuel heap c.in_nodes_.reverse
    simp only [List.length_reverse] at this
    exact this

theorem InvalidateCacheLoop_throw : ∀ (fuel : Nat) (heap : Heap) (W : List Nat) (e : Exception),
    InvalidateCacheLoop fuel heap W ≠ .throw e := by
  intro fuel
  induction fuel with
  | zero => intro heap W e; rw [InvalidateCacheLoop]; simp
  | succ n ih =>
    intro heap W e
    cases W with
    | nil => rw [inv_nil]; simp
    | cons a W =>
      cases hd : deref heap a with
      | none => rw [inv_dangling _ _ _ _ hd]; simp
      | some c =>
        rcases impl_cases c with ⟨f, v, hi⟩ | hi
        · rw [inv_clear _ _ _ _ c f v hd hi]; exact ih _ _ _
        · rw [inv_skip _ _ _ _ c hd hi]; exact ih _ _ _


/-! ### How the operations change the edge lists -/

theorem outOf_set (heap : Heap) (x : Nat) (c c1 : Cell) (h : deref heap x = some c) (a : Nat) :
    outOf (heap.set x (some c1)) a = if a = x then c1.out_nodes_ else outOf heap a := by
  unfold outOf
  rw [deref_set_live heap x a _ (by unfold live; rw [h]; simp)]
  by_cases hax : a = x
  · rw [if_pos hax.symm, if_pos hax]
  · rw [if_neg (fun hh => hax hh.symm), if_neg hax]

theorem outOf_set_same (heap : Heap) (x : Nat) (c c1 : Cell) (h : deref heap x = some c)
    (ho : c1.out_nodes_ = c.out_nodes_) (a : Nat) :
    outOf (heap.set x (some c1)) a = outOf heap a := by
  rw [outOf_set heap x c c1 h]
  by_cases hax : a = x
  · rw [if_pos hax, hax, outOf_of_deref heap x c h, ho]
  · rw [if_neg hax]

theorem ClearCache_out (c : Cell) : (ClearCache c).out_nodes_ = c.out_nodes_ := by
  unfold ClearCache
  split <;> rfl

theorem ClearCache_in (c : Cell) : (ClearCache c).in_nodes_ = c.in_nodes_ := by
  unfold ClearCache
  split <;> rfl

theorem InvalidateCacheLoop_outOf : ∀ (fuel : Nat) (heap : Heap) (W : List Nat) (heap1 : Heap),
    InvalidateCacheLoop fuel heap W = .ok heap1 → ∀ a, outOf heap1 a = outOf heap a := by
  intro fuel
  induction fuel with
  | zero => intro heap W heap1 h; rw [InvalidateCacheLoop] at h; cases h
  | succ n ih =>
    intro heap W heap1 h a
    cases W with
    | nil =>
      rw [inv_nil] at h
      cases h
      rfl
    | cons x W =>
      cases hd : deref heap x with
      | none => rw [inv_dangling _ _ _ _ hd] at h; cases h
      | some c =>
        rcases impl_cases c with ⟨f, v, hi⟩ | hi
        · rw [inv_clear _ _ _ _ c f v hd hi] at h
          rw [ih _ _ _ h a, outOf_set_same heap x c _ hd (ClearCache_out c)]
        · rw [inv_skip _ _ _ _ c hd hi] at h
          exact ih _ _ _ h a

theorem InvalidateCache_outOf (heap : Heap) (this : Nat) (heap1 : Heap)
    (h : InvalidateCache heap this = .ok heap1) (a : Nat) : outOf heap1 a = outOf heap a := by
  unfold InvalidateCache at h
  cases hd : deref heap this with
  | none => rw [hd] at h; cases h
  | some c =>
    rw [hd] at h
    exact InvalidateCacheLoop_outOf _ _ _ _ h a

theorem eraseInNodes_outOf (this : Nat) : ∀ (outs : List Nat) (heap heap1 : Heap),
    eraseInNodes this heap outs = some heap1 → ∀ a, outOf heap1 a = outOf heap a := by
  intro outs
  induction outs with
  | nil =>
    intro heap heap1 h a
    rw [eraseInNodes] at h
    cases h
    rfl
  | cons x rest ih =>
    intro heap heap1 h a
    rw [eraseInNodes] at h
    cases hd : deref heap x with
    | none => rw [hd] at h; cases h
    | some c =>
      rw [hd] at h
      simp only at h
      rw [ih _ _ h a]
      exact outOf_set_same heap x c { c with in_nodes_ := c.in_nodes_.erase this } hd rfl a

/-- The method `UninstallFormulaCell` adds no edge. -/
theorem UninstallFormulaCell_outOf (heap : Heap) (this : Nat) (heap1 : Heap)
    (h : UninstallFormulaCell heap this = .ok heap1) (a b : Nat) (hb : b ∈ outOf heap1 a) :
    b ∈ outOf heap a := by
  unfold UninstallFormulaCell at h
  cases hd : deref heap this with
  | none => rw [hd] at h; cases h
  | some c =>
    rw [hd] at h
    simp only at h
    cases hi : c.impl_ with
    | EmptyImpl => rw [hi] at h; cases h; exact hb
    | TextImpl s => rw [hi] at h; cases h; exact hb
    | FormulaImpl f cache =>
      rw [hi] at h
      simp only at h
      cases he : eraseInNodes this heap c.out_nodes_ with
      | none => rw [he] at h; cases h
      | some heap2 =>
        rw [he] at h
        simp only at h
        cases hd2 : deref heap2 this with
        | none => rw [hd2] at h; cases h
        | some c1 =>
          rw [hd2] at h
          simp only at h
          rw [InvalidateCache_outOf _ _ _ h a, outOf_set heap2 this c1 _ hd2] at hb
          by_cases hat : a = this
          · rw [if_pos hat] at hb
            cases hb
          · rw [if_neg hat, eraseInNodes_outOf this _ _ _ he a] at hb
            exact hb

theorem UninstallFormulaCell_live (heap : Heap) (this : Nat) (heap1 : Heap)
    (h : UninstallFormulaCell heap this = .ok heap1) : live heap this := by
  unfold UninstallFormulaCell at h
  unfold live
  cases hd : deref heap this with
  | none => rw [hd] at h; cases h
  | some c => simp

theorem UninstallFormulaCell_throw (heap : Heap) (this : Nat) (e : Exception) :
    UninstallFormulaCell heap this ≠ .throw e := by
  unfold UninstallFormulaCell
  cases deref heap this with
  | none => simp
  | some c =>
    simp only
    cases c.impl_ with
    | EmptyImpl => simp
    | TextImpl s => simp
    | FormulaImpl f cache =>
      simp only
      cases eraseInNodes this heap c.out_nodes_ with
      | none => simp
      | some heap2 =>
        simp only
        cases hd2 : deref heap2 this with
        | none => simp
        | some c1 =>
          simp only
          unfold InvalidateCache
          cases deref (heap2.set this (some { c1 with out_nodes_ := [] })) this with
          | none => simp
          | some c2 => exact InvalidateCacheLoop_throw _ _ _ e

theorem UninstallFormulaCell_fuel (heap : Heap) (this : Nat) :
    UninstallFormulaCell heap this ≠ .fuel := by
  unfold UninstallFormulaCell
  cases deref heap this with
  | none => simp
  | some c =>
    simp only
    cases c.impl_ with
    | EmptyImpl => simp
    | TextImpl s => simp
    | FormulaImpl f cache =>
      simp only
      cases eraseInNodes this heap c.out_nodes_ with
      | none => simp
      | some heap2 =>
        simp only
        cases hd2 : deref heap2 this with
        | none => simp
        | some c1 => exact InvalidateCache_fuel _ _

theorem AllocCell_outOf (s : Sheet) (pos : Position) (a : Nat) :
    outOf (s.AllocCell pos).1.heap a = outOf s.heap a := by
  rcases AllocCell_cases s pos with ⟨x, _, h⟩ | ⟨_, h⟩ <;> rw [h]
  simp only
  unfold outOf
  rw [deref_append]
  by_cases ha : a = s.heap.length
  · rw [if_pos ha]
    have : deref s.heap a = none := by
      unfold deref
      rw [List.getElem?_eq_none (by omega)]
      rfl
    rw [this]
    rfl
  · rw [if_neg ha]

theorem AllocCell_heap_length (s : Sheet) (pos : Position) :
    s.heap.length ≤ (s.AllocCell pos).1.heap.length := by
  rcases AllocCell_cases s pos with ⟨x, _, h⟩ | ⟨_, h⟩ <;> rw [h]
  simp


/-! ### The loop of `TryInstallFormulaCell` -/

theorem installEdges_nil (this : Nat) (s : Sheet) : installEdges this s [] = .ok s := by
  rw [installEdges]

theorem materialize_eq (s : Sheet) (pos : Position) :
    (match cellAt s.sheet_ pos.row.toNat pos.col.toNat with
      | none => (s.AllocCell pos).1
      | some _ => s) = s.materialize pos := rfl

/-- One iteration of the loop of `TryInstallFormulaCell`, case by case. -/
theorem installEdges_cons (this : Nat) (s : Sheet) (pos : Position) (rest : List Position) :
    (∃ e, s.GetCell pos = .error e ∧ installEdges this s (pos :: rest) = .throw e s) ∨
    (pos.IsValid = true ∧ installEdges this s (pos :: rest) = .undefined ∧
      ∀ cell, (s.materialize pos).GetCell pos = .ok (some cell) →
        ¬ (live (s.materialize pos).heap cell ∧ live (s.materialize pos).heap this)) ∨
    (pos.IsValid = true ∧ ∃ cell,
      (s.materialize pos).GetCell pos = .ok (some cell) ∧
      live (s.materialize pos).heap cell ∧ live (s.materialize pos).heap this ∧
      installEdges this s (pos :: rest) =
        installEdges this ⟨(s.materialize pos).sheet_,
          addEdge (s.materialize pos).heap this cell⟩ rest) := by
  rw [installEdges]
  cases hg : s.GetCell pos with
  | error e => left; exact ⟨e, rfl, rfl⟩
  | ok found =>
    right
    have hv := GetCell_ok_valid s pos found hg
    have hfound : found = cellAt s.sheet_ pos.row.toNat pos.col.toNat := by
      rw [GetCell_eq_cellAt s pos hv] at hg
      cases hg
      rfl
    subst hfound
    simp only [materialize_eq s pos]
    cases hg1 : (s.materialize pos).GetCell pos with
    | error e => left; exact ⟨hv, rfl, fun cell hc => by cases hc⟩
    | ok x =>
      cases x with
      | none => left; exact ⟨hv, rfl, fun cell hc => by cases hc⟩
      | some cell =>
        simp only
        cases hc : deref (s.materialize pos).heap cell with
        | none =>
          left
          refine ⟨hv, rfl, fun cell1 hc1 hl => ?_⟩
          cases hc1
          exact hl.1 hc
        | some c =>
          cases ht : deref (s.materialize pos).heap this with
          | none =>
            left
            refine ⟨hv, rfl, fun cell1 _ hl => hl.2 ht⟩
          | some tc =>
            simp only
            have hlive : live (s.materialize pos).heap cell := by
              unfold live; rw [hc]; simp
            have hlt : live (s.materialize pos).heap this := by
              unfold live; rw [ht]; simp
            cases ht1 : deref ((s.materialize pos).heap.set cell
                (some { c with in_nodes_ := c.in_nodes_ ++ [this] })) this with
            | none =>
              exfalso
              rw [deref_set_live _ _ _ _ hlive] at ht1
              by_cases hh : cell = this
              · rw [if_pos hh] at ht1; cases ht1
              · rw [if_neg hh, ht] at ht1; cases ht1
            | some t =>
              right
              refine ⟨hv, cell, rfl, hlive, hlt, ?_⟩
              unfold addEdge
              simp only [hc, Option.map_some', ht1]

theorem materialize_cases (s : Sheet) (pos : Position) :
    ((∃ x, cellAt s.sheet_ pos.row.toNat pos.col.toNat = some x) ∧ s.materialize pos = s) ∨
    (cellAt s.sheet_ pos.row.toNat pos.col.toNat = none
      ∧ s.materialize pos = (s.AllocCell pos).1) := by
  unfold Sheet.materialize
  cases h : cellAt s.sheet_ pos.row.toNat pos.col.toNat with
  | none => right; exact ⟨rfl, rfl⟩
  | some x => left; exact ⟨⟨x, rfl⟩, rfl⟩

theorem materialize_outOf (s : Sheet) (pos : Position) (a : Nat) :
    outOf (s.materialize pos).heap a = outOf s.heap a := by
  rcases materialize_cases s pos with ⟨_, h⟩ | ⟨_, h⟩ <;> rw [h]
  exact AllocCell_outOf s pos a

theorem materialize_heap_length (s : Sheet) (pos : Position) :
    s.heap.length ≤ (s.materialize pos).heap.length := by
  rcases materialize_cases s pos with ⟨_, h⟩ | ⟨_, h⟩ <;> rw [h]
  exact AllocCell_heap_length s pos

theorem materialize_cellAt (s : Sheet) (pos : Position) (hv : pos.IsValid = true)
    (r c x : Nat) (h : cellAt (s.materialize pos).sheet_ r c = some x) :
    cellAt s.sheet_ r c = some x ∨ s.heap.length ≤ x := by
  have hv1 := (Position.isValid_iff pos).1 hv
  rcases materialize_cases s pos with ⟨_, hm⟩ | ⟨hnone, hm⟩ <;> rw [hm] at h
  · left; exact h
  · rw [AllocCell_cellAt s pos hv1.1 hv1.2.2.1] at h
    by_cases hh : r = pos.row.toNat ∧ c = pos.col.toNat
    · rw [if_pos hh] at h
      right
      rcases AllocCell_snd s pos hv1.1 hv1.2.2.1 with ⟨h1, _⟩ | ⟨_, h2, _⟩
      · rw [hnone] at h1; cases h1
      · rw [h2] at h
        cases h
        exact le_refl _
    · rw [if_neg hh] at h
      left; exact h

theorem addEdge_length (heap : Heap) (this cell : Nat) :
    (addEdge heap this cell).length = heap.length := by
  unfold addEdge
  simp

theorem addEdge_outOf (heap : Heap) (this cell : Nat) (hc : live heap cell)
    (ht : live heap this) (a : Nat) :
    outOf (addEdge heap this cell) a =
      if a = this then outOf heap this ++ [cell] else outOf heap a := by
  obtain ⟨c, hcd⟩ := (live_iff heap cell).1 hc
  obtain ⟨t, htd⟩ := (live_iff heap this).1 ht
  have h1 : ∀ x, outOf (heap.set cell (some { c with in_nodes_ := c.in_nodes_ ++ [this] })) x
      = outOf heap x := fun x =>
    outOf_set_same heap cell c { c with in_nodes_ := c.in_nodes_ ++ [this] } hcd rfl x
  have hl1 : live (heap.set cell (some { c with in_nodes_ := c.in_nodes_ ++ [this] })) this := by
    unfold live
    rw [deref_set_live _ _ _ _ hc]
    by_cases hh : cell = this
    · rw [if_pos hh]; simp
    · rw [if_neg hh, htd]; simp
  obtain ⟨t1, ht1⟩ := (live_iff _ this).1 hl1
  unfold addEdge
  simp only [hcd, Option.map_some', ht1]
  rw [outOf_set _ this t1 _ ht1]
  by_cases hat : a = this
  · rw [if_pos hat, if_pos hat]
    simp only
    rw [← outOf_of_deref _ this t1 ht1, h1]
  · rw [if_neg hat, if_neg hat, h1]

theorem Outcome.All_mono (P Q : Sheet → Prop) (o : Outcome) (h : ∀ s, P s → Q s)
    (ho : o.All P) : o.All Q := by
  cases o with
  | ok s => exact h s ho
  | throw e s => exact h s ho
  | undefined => trivial
  | fuel => trivial

theorem GetCell_some_iff (s : Sheet) (pos : Position) (b : Nat) :
    s.GetCell pos = .ok (some b) ↔
      pos.IsValid = true ∧ cellAt s.sheet_ pos.row.toNat pos.col.toNat = some b := by
  constructor
  · intro h
    have hv := GetCell_ok_valid s pos _ h
    rw [GetCell_eq_cellAt s pos hv] at h
    exact ⟨hv, Except.ok.inj h⟩
  · rintro ⟨hv, h⟩
    rw [GetCell_eq_cellAt s pos hv, h]

theorem Target_step (s : Sheet) (pos : Position) (rest : List Position) (hv : pos.IsValid = true)
    (heap2 : Heap) (hlen : (s.materialize pos).heap.length ≤ heap2.length) (b : Nat)
    (h : Sheet.Target ⟨(s.materialize pos).sheet_, heap2⟩ rest b) :
    s.Target (pos :: rest) b := by
  rcases h with ⟨p, hp, hg⟩ | h
  · obtain ⟨hpv, hcell⟩ := (GetCell_some_iff _ p b).1 hg
    rcases materialize_cellAt s pos hv _ _ _ hcell with h1 | h1
    · left
      exact ⟨p, List.mem_cons_of_mem _ hp, (GetCell_some_iff s p b).2 ⟨hpv, h1⟩⟩
    · right; exact h1
  · right
    have := materialize_heap_length s pos
    simp only at h
    omega

/-- The loop of `TryInstallFormulaCell` adds only edges from `this` to the cells
at the referenced positions, existing or freshly created. -/
theorem installEdges_outOf (this : Nat) : ∀ (O : List Position) (s : Sheet),
    (installEdges this s O).All (fun s1 => ∀ a b, b ∈ outOf s1.heap a →
      b ∈ outOf s.heap a ∨ (a = this ∧ s.Target O b)) := by
  intro O
  induction O with
  | nil =>
    intro s
    rw [installEdges_nil]
    intro a b hb
    exact Or.inl hb
  | cons pos rest ih =>
    intro s
    rcases installEdges_cons this s pos rest with ⟨e, _, h⟩ | ⟨_, h, _⟩ | ⟨hv, cell, hg, hlc, hlt, h⟩
    · rw [h]; intro a b hb; exact Or.inl hb
    · rw [h]; trivial
    · rw [h]
      apply Outcome.All_mono _ _ _ _ (ih _)
      intro s1 hs1 a b hb
      rcases hs1 a b hb with h1 | ⟨h1, h2⟩
      · simp only at h1
        rw [addEdge_outOf _ _ _ hlc hlt] at h1
        by_cases hat : a = this
        · rw [if_pos hat] at h1
          rcases List.mem_append.1 h1 with h1 | h1
          · left
            rw [materialize_outOf] at h1
            rw [hat]; exact h1
          · right
            refine ⟨hat, ?_⟩
            simp only [List.mem_singleton] at h1
            subst h1
            obtain ⟨_, hcell⟩ := (GetCell_some_iff _ pos b).1 hg
            rcases materialize_cellAt s pos hv _ _ _ hcell with h3 | h3
            · left
              exact ⟨pos, by simp, (GetCell_some_iff s pos b).2 ⟨hv, h3⟩⟩
            · right; exact h3
        · rw [if_neg hat, materialize_outOf] at h1
          left; exact h1
      · right
        refine ⟨h1, Target_step s pos rest hv _ ?_ b h2⟩
        rw [addEdge_length]


/-! ### Acyclicity -/

theorem reach_split {α : Type} (E E1 : α → α → Prop) (this : α) (N : α → Prop)
    (hE : ∀ a b, E1 a b → E a b ∨ (a = this ∧ N b)) (a b : α)
    (h : Relation.ReflTransGen E1 a b) :
    Relation.ReflTransGen E a b ∨ ∃ t, N t ∧ Relation.ReflTransGen E t b := by
  induction h with
  | refl => exact Or.inl Relation.ReflTransGen.refl
  | tail _ hbc ih =>
    rcases hE _ _ hbc with h1 | ⟨_, h2⟩
    · rcases ih with ih | ⟨t, ht, ih⟩
      · exact Or.inl (ih.tail h1)
      · exact Or.inr ⟨t, ht, ih.tail h1⟩
    · exact Or.inr ⟨_, h2, Relation.ReflTransGen.refl⟩

theorem cycle_split {α : Type} (E E1 : α → α → Prop) (this : α) (N : α → Prop)
    (hE : ∀ a b, E1 a b → E a b ∨ (a = this ∧ N b)) (a b : α)
    (h : Relation.TransGen E1 a b) :
    Relation.TransGen E a b ∨
      (Relation.ReflTransGen E1 a this ∧ ∃ t, N t ∧ Relation.ReflTransGen E t b) := by
  induction h with
  | single hab =>
    rcases hE _ _ hab with h1 | ⟨h1, h2⟩
    · exact Or.inl (Relation.TransGen.single h1)
    · right
      rw [h1]
      exact ⟨Relation.ReflTransGen.refl, _, h2, Relation.ReflTransGen.refl⟩
  | tail hab hbc ih =>
    rcases hE _ _ hbc with h1 | ⟨h1, h2⟩
    · rcases ih with ih | ⟨ih1, t, ht, ih2⟩
      · exact Or.inl (ih.tail h1)
      · exact Or.inr ⟨ih1, t, ht, ih2.tail h1⟩
    · right
      rw [← h1]
      exact ⟨hab.to_reflTransGen, _, h2, Relation.ReflTransGen.refl⟩

/-- Adding edges from `this` to cells from which `this` cannot be reached keeps
the graph acyclic. -/
theorem acyclic_add_edges {α : Type} (E E1 : α → α → Prop) (this : α) (N : α → Prop)
    (hE : ∀ a b, E1 a b → E a b ∨ (a = this ∧ N b))
    (hacyc : ∀ a, ¬ Relation.TransGen E a a)
    (hN : ∀ t, N t → ¬ Relation.ReflTransGen E t this) :
    ∀ a, ¬ Relation.TransGen E1 a a := by
  intro a hcyc
  rcases cycle_split E E1 this N hE a a hcyc with h | ⟨h1, t, ht, h2⟩
  · exact hacyc a h
  · rcases reach_split E E1 this N hE a this h1 with h3 | ⟨t1, ht1, h3⟩
    · exact hN t ht (h2.trans h3)
    · exact hN t1 ht1 h3

theorem Acyclic_of_subset (heap heap1 : Heap)
    (h : ∀ a b, b ∈ outOf heap1 a → b ∈ outOf heap a) (hacyc : Acyclic heap) :
    Acyclic heap1 := by
  intro a hcyc
  exact hacyc a (Relation.TransGen.mono (fun x y hxy => h x y hxy) hcyc)

theorem collectCells_spec (s : Sheet) : ∀ (O : List Position) (acc W : List (Option Nat)),
    collectCells s O acc = .ok W →
      (∀ x ∈ acc, x ∈ W) ∧ (∀ p ∈ O, ∀ x, s.GetCell p = .ok x → x ∈ W) ∧
      (∀ x ∈ W, x ∈ acc ∨ ∃ p ∈ O, s.GetCell p = .ok x) ∧
      W.length = acc.length + O.length := by
  intro O
  induction O with
  | nil =>
    intro acc W h
    rw [collectCells] at h
    cases h
    exact ⟨fun x hx => hx, by simp, fun x hx => Or.inl hx, by simp⟩
  | cons pos rest ih =>
    intro acc W h
    rw [collectCells] at h
    cases hg : s.GetCell pos with
    | error e => rw [hg] at h; cases h
    | ok cell =>
      rw [hg] at h
      obtain ⟨h1, h2, h3, h4⟩ := ih _ _ h
      refine ⟨fun x hx => h1 x (List.mem_cons_of_mem _ hx), ?_, ?_, ?_⟩
      · intro p hp x hx
        rcases List.mem_cons.1 hp with hp | hp
        · subst hp
          rw [hg] at hx
          cases hx
          exact h1 _ (by simp)
        · exact h2 p hp x hx
      · intro x hx
        rcases h3 x hx with h5 | ⟨p, hp, h5⟩
        · rcases List.mem_cons.1 h5 with h5 | h5
          · right
            exact ⟨pos, by simp, by rw [h5]; exact hg⟩
          · left; exact h5
        · right; exact ⟨p, List.mem_cons_of_mem _ hp, h5⟩
      · rw [h4]
        simp only [List.length_cons]
        omega

/-- When `ThrowIfCircularDependency` returns, `this` cannot be reached from any
cell at a referenced position. -/
theorem ThrowIfCircularDependency_ok (s : Sheet) (this : Nat) (O : List Position)
    (h : ThrowIfCircularDependency s this O = .ok ()) (p : Position) (hp : p ∈ O) (a : Nat)
    (hg : s.GetCell p = .ok (some a)) : ¬ Relation.ReflTransGen (edge s.heap) a this := by
  unfold ThrowIfCircularDependency at h
  cases hc : collectCells s O [] with
  | error e => rw [hc] at h; cases h
  | ok W =>
    rw [hc] at h
    simp only at h
    obtain ⟨_, h2, _, _⟩ := collectCells_spec s O [] W hc
    exact loop_ok_unreachable s.heap this _ W h a (h2 p hp _ hg)

theorem InvalidateCacheLoop_length : ∀ (fuel : Nat) (heap : Heap) (W : List Nat) (heap1 : Heap),
    InvalidateCacheLoop fuel heap W = .ok heap1 → heap1.length = heap.length := by
  intro fuel
  induction fuel with
  | zero => intro heap W heap1 h; rw [InvalidateCacheLoop] at h; cases h
  | succ n ih =>
    intro heap W heap1 h
    cases W with
    | nil =>
      rw [inv_nil] at h
      cases h
      rfl
    | cons x W =>
      cases hd : deref heap x with
      | none => rw [inv_dangling _ _ _ _ hd] at h; cases h
      | some c =>
        rcases impl_cases c with ⟨f, v, hi⟩ | hi
        · rw [inv_clear _ _ _ _ c f v hd hi] at h
          rw [ih _ _ _ h, List.length_set]
        · rw [inv_skip _ _ _ _ c hd hi] at h
          exact ih _ _ _ h

theorem eraseInNodes_length (this : Nat) : ∀ (outs : List Nat) (heap heap1 : Heap),
    eraseInNodes this heap outs = some heap1 → heap1.length = heap.length := by
  intro outs
  induction outs with
  | nil =>
    intro heap heap1 h
    rw [eraseInNodes] at h
    cases h
    rfl
  | cons x rest ih =>
    intro heap heap1 h
    rw [eraseInNodes] at h
    cases hd : deref heap x with
    | none => rw [hd] at h; cases h
    | some c =>
      rw [hd] at h
      simp only at h
      rw [ih _ _ h, List.length_set]

theorem UninstallFormulaCell_length (heap : Heap) (this : Nat) (heap1 : Heap)
    (h : UninstallFormulaCell heap this = .ok heap1) : heap1.length = heap.length := by
  unfold UninstallFormulaCell at h
  cases hd : deref heap this with
  | none => rw [hd] at h; cases h
  | some c =>
    rw [hd] at h
    simp only at h
    cases hi : c.impl_ with
    | EmptyImpl => rw [hi] at h; cases h; rfl
    | TextImpl s => rw [hi] at h; cases h; rfl
    | FormulaImpl f cache =>
      rw [hi] at h
      simp only at h
      cases he : eraseInNodes this heap c.out_nodes_ with
      | none => rw [he] at h; cases h
      | some heap2 =>
        rw [he] at h
        simp only at h
        cases hd2 : deref heap2 this with
        | none => rw [hd2] at h; cases h
        | some c1 =>
          rw [hd2] at h
          simp only at h
          unfold InvalidateCache at h
          cases hd3 : deref (heap2.set this (some { c1 with out_nodes_ := [] })) this with
          | none => rw [hd3] at h; cases h
          | some c3 =>
            rw [hd3] at h
            simp only at h
            rw [InvalidateCacheLoop_length _ _ _ _ h, List.length_set,
              eraseInNodes_length this _ _ _ he]

theorem reach_of_no_out (heap : Heap) (t x : Nat) (h : outOf heap t = [])
    (hr : Relation.ReflTransGen (edge heap) t x) : x = t := by
  induction hr using Relation.ReflTransGen.head_induction_on with
  | refl => rfl
  | head hab _ _ =>
    unfold edge at hab
    rw [h] at hab
    cases hab

theorem outOf_ge_length (heap : Heap) (t : Nat) (h : heap.length ≤ t) : outOf heap t = [] := by
  apply outOf_not_live
  intro hl
  have := live_lt heap t hl
  omega

/-- The method `TryInstallFormulaCell` keeps the graph acyclic. -/
theorem TryInstallFormulaCell_Acyclic (s : Sheet) (this : Nat) (new_impl : Impl)
    (h : Acyclic s.heap) :
    (TryInstallFormulaCell s this new_impl).All (fun s1 => Acyclic s1.heap) := by
  have hu : (match UninstallFormulaCell s.heap this with
      | .throw e => Outcome.throw e s
      | .undefined => .undefined
      | .fuel => .fuel
      | .ok heap1 => .ok ⟨s.sheet_, heap1⟩).All (fun s1 => Acyclic s1.heap) := by
    cases hun : UninstallFormulaCell s.heap this with
    | throw e => exact h
    | undefined => trivial
    | fuel => trivial
    | ok heap1 =>
      exact Acyclic_of_subset _ _ (UninstallFormulaCell_outOf _ _ _ hun) h
  cases new_impl with
  | EmptyImpl => exact hu
  | TextImpl str => exact hu
  | FormulaImpl f c =>
    simp only [TryInstallFormulaCell]
    cases hchk : ThrowIfCircularDependency s this f.GetReferencedCells with
    | throw e => exact h
    | undefined => trivial
    | fuel => trivial
    | ok u =>
      simp only
      cases hun : UninstallFormulaCell s.heap this with
      | throw e => exact h
      | undefined => trivial
      | fuel => trivial
      | ok heap1 =>
        simp only
        apply Outcome.All_mono _ _ _ _ (installEdges_outOf this f.GetReferencedCells ⟨s.sheet_, heap1⟩)
        intro s1 hs1
        apply acyclic_add_edges (edge s.heap) (edge s1.heap) this
          (Sheet.Target ⟨s.sheet_, heap1⟩ f.GetReferencedCells) _ h
        · intro t ht hreach
          rcases ht with ⟨p, hp, hg⟩ | ht
          · exact ThrowIfCircularDependency_ok s this _ hchk p hp t hg hreach
          · simp only at ht
            rw [UninstallFormulaCell_length _ _ _ hun] at ht
            have := reach_of_no_out s.heap t this (outOf_ge_length _ _ ht) hreach
            have := live_lt _ _ (UninstallFormulaCell_live _ _ _ hun)
            omega
        · intro a b hab
          rcases hs1 a b hab with h1 | h1
          · exact Or.inl (UninstallFormulaCell_outOf _ _ _ hun a b h1)
          · exact Or.inr h1

theorem outOf_set_impl (heap : Heap) (this : Nat) (c : Cell) (impl : Impl)
    (h : deref heap this = some c) (a : Nat) :
    outOf (heap.set this (some { c with impl_ := impl })) a = outOf heap a :=
  outOf_set_same heap this c { c with impl_ := impl } h rfl a

theorem CellSet_Acyclic (parse : Parser) (s : Sheet) (this : Nat) (text : String)
    (h : Acyclic s.heap) :
    (Cell.Set parse s this text).All (fun s1 => Acyclic s1.heap) := by
  unfold Cell.Set
  cases Cell.newImpl parse text with
  | error e => exact h
  | ok new_impl =>
    simp only
    have ht := TryInstallFormulaCell_Acyclic s this new_impl h
    cases hr : TryInstallFormulaCell s this new_impl with
    | ok s1 =>
      rw [hr] at ht
      simp only
      cases hd : deref s1.heap this with
      | none => trivial
      | some c =>
        exact Acyclic_of_subset _ _
          (fun a b hb => by rw [outOf_set_impl _ _ _ _ hd] at hb; exact hb) ht
    | throw e s1 => rw [hr] at ht; exact ht
    | undefined => trivial
    | fuel => trivial

theorem SetCell_Acyclic (parse : Parser) (s : Sheet) (pos : Position) (text : String)
    (h : Acyclic s.heap) :
    (s.SetCell parse pos text).All (fun s1 => Acyclic s1.heap) := by
  unfold Sheet.SetCell
  by_cases hv : pos.IsValid = false
  · rw [if_pos hv]; exact h
  · rw [if_neg hv]
    apply CellSet_Acyclic
    exact Acyclic_of_subset _ _ (fun a b hb => by rw [AllocCell_outOf] at hb; exact hb) h

theorem outOf_free (heap : Heap) (x a b : Nat) (h : b ∈ outOf (heap.set x none) a) :
    b ∈ outOf heap a := by
  unfold outOf at h ⊢
  rw [deref_set] at h
  by_cases hh : x = a ∧ x < heap.length
  · rw [if_pos hh] at h; cases h
  · rw [if_neg hh] at h; exact h

theorem ClearCell_Acyclic (s : Sheet) (pos : Position) (h : Acyclic s.heap) :
    (s.ClearCell pos).All (fun s1 => Acyclic s1.heap) := by
  unfold Sheet.ClearCell
  by_cases hv : pos.IsValid = false
  · rw [if_pos hv]; exact h
  · rw [if_neg hv]
    by_cases hb : s.sheet_.length > pos.row.toNat ∧
        (s.sheet_.getD pos.row.toNat []).length > pos.col.toNat
    · rw [if_pos hb]
      simp only
      cases (s.sheet_.getD pos.row.toNat []).getD pos.col.toNat none with
      | none => exact h
      | some a =>
        simp only
        cases hun : UninstallFormulaCell s.heap a with
        | throw e => exact h
        | undefined => trivial
        | fuel => trivial
        | ok heap1 =>
          exact Acyclic_of_subset _ _ (fun x y hy =>
            UninstallFormulaCell_outOf _ _ _ hun x y (outOf_free _ _ _ _ hy)) h
    · rw [if_neg hb]; exact h

theorem Acyclic_empty : Acyclic Sheet.empty.heap := by
  intro a hcyc
  have : ∀ x y, ¬ edge Sheet.empty.heap x y := by
    intro x y hxy
    unfold edge outOf deref at hxy
    simp [Sheet.empty] at hxy
  cases hcyc with
  | single h => exact this _ _ h
  | tail _ h => exact this _ _ h

theorem run_invariant (P : Sheet → Prop) (parse : Parser)
    (hstep : ∀ s op, P s → (s.step parse op).All P) (ops : List Op) :
    ∀ s s1 : Sheet, P s → Sheet.run parse s ops = some s1 → P s1 := by
  induction ops with
  | nil =>
    intro s s1 h hrun
    simp only [Sheet.run, Option.some.injEq] at hrun
    rw [← hrun]; exact h
  | cons op ops ih =>
    intro s s1 h hrun
    have hs := hstep s op h
    rw [Sheet.run] at hrun
    split at hrun
    · rename_i s2 h2
      rw [h2] at hs
      exact ih _ _ hs hrun
    · rename_i e s2 h2
      rw [h2] at hs
      exact ih _ _ hs hrun
    · cases hrun

/-- C4. Acyclicity is an invariant of the sheet: after every sequence of
`Sheet::SetCell` and `Sheet::ClearCell` calls on an empty sheet, calls that
throw included (and with defined behaviour throughout), the directed graph
whose edges are the cells' `out_nodes_` contains no cycle. -/
theorem acyclic_invariant (parse : Parser) (ops : List Op) (s : Sheet)
    (h : Sheet.run parse Sheet.empty ops = some s) : Acyclic s.heap := by
  refine run_invariant (fun s => Acyclic s.heap) parse ?_ ops Sheet.empty s Acyclic_empty h
  intro s op hs
  cases op with
  | set pos text => exact SetCell_Acyclic parse s pos text hs
  | clear pos => exact ClearCell_Acyclic s pos hs


/-! ### Defined behaviour on a heap without dangling pointers -/

theorem live_set_some (heap : Heap) (x : Nat) (c : Cell) (hx : live heap x) (a : Nat) :
    live (heap.set x (some c)) a ↔ live heap a := by
  unfold live
  rw [deref_set_live heap x a _ hx]
  by_cases h : x = a
  · rw [if_pos h]
    subst h
    unfold live at hx
    simp [hx]
  · rw [if_neg h]

theorem live_append (heap : Heap) (c : Option Cell) (a : Nat) (h : live heap a) :
    live (heap ++ [c]) a := by
  unfold live at h ⊢
  rw [deref_append, if_neg]
  · exact h
  · have := live_lt heap a h
    omega

theorem inOf_set (heap : Heap) (x : Nat) (c c1 : Cell) (h : deref heap x = some c) (a : Nat) :
    inOf (heap.set x (some c1)) a = if a = x then c1.in_nodes_ else inOf heap a := by
  unfold inOf
  rw [deref_set_live heap x a _ (by unfold live; rw [h]; simp)]
  by_cases hax : a = x
  · rw [if_pos hax.symm, if_pos hax]
  · rw [if_neg (fun hh => hax hh.symm), if_neg hax]

theorem inOf_set_same (heap : Heap) (x : Nat) (c c1 : Cell) (h : deref heap x = some c)
    (ho : c1.in_nodes_ = c.in_nodes_) (a : Nat) :
    inOf (heap.set x (some c1)) a = inOf heap a := by
  rw [inOf_set heap x c c1 h]
  by_cases hax : a = x
  · rw [if_pos hax, hax, inOf_of_deref heap x c h, ho]
  · rw [if_neg hax]

/-- The search dereferences no destroyed cell when neither the work list nor an
`out_nodes_` list names one. -/
theorem loop_defined (heap : Heap) (this : Nat)
    (hout : ∀ a b, b ∈ outOf heap a → live heap b) :
    ∀ (fuel : Nat) (W V : List (Option Nat)), (∀ a, some a ∈ W → live heap a) →
      ThrowIfCircularDependencyLoop heap this fuel W V ≠ .undefined := by
  intro fuel
  induction fuel with
  | zero => intro W V _; rw [ThrowIfCircularDependencyLoop]; simp
  | succ n ih =>
    intro W V hW
    cases W with
    | nil => rw [loop_nil]; simp
    | cons front W =>
      have hW1 : ∀ a, some a ∈ W → live heap a := fun a ha => hW a (List.mem_cons_of_mem _ ha)
      by_cases hV : front ∈ V
      · rw [loop_visited _ _ _ _ _ _ hV]
        exact ih W V hW1
      · cases front with
        | none =>
          rw [loop_null _ _ _ _ _ hV]
          exact ih W _ hW1
        | some a =>
          by_cases ha : a = this
          · subst ha
            rw [loop_this _ _ _ _ _ hV]; simp
          · obtain ⟨c, hd⟩ := (live_iff heap a).1 (hW a (by simp))
            rw [loop_expand _ _ _ _ _ _ c hV ha hd]
            apply ih
            intro b hb
            rcases List.mem_append.1 hb with hb | hb
            · apply hout a b
              rw [outOf_of_deref heap a c hd]
              simpa using hb
            · exact hW1 b hb

theorem collectCells_ok (s : Sheet) : ∀ (O : List Position) (acc : List (Option Nat)),
    (∀ p ∈ O, p.IsValid = true) → ∃ W, collectCells s O acc = .ok W := by
  intro O
  induction O with
  | nil => intro acc _; exact ⟨acc, by rw [collectCells]⟩
  | cons pos rest ih =>
    intro acc hv
    rw [collectCells, GetCell_eq_cellAt s pos (hv pos (by simp))]
    exact ih _ (fun p hp => hv p (List.mem_cons_of_mem _ hp))

/-- On a sheet without dangling pointers the check either returns or throws
`CircularDependencyException`, and it throws exactly when `this` is reached
from a cell at a referenced position. -/
theorem ThrowIfCircularDependency_spec (s : Sheet) (this : Nat) (O : List Position)
    (hnd : NoDangling s.heap) (hgrid : s.GridLive) (hv : ∀ p ∈ O, p.IsValid = true) :
    (s.ReachedFrom O this ∧
      ThrowIfCircularDependency s this O = .throw .CircularDependencyException) ∨
    (¬ s.ReachedFrom O this ∧ ThrowIfCircularDependency s this O = .ok ()) := by
  obtain ⟨W, hW⟩ := collectCells_ok s O [] hv
  obtain ⟨_, h2, h3, _⟩ := collectCells_spec s O [] W hW
  have hWlive : ∀ a, some a ∈ W → live s.heap a := by
    intro a ha
    rcases h3 _ ha with h | ⟨p, _, hg⟩
    · cases h
    · obtain ⟨_, hc⟩ := (GetCell_some_iff s p a).1 hg
      exact hgrid _ _ _ hc
  have hdef := loop_defined s.heap this (fun a b hb => (hnd a).1 b hb)
    (W.length + outDegreeSum s.heap + 1) W [] hWlive
  have hfuel := ThrowIfCircularDependencyLoop_fuel s.heap this W
  have heq : ThrowIfCircularDependency s this O =
      ThrowIfCircularDependencyLoop s.heap this (W.length + outDegreeSum s.heap + 1) W [] := by
    unfold ThrowIfCircularDependency
    rw [hW]
  rw [heq]
  cases hr : ThrowIfCircularDependencyLoop s.heap this (W.length + outDegreeSum s.heap + 1) W [] with
  | ok u =>
    right
    refine ⟨?_, rfl⟩
    rintro ⟨p, hp, a, hg, hreach⟩
    exact loop_ok_unreachable s.heap this _ W hr a (h2 p hp _ hg) hreach
  | throw e =>
    left
    obtain ⟨he, a, ha, hreach⟩ := loop_throw s.heap this _ W [] e hr
    subst he
    refine ⟨?_, rfl⟩
    rcases h3 _ ha with h | ⟨p, hp, hg⟩
    · cases h
    · exact ⟨p, hp, a, hg, hreach⟩
  | undefined => exact absurd hr hdef
  | fuel => exact absurd hr hfuel

theorem eraseInNodes_ok (this : Nat) : ∀ (outs : List Nat) (heap : Heap),
    (∀ b ∈ outs, live heap b) →
    ∃ heap1, eraseInNodes this heap outs = some heap1 ∧ (∀ a, live heap1 a ↔ live heap a) ∧
      (∀ a b, b ∈ inOf heap1 a → b ∈ inOf heap a) := by
  intro outs
  induction outs with
  | nil =>
    intro heap _
    exact ⟨heap, by rw [eraseInNodes], fun a => Iff.rfl, fun a b hb => hb⟩
  | cons x rest ih =>
    intro heap hl
    have hx := hl x (by simp)
    obtain ⟨c, hd⟩ := (live_iff heap x).1 hx
    rw [eraseInNodes]
    simp only [hd]
    have hlive := live_set_some heap x { c with in_nodes_ := c.in_nodes_.erase this } hx
    obtain ⟨heap1, h1, h2, h3⟩ := ih (heap.set x (some { c with in_nodes_ := c.in_nodes_.erase this }))
      (fun b hb => (hlive b).2 (hl b (List.mem_cons_of_mem _ hb)))
    refine ⟨heap1, h1, fun a => (h2 a).trans (hlive a), ?_⟩
    intro a b hb
    have := h3 a b hb
    rw [inOf_set heap x c _ hd] at this
    by_cases hax : a = x
    · rw [if_pos hax] at this
      rw [hax, inOf_of_deref heap x c hd]
      exact List.mem_of_mem_erase this
    · rw [if_neg hax] at this
      exact this

theorem InvalidateCacheLoop_ok : ∀ (fuel : Nat) (heap : Heap) (W : List Nat),
    (∀ a b, b ∈ inOf heap a → live heap b) → (∀ b ∈ W, live heap b) →
    InvalidateCacheLoop fuel heap W ≠ .fuel →
    ∃ heap1, InvalidateCacheLoop fuel heap W = .ok heap1 ∧ (∀ a, live heap1 a ↔ live heap a) := by
  intro fuel
  induction fuel with
  | zero => intro heap W _ _ hf; rw [InvalidateCacheLoop] at hf; exact absurd rfl hf
  | succ n ih =>
    intro heap W hin hW hf
    cases W with
    | nil => exact ⟨heap, inv_nil n heap, fun a => Iff.rfl⟩
    | cons x W =>
      have hW1 : ∀ b ∈ W, live heap b := fun b hb => hW b (List.mem_cons_of_mem _ hb)
      have hx := hW x (by simp)
      obtain ⟨c, hd⟩ := (live_iff heap x).1 hx
      rcases impl_cases c with ⟨f, v, hi⟩ | hi
      · rw [inv_clear _ _ _ _ c f v hd hi] at hf ⊢
        have hlive := live_set_some heap x (ClearCache c) hx
        have hin1 : ∀ a, inOf (heap.set x (some (ClearCache c))) a = inOf heap a :=
          fun a => inOf_set_same heap x c (ClearCache c) hd (ClearCache_in c) a
        obtain ⟨heap1, h1, h2⟩ := ih _ _
          (fun a b hb => (hlive b).2 (hin a b (by rw [hin1] at hb; exact hb)))
          (fun b hb => by
            apply (hlive b).2
            rcases List.mem_append.1 hb with hb | hb
            · apply hin x b
              rw [inOf_of_deref heap x c hd]
              exact List.mem_reverse.1 hb
            · exact hW1 b hb) hf
        exact ⟨heap1, h1, fun a => (h2 a).trans (hlive a)⟩
      · rw [inv_skip _ _ _ _ c hd hi] at hf ⊢
        exact ih _ _ hin hW1 hf

/-- On a heap without dangling pointers `UninstallFormulaCell` returns, and it
destroys and creates no cell. -/
theorem UninstallFormulaCell_ok (heap : Heap) (this : Nat) (hnd : NoDangling heap)
    (ht : live heap this) :
    ∃ heap1, UninstallFormulaCell heap this = .ok heap1 ∧ (∀ a, live heap1 a ↔ live heap a) := by
  obtain ⟨c, hd⟩ := (live_iff heap this).1 ht
  have hfuel := UninstallFormulaCell_fuel heap this
  unfold UninstallFormulaCell at hfuel ⊢
  simp only [hd] at hfuel ⊢
  cases hi : c.impl_ with
  | EmptyImpl => exact ⟨heap, rfl, fun a => Iff.rfl⟩
  | TextImpl str => exact ⟨heap, rfl, fun a => Iff.rfl⟩
  | FormulaImpl f cache =>
    rw [hi] at hfuel
    simp only at hfuel ⊢
    obtain ⟨heap2, he, hl2, hin2⟩ := eraseInNodes_ok this c.out_nodes_ heap (fun b hb => by
      apply (hnd this).1 b
      rw [outOf_of_deref heap this c hd]
      exact hb)
    rw [he] at hfuel
    simp only [he] at hfuel ⊢
    have ht2 : live heap2 this := (hl2 this).2 ht
    obtain ⟨c1, hd2⟩ := (live_iff heap2 this).1 ht2
    rw [hd2] at hfuel
    simp only [hd2] at hfuel ⊢
    have hlive3 := live_set_some heap2 this { c1 with out_nodes_ := [] } ht2
    have hin3 : ∀ a, inOf (heap2.set this (some { c1 with out_nodes_ := [] })) a = inOf heap2 a :=
      fun a => inOf_set_same heap2 this c1 { c1 with out_nodes_ := [] } hd2 rfl a
    have ht3 : live (heap2.set this (some { c1 with out_nodes_ := [] })) this := (hlive3 this).2 ht2
    obtain ⟨c3, hd3⟩ := (live_iff _ this).1 ht3
    unfold InvalidateCache at hfuel ⊢
    rw [hd3] at hfuel
    simp only [hd3] at hfuel ⊢
    have hinlive : ∀ a b, b ∈ inOf (heap2.set this (some { c1 with out_nodes_ := [] })) a →
        live (heap2.set this (some { c1 with out_nodes_ := [] })) b := by
      intro a b hb
      rw [hin3] at hb
      exact (hlive3 b).2 ((hl2 b).2 ((hnd a).2 b (hin2 a b hb)))
    obtain ⟨heap4, h4, hl4⟩ := InvalidateCacheLoop_ok _ _ c3.in_nodes_.reverse hinlive
      (fun b hb => by
        apply hinlive this b
        rw [inOf_of_deref _ this c3 hd3]
        exact List.mem_reverse.1 hb) hfuel
    exact ⟨heap4, h4, fun a => ((hl4 a).trans (hlive3 a)).trans (hl2 a)⟩

theorem materialize_GridLive (s : Sheet) (pos : Position) (hv : pos.IsValid = true)
    (hgrid : s.GridLive) : (s.materialize pos).GridLive := by
  have hv1 := (Position.isValid_iff pos).1 hv
  rcases materialize_cases s pos with ⟨_, hm⟩ | ⟨hnone, hm⟩ <;> rw [hm]
  · exact hgrid
  · intro r c a ha
    rw [AllocCell_cellAt s pos hv1.1 hv1.2.2.1] at ha
    rcases AllocCell_snd s pos hv1.1 hv1.2.2.1 with ⟨h1, _⟩ | ⟨_, h2, h3⟩
    · rw [hnone] at h1; cases h1
    · rw [h3]
      by_cases hh : r = pos.row.toNat ∧ c = pos.col.toNat
      · rw [if_pos hh, h2] at ha
        cases ha
        unfold live
        rw [deref_append, if_pos rfl]
        simp
      · rw [if_neg hh] at ha
        exact live_append _ _ _ (hgrid r c a ha)

theorem materialize_live (s : Sheet) (pos : Position) (a : Nat) (h : live s.heap a) :
    live (s.materialize pos).heap a := by
  rcases materialize_cases s pos with ⟨_, hm⟩ | ⟨_, hm⟩ <;> rw [hm]
  · exact h
  · rcases AllocCell_cases s pos with ⟨x, _, h1⟩ | ⟨_, h1⟩ <;> rw [h1]
    · exact h
    · exact live_append _ _ _ h

theorem materialize_GetCell (s : Sheet) (pos : Position) (hv : pos.IsValid = true) :
    ∃ cell, (s.materialize pos).GetCell pos = .ok (some cell) := by
  have hv1 := (Position.isValid_iff pos).1 hv
  rcases materialize_cases s pos with ⟨⟨x, hx⟩, hm⟩ | ⟨_, hm⟩ <;> rw [hm]
  · exact ⟨x, (GetCell_some_iff s pos x).2 ⟨hv, hx⟩⟩
  · refine ⟨(s.AllocCell pos).2, (GetCell_some_iff _ pos _).2 ⟨hv, ?_⟩⟩
    rw [AllocCell_cellAt s pos hv1.1 hv1.2.2.1, if_pos ⟨rfl, rfl⟩]

theorem addEdge_live (heap : Heap) (this cell : Nat) (hc : live heap cell) (ht : live heap this)
    (a : Nat) : live (addEdge heap this cell) a ↔ live heap a := by
  obtain ⟨c, hcd⟩ := (live_iff heap cell).1 hc
  have hl1 := live_set_some heap cell { c with in_nodes_ := c.in_nodes_ ++ [this] } hc
  obtain ⟨t1, ht1⟩ := (live_iff _ this).1 ((hl1 this).2 ht)
  unfold addEdge
  simp only [hcd, Option.map_some', ht1]
  exact (live_set_some _ this _ ((hl1 this).2 ht) a).trans (hl1 a)

/-- On a sheet whose grid holds live cells the loop of `TryInstallFormulaCell`
returns for valid positions. -/
theorem installEdges_ok (this : Nat) : ∀ (O : List Position) (s : Sheet),
    (∀ p ∈ O, p.IsValid = true) → s.GridLive → live s.heap this →
    ∃ s1, installEdges this s O = .ok s1 ∧ live s1.heap this := by
  intro O
  induction O with
  | nil => intro s _ _ ht; exact ⟨s, installEdges_nil this s, ht⟩
  | cons pos rest ih =>
    intro s hv hgrid ht
    have hpv := hv pos (by simp)
    have hmg := materialize_GridLive s pos hpv hgrid
    have hmt := materialize_live s pos this ht
    obtain ⟨cell0, hcell0⟩ := materialize_GetCell s pos hpv
    rcases installEdges_cons this s pos rest with ⟨e, h, _⟩ | ⟨_, _, h⟩ | ⟨_, cell, hg, hlc, hlt, h⟩
    · rw [GetCell_eq_cellAt s pos hpv] at h; cases h
    · exfalso
      apply h cell0 hcell0
      obtain ⟨_, hc⟩ := (GetCell_some_iff _ pos cell0).1 hcell0
      exact ⟨hmg _ _ _ hc, hmt⟩
    · rw [h]
      apply ih
      · exact fun p hp => hv p (List.mem_cons_of_mem _ hp)
      · intro r c a ha
        exact (addEdge_live _ _ _ hlc hlt a).2 (hmg r c a ha)
      · exact (addEdge_live _ _ _ hlc hlt this).2 hlt

theorem CellSet_formula (parse : Parser) (s : Sheet) (this : Nat) (text : String)
    (f : FormulaAST) (hparse : Cell.newImpl parse text = .ok (.FormulaImpl f none)) :
    Cell.Set parse s this text =
      match TryInstallFormulaCell s this (.FormulaImpl f none) with
      | .ok s1 =>
        match deref s1.heap this with
        | none => .undefined
        | some c => .ok ⟨s1.sheet_, s1.heap.set this (some { c with impl_ := .FormulaImpl f none })⟩
      | o => o := by
  unfold Cell.Set
  rw [hparse]

/-- C2. On a sheet whose dependency graph satisfies edge symmetry (every cell
named in an edge list exists; acyclicity is not needed), for a cell `this` of
the sheet and a text that is classified as a formula and parses with the valid
referenced positions `O`: `Cell::Set` throws `CircularDependencyException`,
leaving the sheet as it was, if and only if `this` is one of the cells at the
positions in `O` or is reachable from one of them along the cells' current
`out_nodes_`; otherwise the call succeeds. -/
theorem CellSet_circular_iff (parse : Parser) (s : Sheet) (this : Nat) (text : String)
    (f : FormulaAST) (hsym : s.EdgeSymmetry) (hgrid : s.GridLive) (hthis : live s.heap this)
    (hparse : Cell.newImpl parse text = .ok (.FormulaImpl f none))
    (hvalid : ∀ p ∈ f.GetReferencedCells, p.IsValid = true) :
    (Cell.Set parse s this text = .throw .CircularDependencyException s ↔
      s.ReachedFrom f.GetReferencedCells this) ∧
    (¬ s.ReachedFrom f.GetReferencedCells this → ∃ s1, Cell.Set parse s this text = .ok s1) := by
  have hset := CellSet_formula parse s this text f hparse
  have hok : ¬ s.ReachedFrom f.GetReferencedCells this →
      ThrowIfCircularDependency s this f.GetReferencedCells = .ok () →
      ∃ s1, Cell.Set parse s this text = .ok s1 := by
    intro _ hchk
    obtain ⟨heap1, hun, hl1⟩ := UninstallFormulaCell_ok s.heap this hsym.2 hthis
    obtain ⟨s1, hin, hl2⟩ := installEdges_ok this f.GetReferencedCells ⟨s.sheet_, heap1⟩ hvalid
      (fun r c a ha => (hl1 a).2 (hgrid r c a ha)) ((hl1 this).2 hthis)
    obtain ⟨c, hd⟩ := (live_iff _ this).1 hl2
    refine ⟨⟨s1.sheet_, s1.heap.set this (some { c with impl_ := .FormulaImpl f none })⟩, ?_⟩
    rw [hset]
    simp only [TryInstallFormulaCell, hchk, hun, hin, hd]
  rcases ThrowIfCircularDependency_spec s this f.GetReferencedCells hsym.2 hgrid hvalid with
    ⟨hreach, hchk⟩ | ⟨hreach, hchk⟩
  · refine ⟨⟨fun _ => hreach, fun _ => ?_⟩, fun h => absurd hreach h⟩
    rw [hset]
    simp only [TryInstallFormulaCell, hchk]
  · refine ⟨⟨fun h => ?_, fun h => absurd h hreach⟩, fun h => hok h hchk⟩
    obtain ⟨s1, hs1⟩ := hok hreach hchk
    rw [hs1] at h
    cases h


/-! ### No call is cut off -/

theorem installEdges_fuel (this : Nat) : ∀ (O : List Position) (s : Sheet),
    installEdges this s O ≠ .fuel := by
  intro O
  induction O with
  | nil => intro s; rw [installEdges_nil]; simp
  | cons pos rest ih =>
    intro s
    rcases installEdges_cons this s pos rest with ⟨e, _, h⟩ | ⟨_, h, _⟩ | ⟨_, cell, _, _, _, h⟩
    · rw [h]; simp
    · rw [h]; simp
    · rw [h]; exact ih _

theorem TryInstallFormulaCell_fuel (s : Sheet) (this : Nat) (new_impl : Impl) :
    TryInstallFormulaCell s this new_impl ≠ .fuel := by
  have hu : (match UninstallFormulaCell s.heap this with
      | .throw e => Outcome.throw e s
      | .undefined => .undefined
      | .fuel => .fuel
      | .ok heap1 => .ok ⟨s.sheet_, heap1⟩) ≠ .fuel := by
    cases hun : UninstallFormulaCell s.heap this with
    | throw e => simp
    | undefined => simp
    | fuel => exact absurd hun (UninstallFormulaCell_fuel _ _)
    | ok heap1 => simp
  cases new_impl with
  | EmptyImpl => exact hu
  | TextImpl str => exact hu
  | FormulaImpl f c =>
    simp only [TryInstallFormulaCell]
    cases hchk : ThrowIfCircularDependency s this f.GetReferencedCells with
    | throw e => simp
    | undefined => simp
    | fuel => exact absurd hchk (ThrowIfCircularDependency_fuel _ _ _)
    | ok u =>
      simp only
      cases hun : UninstallFormulaCell s.heap this with
      | throw e => simp
      | undefined => simp
      | fuel => exact absurd hun (UninstallFormulaCell_fuel _ _)
      | ok heap1 => exact installEdges_fuel _ _ _

theorem CellSet_fuel (parse : Parser) (s : Sheet) (this : Nat) (text : String) :
    Cell.Set parse s this text ≠ .fuel := by
  unfold Cell.Set
  cases Cell.newImpl parse text with
  | error e => simp
  | ok new_impl =>
    simp only
    cases hr : TryInstallFormulaCell s this new_impl with
    | ok s1 =>
      simp only
      cases deref s1.heap this <;> simp
    | throw e s1 => simp
    | undefined => simp
    | fuel => exact absurd hr (TryInstallFormulaCell_fuel _ _ _)

/-- Both `Sheet::SetCell` and `Sheet::ClearCell` terminate: no call is cut off for
lack of fuel, so a run stops early only on undefined behaviour. -/
theorem step_fuel (parse : Parser) (s : Sheet) (op : Op) : s.step parse op ≠ .fuel := by
  cases op with
  | set pos text =>
    show s.SetCell parse pos text ≠ .fuel
    unfold Sheet.SetCell
    by_cases hv : pos.IsValid = false
    · rw [if_pos hv]; simp
    · rw [if_neg hv]; exact CellSet_fuel _ _ _ _
  | clear pos =>
    show s.ClearCell pos ≠ .fuel
    unfold Sheet.ClearCell
    by_cases hv : pos.IsValid = false
    · rw [if_pos hv]; simp
    · rw [if_neg hv]
      by_cases hb : s.sheet_.length > pos.row.toNat ∧
          (s.sheet_.getD pos.row.toNat []).length > pos.col.toNat
      · rw [if_pos hb]
        simp only
        cases (s.sheet_.getD pos.row.toNat []).getD pos.col.toNat none with
        | none => simp
        | some a =>
          simp only
          cases hun : UninstallFormulaCell s.heap a with
          | throw e => simp
          | undefined => simp
          | fuel => exact absurd hun (UninstallFormulaCell_fuel _ _)
          | ok heap1 => simp
      · rw [if_neg hb]; simp

/-- A run stops early only at a call that dereferences a destroyed cell. -/
theorem run_eq_none (parse : Parser) (ops : List Op) : ∀ s : Sheet,
    Sheet.run parse s ops = none →
    ∃ (pre : List Op) (op : Op) (post : List Op) (s1 : Sheet), ops = pre ++ op :: post ∧
      Sheet.run parse s pre = some s1 ∧ s1.step parse op = .undefined := by
  induction ops with
  | nil => intro s h; rw [Sheet.run] at h; cases h
  | cons op ops ih =>
    intro s h
    rw [Sheet.run] at h
    cases hs : s.step parse op with
    | ok s2 =>
      rw [hs] at h
      obtain ⟨pre, op1, post, s1, h1, h2, h3⟩ := ih s2 h
      refine ⟨op :: pre, op1, post, s1, by rw [h1]; rfl, ?_, h3⟩
      rw [Sheet.run, hs]
      exact h2
    | throw e s2 =>
      rw [hs] at h
      obtain ⟨pre, op1, post, s1, h1, h2, h3⟩ := ih s2 h
      refine ⟨op :: pre, op1, post, s1, by rw [h1]; rfl, ?_, h3⟩
      rw [Sheet.run, hs]
      exact h2
    | undefined => exact ⟨[], op, ops, s, rfl, by rw [Sheet.run], hs⟩
    | fuel => exact absurd hs (step_fuel parse s op)

theorem set_append_last {α : Type} (l : List α) (x : α) : (l ++ [x]).set l.length x = l ++ [x] := by
  induction l with
  | nil => rfl
  | cons a l ih => simp only [List.cons_append, List.length_cons, List.set_cons_succ, ih]

/-- The nested `sheet_.SetCell(pos, { })` of `TryInstallFormulaCell`: on a valid
position without a cell, setting the empty text creates the cell and changes
nothing else. -/
theorem SetCell_empty_text (parse : Parser) (s : Sheet) (pos : Position)
    (hv : pos.IsValid = true) (h : s.GetCell pos = .ok none) :
    s.SetCell parse pos "" = .ok (s.AllocCell pos).1 := by
  have hv1 := (Position.isValid_iff pos).1 hv
  rw [GetCell_eq_cellAt s pos hv] at h
  have hnone : cellAt s.sheet_ pos.row.toNat pos.col.toNat = none := Except.ok.inj h
  unfold Sheet.SetCell
  rw [if_neg (by simp [hv])]
  rcases AllocCell_snd s pos hv1.1 hv1.2.2.1 with ⟨h1, _⟩ | ⟨_, h2, h3⟩
  · rw [hnone] at h1; cases h1
  · have hd : deref (s.AllocCell pos).1.heap (s.AllocCell pos).2 = some Cell.new := by
      rw [h2, h3, deref_append, if_pos rfl]
    have hn : Cell.newImpl parse "" = .ok .EmptyImpl := by
      unfold Cell.newImpl
      rw [if_neg (by decide), if_neg (by decide)]
    have hu : UninstallFormulaCell (s.AllocCell pos).1.heap (s.AllocCell pos).2
        = .ok (s.AllocCell pos).1.heap := by
      unfold UninstallFormulaCell
      rw [hd]
      rfl
    simp only [Cell.Set, hn, TryInstallFormulaCell, hu, hd]
    have hset : (s.AllocCell pos).1.heap.set (s.AllocCell pos).2
        (some { Cell.new with impl_ := .EmptyImpl }) = (s.AllocCell pos).1.heap := by
      rw [h2, h3]
      exact set_append_last s.heap (some Cell.new)
    rw [hset]


/-! ### Runs of `SetCell` calls never dereference a destroyed cell -/

theorem InvalidateCacheLoop_inOf : ∀ (fuel : Nat) (heap : Heap) (W : List Nat) (heap1 : Heap),
    InvalidateCacheLoop fuel heap W = .ok heap1 → ∀ a, inOf heap1 a = inOf heap a := by
  intro fuel
  induction fuel with
  | zero => intro heap W heap1 h; rw [InvalidateCacheLoop] at h; cases h
  | succ n ih =>
    intro heap W heap1 h a
    cases W with
    | nil =>
      rw [inv_nil] at h
      cases h
      rfl
    | cons x W =>
      cases hd : deref heap x with
      | none => rw [inv_dangling _ _ _ _ hd] at h; cases h
      | some c =>
        rcases impl_cases c with ⟨f, v, hi⟩ | hi
        · rw [inv_clear _ _ _ _ c f v hd hi] at h
          rw [ih _ _ _ h a, inOf_set_same heap x c _ hd (ClearCache_in c)]
        · rw [inv_skip _ _ _ _ c hd hi] at h
          exact ih _ _ _ h a

theorem eraseInNodes_inOf (this : Nat) : ∀ (outs : List Nat) (heap heap1 : Heap),
    eraseInNodes this heap outs = some heap1 → ∀ a b, b ∈ inOf heap1 a → b ∈ inOf heap a := by
  intro outs
  induction outs with
  | nil =>
    intro heap heap1 h a b hb
    rw [eraseInNodes] at h
    cases h
    exact hb
  | cons x rest ih =>
    intro heap heap1 h a b hb
    rw [eraseInNodes] at h
    cases hd : deref heap x with
    | none => rw [hd] at h; cases h
    | some c =>
      rw [hd] at h
      simp only at h
      have := ih _ _ h a b hb
      rw [inOf_set heap x c _ hd] at this
      by_cases hax : a = x
      · rw [if_pos hax] at this
        rw [hax, inOf_of_deref heap x c hd]
        exact List.mem_of_mem_erase this
      · rw [if_neg hax] at this
        exact this

theorem UninstallFormulaCell_inOf (heap : Heap) (this : Nat) (heap1 : Heap)
    (h : UninstallFormulaCell heap this = .ok heap1) (a b : Nat) (hb : b ∈ inOf heap1 a) :
    b ∈ inOf heap a := by
  unfold UninstallFormulaCell at h
  cases hd : deref heap this with
  | none => rw [hd] at h; cases h
  | some c =>
    rw [hd] at h
    simp only at h
    cases hi : c.impl_ with
    | EmptyImpl => rw [hi] at h; cases h; exact hb
    | TextImpl s => rw [hi] at h; cases h; exact hb
    | FormulaImpl f cache =>
      rw [hi] at h
      simp only at h
      cases he : eraseInNodes this heap c.out_nodes_ with
      | none => rw [he] at h; cases h
      | some heap2 =>
        rw [he] at h
        simp only at h
        cases hd2 : deref heap2 this with
        | none => rw [hd2] at h; cases h
        | some c1 =>
          rw [hd2] at h
          simp only at h
          unfold InvalidateCache at h
          cases hd3 : deref (heap2.set this (some { c1 with out_nodes_ := [] })) this with
          | none => rw [hd3] at h; cases h
          | some c3 =>
            rw [hd3] at h
            simp only at h
            rw [InvalidateCacheLoop_inOf _ _ _ _ h a,
              inOf_set_same heap2 this c1 { c1 with out_nodes_ := [] } hd2 rfl a] at hb
            exact eraseInNodes_inOf this _ _ _ he a b hb

theorem NoDangling_of_subset (heap heap1 : Heap) (hl : ∀ a, live heap1 a ↔ live heap a)
    (ho : ∀ a b, b ∈ outOf heap1 a → b ∈ outOf heap a)
    (hi : ∀ a b, b ∈ inOf heap1 a → b ∈ inOf heap a) (h : NoDangling heap) :
    NoDangling heap1 :=
  fun a => ⟨fun b hb => (hl b).2 ((h a).1 b (ho a b hb)),
    fun b hb => (hl b).2 ((h a).2 b (hi a b hb))⟩

theorem AllocCell_inOf (s : Sheet) (pos : Position) (a : Nat) :
    inOf (s.AllocCell pos).1.heap a = inOf s.heap a := by
  rcases AllocCell_cases s pos with ⟨x, _, h⟩ | ⟨_, h⟩ <;> rw [h]
  simp only
  unfold inOf
  rw [deref_append]
  by_cases ha : a = s.heap.length
  · rw [if_pos ha]
    have : deref s.heap a = none := by
      unfold deref
      rw [List.getElem?_eq_none (by omega)]
      rfl
    rw [this]
    rfl
  · rw [if_neg ha]

theorem AllocCell_live (s : Sheet) (pos : Position) (a : Nat) (h : live s.heap a) :
    live (s.AllocCell pos).1.heap a := by
  rcases AllocCell_cases s pos with ⟨x, _, h1⟩ | ⟨_, h1⟩ <;> rw [h1]
  · exact h
  · exact live_append _ _ _ h

theorem AllocCell_NoDanglingPointer (s : Sheet) (pos : Position) (hv : pos.IsValid = true)
    (h : s.NoDanglingPointer) :
    (s.AllocCell pos).1.NoDanglingPointer ∧ live (s.AllocCell pos).1.heap (s.AllocCell pos).2 := by
  have hv1 := (Position.isValid_iff pos).1 hv
  have hnd : NoDangling (s.AllocCell pos).1.heap := by
    intro a
    constructor
    · intro b hb
      rw [AllocCell_outOf] at hb
      exact AllocCell_live s pos b ((h.1 a).1 b hb)
    · intro b hb
      rw [AllocCell_inOf] at hb
      exact AllocCell_live s pos b ((h.1 a).2 b hb)
  have hnew : live (s.AllocCell pos).1.heap (s.AllocCell pos).2 := by
    rcases AllocCell_snd s pos hv1.1 hv1.2.2.1 with ⟨h1, h2⟩ | ⟨_, h2, h3⟩
    · rw [h2]
      exact h.2 _ _ _ h1
    · rw [h2, h3]
      unfold live
      rw [deref_append, if_pos rfl]
      simp
  refine ⟨⟨hnd, ?_⟩, hnew⟩
  intro r c a ha
  rw [AllocCell_cellAt s pos hv1.1 hv1.2.2.1] at ha
  by_cases hh : r = pos.row.toNat ∧ c = pos.col.toNat
  · rw [if_pos hh] at ha
    cases ha
    exact hnew
  · rw [if_neg hh] at ha
    exact AllocCell_live s pos a (h.2 r c a ha)

theorem materialize_NoDangling (s : Sheet) (pos : Position) (h : NoDangling s.heap) :
    NoDangling (s.materialize pos).heap := by
  rcases materialize_cases s pos with ⟨_, hm⟩ | ⟨_, hm⟩ <;> rw [hm]
  · exact h
  · intro a
    constructor
    · intro b hb
      rw [AllocCell_outOf] at hb
      exact AllocCell_live s pos b ((h a).1 b hb)
    · intro b hb
      rw [AllocCell_inOf] at hb
      exact AllocCell_live s pos b ((h a).2 b hb)

theorem addEdge_inOf_mem (heap : Heap) (this cell : Nat) (hc : live heap cell)
    (ht : live heap this) (a b : Nat) (hb : b ∈ inOf (addEdge heap this cell) a) :
    b ∈ inOf heap a ∨ b = this := by
  obtain ⟨c, hcd⟩ := (live_iff heap cell).1 hc
  have hl1 := live_set_some heap cell { c with in_nodes_ := c.in_nodes_ ++ [this] } hc
  obtain ⟨t1, ht1⟩ := (live_iff _ this).1 ((hl1 this).2 ht)
  unfold addEdge at hb
  simp only [hcd, Option.map_some', ht1] at hb
  rw [inOf_set_same _ this t1 { t1 with out_nodes_ := t1.out_nodes_ ++ [cell] } ht1 rfl,
    inOf_set heap cell c _ hcd] at hb
  by_cases hac : a = cell
  · rw [if_pos hac] at hb
    simp only [List.mem_append, List.mem_singleton] at hb
    rcases hb with hb | hb
    · left
      rw [hac, inOf_of_deref heap cell c hcd]
      exact hb
    · right; exact hb
  · rw [if_neg hac] at hb
    left; exact hb

theorem addEdge_NoDangling (heap : Heap) (this cell : Nat) (hc : live heap cell)
    (ht : live heap this) (h : NoDangling heap) : NoDangling (addEdge heap this cell) := by
  intro a
  constructor
  · intro b hb
    apply (addEdge_live heap this cell hc ht b).2
    rw [addEdge_outOf heap this cell hc ht] at hb
    by_cases hat : a = this
    · rw [if_pos hat] at hb
      rcases List.mem_append.1 hb with hb | hb
      · exact (h this).1 b hb
      · simp only [List.mem_singleton] at hb
        rw [hb]; exact hc
    · rw [if_neg hat] at hb
      exact (h a).1 b hb
  · intro b hb
    apply (addEdge_live heap this cell hc ht b).2
    rcases addEdge_inOf_mem heap this cell hc ht a b hb with hb | hb
    · exact (h a).2 b hb
    · rw [hb]; exact ht

/-- On a sheet without dangling pointers the loop of `TryInstallFormulaCell`
returns for valid positions and leaves no dangling pointer. -/
theorem installEdges_NoDanglingPointer (this : Nat) : ∀ (O : List Position) (s : Sheet),
    (∀ p ∈ O, p.IsValid = true) → s.NoDanglingPointer → live s.heap this →
    ∃ s1, installEdges this s O = .ok s1 ∧ live s1.heap this ∧ s1.NoDanglingPointer := by
  intro O
  induction O with
  | nil => intro s _ h ht; exact ⟨s, installEdges_nil this s, ht, h⟩
  | cons pos rest ih =>
    intro s hv hs ht
    have hpv := hv pos (by simp)
    have hmg := materialize_GridLive s pos hpv hs.2
    have hmt := materialize_live s pos this ht
    have hmn := materialize_NoDangling s pos hs.1
    obtain ⟨cell0, hcell0⟩ := materialize_GetCell s pos hpv
    rcases installEdges_cons this s pos rest with ⟨e, h, _⟩ | ⟨_, _, h⟩ | ⟨_, cell, hg, hlc, hlt, h⟩
    · rw [GetCell_eq_cellAt s pos hpv] at h; cases h
    · exfalso
      apply h cell0 hcell0
      obtain ⟨_, hc⟩ := (GetCell_some_iff _ pos cell0).1 hcell0
      exact ⟨hmg _ _ _ hc, hmt⟩
    · rw [h]
      apply ih
      · exact fun p hp => hv p (List.mem_cons_of_mem _ hp)
      · refine ⟨addEdge_NoDangling _ _ _ hlc hlt hmn, ?_⟩
        intro r c a ha
        exact (addEdge_live _ _ _ hlc hlt a).2 (hmg r c a ha)
      · exact (addEdge_live _ _ _ hlc hlt this).2 hlt

theorem collectCells_valid (s : Sheet) : ∀ (O : List Position) (acc W : List (Option Nat)),
    collectCells s O acc = .ok W → ∀ p ∈ O, p.IsValid = true := by
  intro O
  induction O with
  | nil => intro acc W _ p hp; cases hp
  | cons pos rest ih =>
    intro acc W h p hp
    rw [collectCells] at h
    cases hg : s.GetCell pos with
    | error e => rw [hg] at h; cases h
    | ok cell =>
      rw [hg] at h
      rcases List.mem_cons.1 hp with hp | hp
      · rw [hp]; exact GetCell_ok_valid s pos cell hg
      · exact ih _ _ h p hp

theorem ThrowIfCircularDependency_defined (s : Sheet) (this : Nat) (O : List Position)
    (hs : s.NoDanglingPointer) :
    ThrowIfCircularDependency s this O ≠ .undefined ∧
      (ThrowIfCircularDependency s this O = .ok () → ∀ p ∈ O, p.IsValid = true) := by
  unfold ThrowIfCircularDependency
  cases hc : collectCells s O [] with
  | error e => exact ⟨by simp, fun h => by cases h⟩
  | ok W =>
    simp only
    obtain ⟨_, _, h3, _⟩ := collectCells_spec s O [] W hc
    refine ⟨?_, fun _ => collectCells_valid s O [] W hc⟩
    apply loop_defined s.heap this (fun a b hb => (hs.1 a).1 b hb)
    intro a ha
    rcases h3 _ ha with h | ⟨p, _, hg⟩
    · cases h
    · obtain ⟨_, hcell⟩ := (GetCell_some_iff s p a).1 hg
      exact hs.2 _ _ _ hcell

theorem UninstallFormulaCell_NoDanglingPointer (s : Sheet) (this : Nat)
    (hs : s.NoDanglingPointer) (ht : live s.heap this) :
    ∃ heap1, UninstallFormulaCell s.heap this = .ok heap1 ∧
      Sheet.NoDanglingPointer ⟨s.sheet_, heap1⟩ ∧ live heap1 this := by
  obtain ⟨heap1, hun, hl⟩ := UninstallFormulaCell_ok s.heap this hs.1 ht
  refine ⟨heap1, hun, ⟨?_, ?_⟩, (hl this).2 ht⟩
  · exact NoDangling_of_subset s.heap heap1 hl (UninstallFormulaCell_outOf _ _ _ hun)
      (UninstallFormulaCell_inOf _ _ _ hun) hs.1
  · intro r c a ha
    exact (hl a).2 (hs.2 r c a ha)

theorem TryInstallFormulaCell_NoDanglingPointer (s : Sheet) (this : Nat) (new_impl : Impl)
    (hs : s.NoDanglingPointer) (ht : live s.heap this) :
    (TryInstallFormulaCell s this new_impl).Defined ∧
      (TryInstallFormulaCell s this new_impl).All
        (fun s1 => s1.NoDanglingPointer ∧ live s1.heap this) := by
  obtain ⟨heap1, hun, hs1, ht1⟩ := UninstallFormulaCell_NoDanglingPointer s this hs ht
  cases new_impl with
  | EmptyImpl =>
    simp only [TryInstallFormulaCell, hun]
    exact ⟨trivial, hs1, ht1⟩
  | TextImpl str =>
    simp only [TryInstallFormulaCell, hun]
    exact ⟨trivial, hs1, ht1⟩
  | FormulaImpl f c =>
    obtain ⟨hdef, hval⟩ := ThrowIfCircularDependency_defined s this f.GetReferencedCells hs
    have hfuel := ThrowIfCircularDependency_fuel s this f.GetReferencedCells
    simp only [TryInstallFormulaCell]
    cases hchk : ThrowIfCircularDependency s this f.GetReferencedCells with
    | throw e => exact ⟨trivial, hs, ht⟩
    | undefined => exact absurd hchk hdef
    | fuel => exact absurd hchk hfuel
    | ok u =>
      simp only [hun]
      obtain ⟨s2, hin, hl2, hs2⟩ := installEdges_NoDanglingPointer this f.GetReferencedCells
        ⟨s.sheet_, heap1⟩ (hval hchk) hs1 ht1
      rw [hin]
      exact ⟨trivial, hs2, hl2⟩

theorem set_impl_NoDanglingPointer (s : Sheet) (this : Nat) (c : Cell) (impl : Impl)
    (hd : deref s.heap this = some c) (hs : s.NoDanglingPointer) :
    Sheet.NoDanglingPointer ⟨s.sheet_, s.heap.set this (some { c with impl_ := impl })⟩ := by
  have ht : live s.heap this := (live_iff _ _).2 ⟨c, hd⟩
  have hl := live_set_some s.heap this { c with impl_ := impl } ht
  refine ⟨NoDangling_of_subset s.heap _ hl ?_ ?_ hs.1, fun r c1 a ha => (hl a).2 (hs.2 r c1 a ha)⟩
  · intro a b hb
    rw [outOf_set_impl _ _ _ _ hd] at hb
    exact hb
  · intro a b hb
    rw [inOf_set_same s.heap this c { c with impl_ := impl } hd rfl] at hb
    exact hb

theorem CellSet_NoDanglingPointer (parse : Parser) (s : Sheet) (this : Nat) (text : String)
    (hs : s.NoDanglingPointer) (ht : live s.heap this) :
    (Cell.Set parse s this text).Defined ∧
      (Cell.Set parse s this text).All (fun s1 => s1.NoDanglingPointer) := by
  unfold Cell.Set
  cases Cell.newImpl parse text with
  | error e => exact ⟨trivial, hs⟩
  | ok new_impl =>
    simp only
    obtain ⟨hdef, hall⟩ := TryInstallFormulaCell_NoDanglingPointer s this new_impl hs ht
    cases hr : TryInstallFormulaCell s this new_impl with
    | ok s1 =>
      rw [hr] at hall
      obtain ⟨c, hd⟩ := (live_iff _ _).1 hall.2
      simp only [hd]
      exact ⟨trivial, set_impl_NoDanglingPointer s1 this c new_impl hd hall.1⟩
    | throw e s1 =>
      rw [hr] at hall
      exact ⟨trivial, hall.1⟩
    | undefined => rw [hr] at hdef; exact absurd hdef (by simp [Outcome.Defined])
    | fuel => exact absurd hr (TryInstallFormulaCell_fuel _ _ _)

theorem SetCell_NoDanglingPointer (parse : Parser) (s : Sheet) (pos : Position) (text : String)
    (hs : s.NoDanglingPointer) :
    (s.SetCell parse pos text).Defined ∧
      (s.SetCell parse pos text).All (fun s1 => s1.NoDanglingPointer) := by
  unfold Sheet.SetCell
  by_cases hv : pos.IsValid = false
  · rw [if_pos hv]; exact ⟨trivial, hs⟩
  · rw [if_neg hv]
    obtain ⟨h1, h2⟩ := AllocCell_NoDanglingPointer s pos (by simpa using hv) hs
    exact CellSet_NoDanglingPointer parse _ _ text h1 h2

theorem NoDanglingPointer_empty : Sheet.empty.NoDanglingPointer := by
  constructor
  · intro a
    constructor
    · intro b hb
      simp [outOf, deref, Sheet.empty] at hb
    · intro b hb
      simp [inOf, deref, Sheet.empty] at hb
  · intro r c a h
    simp [cellAt, Sheet.empty] at h

/-- Every sequence of `Sheet::SetCell` calls on a sheet without dangling
pointers has defined behaviour and leaves a sheet without dangling pointers. -/
theorem run_sets_defined (parse : Parser) (ops : List Op) :
    ∀ s : Sheet, s.NoDanglingPointer → (∀ op ∈ ops, ∃ pos text, op = .set pos text) →
    ∃ s1, Sheet.run parse s ops = some s1 ∧ s1.NoDanglingPointer := by
  induction ops with
  | nil => intro s hs _; exact ⟨s, by rw [Sheet.run], hs⟩
  | cons op ops ih =>
    intro s hs hops
    obtain ⟨pos, text, hop⟩ := hops op (by simp)
    subst hop
    obtain ⟨hdef, hall⟩ := SetCell_NoDanglingPointer parse s pos text hs
    have hrest : ∀ op ∈ ops, ∃ pos text, op = .set pos text :=
      fun op hop => hops op (List.mem_cons_of_mem _ hop)
    rw [Sheet.run]
    show ∃ s1, (match s.SetCell parse pos text with
      | .ok s1 => Sheet.run parse s1 ops
      | .throw _ s1 => Sheet.run parse s1 ops
      | _ => none) = some s1 ∧ s1.NoDanglingPointer
    cases hr : s.SetCell parse pos text with
    | ok s2 =>
      rw [hr] at hall
      exact ih s2 hall hrest
    | throw e s2 =>
      rw [hr] at hall
      exact ih s2 hall hrest
    | undefined => rw [hr] at hdef; exact absurd hdef (by simp [Outcome.Defined])
    | fuel => exact absurd hr (step_fuel parse s (.set pos text))


/-! ## Theorems: `Cell::Set` and `Sheet::ClearCell` -/

theorem GetCell_error (s : Sheet) (pos : Position) (e : Exception)
    (h : s.GetCell pos = .error e) : e = .InvalidPositionException := by
  unfold Sheet.GetCell at h
  split_ifs at h
  cases h
  rfl

theorem installEdges_throw (this : Nat) : ∀ (O : List Position) (s s1 : Sheet) (e : Exception),
    installEdges this s O = .throw e s1 → e = .InvalidPositionException := by
  intro O
  induction O with
  | nil => intro s s1 e h; rw [installEdges_nil] at h; cases h
  | cons pos rest ih =>
    intro s s1 e h
    rcases installEdges_cons this s pos rest with ⟨e1, hg, h1⟩ | ⟨_, h1, _⟩ | ⟨_, cell, _, _, _, h1⟩
    · rw [h1] at h
      cases h
      exact GetCell_error s pos e hg
    · rw [h1] at h; cases h
    · rw [h1] at h
      exact ih _ _ _ h

theorem TryInstallFormulaCell_throw (s : Sheet) (this : Nat) (new_impl : Impl) (e : Exception)
    (s1 : Sheet) (h : TryInstallFormulaCell s this new_impl = .throw e s1)
    (he : e ≠ .InvalidPositionException) : s1 = s := by
  have hu : ∀ s2, (match UninstallFormulaCell s.heap this with
      | .throw e => Outcome.throw e s
      | .undefined => .undefined
      | .fuel => .fuel
      | .ok heap1 => .ok ⟨s.sheet_, heap1⟩) = .throw e s2 → s2 = s := by
    intro s2 h2
    cases hun : UninstallFormulaCell s.heap this with
    | throw e1 => exact absurd hun (UninstallFormulaCell_throw _ _ _)
    | undefined => rw [hun] at h2; cases h2
    | fuel => rw [hun] at h2; cases h2
    | ok heap1 => rw [hun] at h2; cases h2
  cases new_impl with
  | EmptyImpl => exact hu s1 h
  | TextImpl str => exact hu s1 h
  | FormulaImpl f c =>
    simp only [TryInstallFormulaCell] at h
    cases hchk : ThrowIfCircularDependency s this f.GetReferencedCells with
    | throw e1 => rw [hchk] at h; cases h; rfl
    | undefined => rw [hchk] at h; cases h
    | fuel => rw [hchk] at h; cases h
    | ok u =>
      rw [hchk] at h
      simp only at h
      cases hun : UninstallFormulaCell s.heap this with
      | throw e1 => exact absurd hun (UninstallFormulaCell_throw _ _ _)
      | undefined => rw [hun] at h; cases h
      | fuel => rw [hun] at h; cases h
      | ok heap1 =>
        rw [hun] at h
        exact absurd (installEdges_throw _ _ _ _ _ h) he

/-- C3. When `Cell::Set` fails with `FormulaException` or
`CircularDependencyException`, the sheet it leaves behind is the sheet it was
called on: content, cached value, `in_nodes_` and `out_nodes_` of the target
cell and of every other cell are what they were. -/
theorem CellSet_rollback (parse : Parser) (s : Sheet) (this : Nat) (text : String)
    (e : Exception) (s1 : Sheet) (h : Cell.Set parse s this text = .throw e s1)
    (he : e = .FormulaException ∨ e = .CircularDependencyException) : s1 = s := by
  have hne : e ≠ .InvalidPositionException := by
    rcases he with he | he <;> rw [he] <;> decide
  unfold Cell.Set at h
  cases hn : Cell.newImpl parse text with
  | error e1 => rw [hn] at h; cases h; rfl
  | ok new_impl =>
    rw [hn] at h
    simp only at h
    cases ht : TryInstallFormulaCell s this new_impl with
    | ok s2 =>
      rw [ht] at h
      simp only at h
      cases hd : deref s2.heap this with
      | none => rw [hd] at h; cases h
      | some c => rw [hd] at h; cases h
    | throw e2 s2 =>
      rw [ht] at h
      cases h
      exact TryInstallFormulaCell_throw s this new_impl e s1 ht hne
    | undefined => rw [ht] at h; cases h
    | fuel => rw [ht] at h; cases h

/-- C3, the scenario: after set A1 "=B1", set B1 "=C1", the call set C1 "=A1"
throws `CircularDependencyException`, C1 stays empty and A1, B1 are unchanged. -/
theorem CellSet_rollback_witness :
    Sheet.run refParser Sheet.empty [.set A1 "=B1", .set B1 "=C1"] = some cycleSheet
      ∧ cycleSheet.SetCell refParser C1 "=A1" = .throw .CircularDependencyException cycleSheet
      ∧ Cell.Set refParser cycleSheet 2 "=A1" = .throw .CircularDependencyException cycleSheet
      ∧ cycleSheet = cycleSheet :=
  ⟨by decide, by decide, by decide,
    CellSet_rollback refParser cycleSheet 2 "=A1" .CircularDependencyException cycleSheet
      (by decide) (Or.inr rfl)⟩

/-- C2, an instance: on the sheet after set A1 "=B1", set B1 "=C1", the cell C1
(address 2) is reached from A1, and set C1 "=A1" throws. -/
theorem CellSet_circular_iff_witness :
    cycleSheet.ReachedFrom [A1] 2
      ∧ Cell.Set refParser cycleSheet 2 "=A1" = .throw .CircularDependencyException cycleSheet :=
  have hsym : cycleSheet.EdgeSymmetry := by
    have hl : ∀ a, live cycleSheet.heap a ↔ a < 3 := by
      intro a
      constructor
      · intro h; exact live_lt _ _ h
      · intro h
        interval_cases a <;> decide
    constructor
    · intro a b ha hb
      have ha3 := (hl a).1 ha
      have hb3 := (hl b).1 hb
      interval_cases a <;> interval_cases b <;> decide
    · intro a
      by_cases ha : a < 3
      · interval_cases a <;> constructor <;> intro b hb <;> (apply (hl b).2) <;>
          (simp [outOf, inOf, deref, cycleSheet] at hb) <;> omega
      · have hnl : ¬ live cycleSheet.heap a := fun h => ha ((hl a).1 h)
        constructor
        · intro b hb
          rw [outOf_not_live _ _ hnl] at hb
          cases hb
        · intro b hb
          unfold live at hnl
          unfold inOf at hb
          simp only [ne_eq, not_not] at hnl
          rw [hnl] at hb
          cases hb
  have hgrid : cycleSheet.GridLive := by
    intro r c a h
    have hb := cellAt_ne_none_bounds cycleSheet.sheet_ r c (by rw [h]; simp)
    have hr : r < 1 := hb.1
    have hr0 : r = 0 := by omega
    subst hr0
    have hc : c < 3 := hb.2
    interval_cases c <;> (simp [cellAt, cycleSheet] at h) <;> subst h <;> decide
  have hthm := CellSet_circular_iff refParser cycleSheet 2 "=A1" ⟨.cell A1, [A1]⟩ hsym hgrid
    (by decide) (by decide) (by decide)
  have hreach : cycleSheet.ReachedFrom [A1] 2 := by
    refine ⟨A1, by simp, 0, by decide, ?_⟩
    have e01 : edge cycleSheet.heap 0 1 := by decide
    have e12 : edge cycleSheet.heap 1 2 := by decide
    exact (Relation.ReflTransGen.single e01).tail e12
  ⟨hreach, hthm.1.2 hreach⟩

/-- C4, an instance: the sheet after set A1 "=B1", set B1 "=C1" and the rejected
set C1 "=A1" is acyclic. -/
theorem acyclic_invariant_witness :
    Sheet.run refParser Sheet.empty [.set A1 "=B1", .set B1 "=C1", .set C1 "=A1"]
        = some cycleSheet
      ∧ Acyclic cycleSheet.heap :=
  ⟨by decide,
    acyclic_invariant refParser [.set A1 "=B1", .set B1 "=C1", .set C1 "=A1"] cycleSheet
      (by decide)⟩

/-- C1, the failing input. After set A1 "10", set B1 "=A1", set C1 "=B1" and a
read of C1 that has stored 10.0 in the caches of B1 and C1, the call
set A1 "20" returns and leaves both caches populated: B1 and C1 reference A1,
and neither cache is cleared. -/
theorem SetCell_text_keeps_caches :
    Sheet.run refParser Sheet.empty [.set A1 "10", .set B1 "=A1", .set C1 "=B1"]
        = some (chainSheet none none)
      ∧ (chainSheet (some (.number ten)) (some (.number ten))).SetCell refParser A1 "20"
        = .ok ⟨[[some 0, some 1, some 2]],
            [some ⟨.TextImpl "20", [1], []⟩,
             some ⟨.FormulaImpl ⟨.cell A1, [A1]⟩ (some (.number ten)), [2], [0]⟩,
             some ⟨.FormulaImpl ⟨.cell B1, [B1]⟩ (some (.number ten)), [], [1]⟩]⟩ := by
  decide

/-- C5, the failing input. After set B1 "=A1", clear A1 the `out_nodes_` of B1
still name the destroyed cell A1: edge symmetry does not hold. -/
theorem ClearCell_breaks_edge_symmetry :
    ∃ s, Sheet.run refParser Sheet.empty [.set B1 "=A1", .clear A1] = some s
      ∧ ¬ s.EdgeSymmetry := by
  refine ⟨⟨[[none, some 0]],
    [some ⟨.FormulaImpl ⟨.cell A1, [A1]⟩ none, [], [1]⟩, none]⟩, by decide, ?_⟩
  intro h
  have h1 := (h.2 0).1 1 (by decide)
  exact h1 (by decide)

/-- C6, the failing input. After set B1 "=A1" the cell A1 (address 1) has the
inbound edge from B1 (address 0); clear A1 returns, and afterwards
`GetCell(A1)` is `nullptr`, the cell is destroyed, and `out_nodes_` of B1 still
holds its address. -/
theorem ClearCell_removes_referenced_cell :
    Sheet.run refParser Sheet.empty [.set B1 "=A1"] = some refSheet
      ∧ refSheet.GetCell A1 = .ok (some 1)
      ∧ inOf refSheet.heap 1 = [0]
      ∧ refSheet.ClearCell A1 = .ok ⟨[[none, some 0]],
          [some ⟨.FormulaImpl ⟨.cell A1, [A1]⟩ none, [], [1]⟩, none]⟩
      ∧ Sheet.GetCell ⟨[[none, some 0]],
          [some ⟨.FormulaImpl ⟨.cell A1, [A1]⟩ none, [], [1]⟩, none]⟩ A1 = .ok none := by
  decide


/-! ## Theorems: positions at the sheet interface, classification of texts -/

theorem GetCell_invalid (s : Sheet) (pos : Position) (h : pos.IsValid = false) :
    s.GetCell pos = .error .InvalidPositionException := by
  unfold Sheet.GetCell
  rw [if_pos h]

theorem collectCells_error (s : Sheet) : ∀ (O : List Position) (acc : List (Option Nat))
    (e : Exception), collectCells s O acc = .error e →
      e = .InvalidPositionException ∧ ∃ q ∈ O, q.IsValid = false := by
  intro O
  induction O with
  | nil => intro acc e h; rw [collectCells] at h; cases h
  | cons pos rest ih =>
    intro acc e h
    rw [collectCells] at h
    cases hg : s.GetCell pos with
    | error e1 =>
      rw [hg] at h
      simp only at h
      have he : e1 = e := by injection h
      subst he
      refine ⟨GetCell_error s pos _ hg, pos, by simp, ?_⟩
      by_contra hv
      have hv1 : pos.IsValid = true := by simpa using hv
      rw [GetCell_eq_cellAt s pos hv1] at hg
      cases hg
    | ok cell =>
      rw [hg] at h
      obtain ⟨he, q, hq, hqv⟩ := ih _ e h
      exact ⟨he, q, List.mem_cons_of_mem _ hq, hqv⟩

theorem installEdges_throw_invalid (this : Nat) : ∀ (O : List Position) (s s1 : Sheet)
    (e : Exception), installEdges this s O = .throw e s1 → ∃ q ∈ O, q.IsValid = false := by
  intro O
  induction O with
  | nil => intro s s1 e h; rw [installEdges_nil] at h; cases h
  | cons pos rest ih =>
    intro s s1 e h
    rcases installEdges_cons this s pos rest with ⟨e1, hg, _⟩ | ⟨_, h1, _⟩ | ⟨_, cell, _, _, _, h1⟩
    · refine ⟨pos, by simp, ?_⟩
      by_contra hv
      have hv1 : pos.IsValid = true := by simpa using hv
      rw [GetCell_eq_cellAt s pos hv1] at hg
      cases hg
    · rw [h1] at h; cases h
    · rw [h1] at h
      obtain ⟨q, hq, hqv⟩ := ih _ _ _ h
      exact ⟨q, List.mem_cons_of_mem _ hq, hqv⟩

theorem FormulaImpl_new_cases (parse : Parser) (str : String) :
    FormulaImpl.new parse str = .error .CellImplException ∨
    FormulaImpl.new parse str = .error .FormulaException ∨
    ∃ f, FormulaImpl.new parse str = .ok (.FormulaImpl f none) := by
  unfold FormulaImpl.new
  split_ifs
  · exact Or.inl rfl
  · cases parse str with
    | none => exact Or.inr (Or.inl rfl)
    | some ast => exact Or.inr (Or.inr ⟨ast, rfl⟩)

theorem newImpl_cases (parse : Parser) (text : String) :
    Cell.newImpl parse text = .error .CellImplException ∨
    Cell.newImpl parse text = .error .FormulaException ∨
    Cell.newImpl parse text = .ok .EmptyImpl ∨
    Cell.newImpl parse text = .ok (.TextImpl text) ∨
    ∃ f, Cell.newImpl parse text = .ok (.FormulaImpl f none) := by
  unfold Cell.newImpl
  split_ifs with h1 h2
  · rcases FormulaImpl_new_cases parse (String.mk (text.data.drop 1)) with h | h | ⟨f, h⟩
    · exact Or.inl h
    · exact Or.inr (Or.inl h)
    · exact Or.inr (Or.inr (Or.inr (Or.inr ⟨f, h⟩)))
  · unfold TextImpl.new
    rw [if_neg h2]
    exact Or.inr (Or.inr (Or.inr (Or.inl rfl)))
  · exact Or.inr (Or.inr (Or.inl rfl))

theorem TryInstallFormulaCell_throw_cases (s : Sheet) (this : Nat) (new_impl : Impl)
    (e : Exception) (s1 : Sheet) (h : TryInstallFormulaCell s this new_impl = .throw e s1) :
    ∃ f c, new_impl = .FormulaImpl f c ∧
      (e = .CircularDependencyException ∨
        (e = .InvalidPositionException ∧ ∃ q ∈ f.GetReferencedCells, q.IsValid = false)) := by
  have hu : ∀ e2 s2, (match UninstallFormulaCell s.heap this with
      | .throw e => Outcome.throw e s
      | .undefined => .undefined
      | .fuel => .fuel
      | .ok heap1 => .ok ⟨s.sheet_, heap1⟩) ≠ .throw e2 s2 := by
    intro e2 s2
    cases hun : UninstallFormulaCell s.heap this with
    | throw e3 => exact absurd hun (UninstallFormulaCell_throw _ _ _)
    | undefined => simp
    | fuel => simp
    | ok heap1 => simp
  cases new_impl with
  | EmptyImpl => exact absurd h (hu e s1)
  | TextImpl str => exact absurd h (hu e s1)
  | FormulaImpl f c =>
    refine ⟨f, c, rfl, ?_⟩
    unfold TryInstallFormulaCell at h
    simp only at h
    cases ht : ThrowIfCircularDependency s this f.GetReferencedCells with
    | throw e1 =>
      rw [ht] at h
      simp only at h
      have he : e1 = e := by injection h
      subst he
      unfold ThrowIfCircularDependency at ht
      cases hc : collectCells s f.GetReferencedCells [] with
      | error e2 =>
        rw [hc] at ht
        simp only at ht
        have he2 : e2 = e1 := by injection ht
        subst he2
        exact Or.inr (collectCells_error s _ _ _ hc)
      | ok W =>
        rw [hc] at ht
        simp only at ht
        exact Or.inl (loop_throw _ _ _ _ _ _ ht).1
    | undefined => rw [ht] at h; cases h
    | fuel => rw [ht] at h; cases h
    | ok u =>
      rw [ht] at h
      simp only at h
      cases hun : UninstallFormulaCell s.heap this with
      | throw e3 => exact absurd hun (UninstallFormulaCell_throw _ _ _)
      | undefined => rw [hun] at h; cases h
      | fuel => rw [hun] at h; cases h
      | ok heap1 =>
        rw [hun] at h
        simp only at h
        right
        exact ⟨installEdges_throw this _ _ _ _ h, installEdges_throw_invalid this _ _ _ _ h⟩

/-- The exceptions of `Cell::Set`, with the statement that throws each. -/
theorem CellSet_throw_cases (parse : Parser) (s : Sheet) (this : Nat) (text : String)
    (e : Exception) (s1 : Sheet) (h : Cell.Set parse s this text = .throw e s1) :
    ((e = .CellImplException ∨ e = .FormulaException) ∧ Cell.newImpl parse text = .error e) ∨
    ∃ f, Cell.newImpl parse text = .ok (.FormulaImpl f none) ∧
      (e = .CircularDependencyException ∨
        (e = .InvalidPositionException ∧ ∃ q ∈ f.GetReferencedCells, q.IsValid = false)) := by
  unfold Cell.Set at h
  rcases newImpl_cases parse text with hn | hn | hn | hn | ⟨f, hn⟩
  · rw [hn] at h
    simp only at h
    have he : Exception.CellImplException = e := by injection h
    subst he
    exact Or.inl ⟨Or.inl rfl, hn⟩
  · rw [hn] at h
    simp only at h
    have he : Exception.FormulaException = e := by injection h
    subst he
    exact Or.inl ⟨Or.inr rfl, hn⟩
  · rw [hn] at h
    simp only at h
    cases ht : TryInstallFormulaCell s this .EmptyImpl with
    | throw e2 s2 =>
      obtain ⟨f, c, hf, _⟩ := TryInstallFormulaCell_throw_cases _ _ _ _ _ ht
      cases hf
    | undefined => rw [ht] at h; cases h
    | fuel => rw [ht] at h; cases h
    | ok s2 =>
      rw [ht] at h
      simp only at h
      cases hd : deref s2.heap this with
      | none => rw [hd] at h; cases h
      | some c => rw [hd] at h; cases h
  · rw [hn] at h
    simp only at h
    cases ht : TryInstallFormulaCell s this (.TextImpl text) with
    | throw e2 s2 =>
      obtain ⟨f, c, hf, _⟩ := TryInstallFormulaCell_throw_cases _ _ _ _ _ ht
      cases hf
    | undefined => rw [ht] at h; cases h
    | fuel => rw [ht] at h; cases h
    | ok s2 =>
      rw [ht] at h
      simp only at h
      cases hd : deref s2.heap this with
      | none => rw [hd] at h; cases h
      | some c => rw [hd] at h; cases h
  · rw [hn] at h
    simp only at h
    refine Or.inr ⟨f, hn, ?_⟩
    cases ht : TryInstallFormulaCell s this (.FormulaImpl f none) with
    | throw e2 s2 =>
      rw [ht] at h
      simp only at h
      have he : e2 = e := by injection h
      subst he
      obtain ⟨f1, c, hf, hcases⟩ := TryInstallFormulaCell_throw_cases _ _ _ _ _ ht
      cases hf
      exact hcases
    | undefined => rw [ht] at h; cases h
    | fuel => rw [ht] at h; cases h
    | ok s2 =>
      rw [ht] at h
      simp only at h
      cases hd : deref s2.heap this with
      | none => rw [hd] at h; cases h
      | some c => rw [hd] at h; cases h

theorem ClearCell_throw (s : Sheet) (pos : Position) (e : Exception) (s1 : Sheet)
    (h : s.ClearCell pos = .throw e s1) : pos.IsValid = false := by
  by_contra hv
  unfold Sheet.ClearCell at h
  rw [if_neg hv] at h
  split_ifs at h
  · cases hg : (s.sheet_.getD pos.row.toNat []).getD pos.col.toNat none with
    | none => rw [hg] at h; cases h
    | some a =>
      rw [hg] at h
      simp only at h
      cases hun : UninstallFormulaCell s.heap a with
      | throw e3 => exact absurd hun (UninstallFormulaCell_throw _ _ _)
      | undefined => rw [hun] at h; cases h
      | fuel => rw [hun] at h; cases h
      | ok heap1 => rw [hun] at h; cases h

/-- C13: for an invalid position (`NONE`, a negative coordinate, or a
coordinate of 16384 or more), `SetCell`, `GetCell` and `ClearCell` each fail
with `InvalidPositionException` and leave the sheet as it was. For a valid
position `GetCell` returns, `ClearCell` throws nothing, and `SetCell` throws
`InvalidPositionException` only when the text is a formula that references an
invalid position. -/
theorem invalid_position_rejected (parse : Parser) (s : Sheet) (p : Position) (text : String) :
    (p = Position.NONE ∨ p.row < 0 ∨ p.col < 0 ∨ 16384 ≤ p.row ∨ 16384 ≤ p.col →
      s.SetCell parse p text = .throw .InvalidPositionException s ∧
      s.GetCell p = .error .InvalidPositionException ∧
      s.ClearCell p = .throw .InvalidPositionException s) ∧
    (0 ≤ p.row ∧ p.row < 16384 ∧ 0 ≤ p.col ∧ p.col < 16384 →
      (∃ cell, s.GetCell p = .ok cell) ∧
      (∀ e s1, s.ClearCell p ≠ .throw e s1) ∧
      (∀ s1, s.SetCell parse p text = .throw .InvalidPositionException s1 →
        ∃ f, Cell.newImpl parse text = .ok (.FormulaImpl f none) ∧
          ∃ q ∈ f.GetReferencedCells, q.IsValid = false)) := by
  constructor
  · intro hp
    have hv : p.IsValid = false := by
      cases hb : p.IsValid with
      | false => rfl
      | true =>
        have h4 := (Position.isValid_iff p).1 hb
        rcases hp with h | h | h | h | h
        · rw [h] at h4
          simp [Position.NONE] at h4
        · omega
        · omega
        · omega
        · omega
    refine ⟨?_, GetCell_invalid s p hv, ?_⟩
    · unfold Sheet.SetCell; rw [if_pos hv]
    · unfold Sheet.ClearCell; rw [if_pos hv]
  · intro hp
    have hv : p.IsValid = true := (Position.isValid_iff p).2 hp
    refine ⟨⟨_, GetCell_eq_cellAt s p hv⟩, ?_, ?_⟩
    · intro e s1 h
      have := ClearCell_throw s p e s1 h
      rw [hv] at this
      cases this
    · intro s1 h
      unfold Sheet.SetCell at h
      rw [if_neg (by simp [hv])] at h
      rcases CellSet_throw_cases parse _ _ text _ s1 h with ⟨h1 | h1, _⟩ | ⟨f, hf, h1 | ⟨_, h1⟩⟩
      · cases h1
      · cases h1
      · cases h1
      · exact ⟨f, hf, h1⟩

/-- C13, instances: `NONE`, a column of 16384 and a row of -1 are rejected with the
sheet unchanged; the last valid position (16383, 16383) is looked up. -/
theorem invalid_position_rejected_witness :
    Sheet.SetCell refParser refSheet Position.NONE "1" = .throw .InvalidPositionException refSheet ∧
    refSheet.GetCell ⟨0, 16384⟩ = .error .InvalidPositionException ∧
    refSheet.ClearCell ⟨-1, 0⟩ = .throw .InvalidPositionException refSheet ∧
    (∃ cell, refSheet.GetCell ⟨16383, 16383⟩ = .ok cell) :=
  ⟨((invalid_position_rejected refParser refSheet Position.NONE "1").1 (Or.inl rfl)).1,
   ((invalid_position_rejected refParser refSheet ⟨0, 16384⟩ "1").1 (by decide)).2.1,
   ((invalid_position_rejected refParser refSheet ⟨-1, 0⟩ "1").1 (by decide)).2.2,
   ((invalid_position_rejected refParser refSheet ⟨16383, 16383⟩ "1").2 (by decide)).1⟩

/-- C14: the text "==1" makes `Cell::Set` fail with `CellImplException`, whatever
the parser, the sheet and the cell: the remainder "=1" is stopped by the guard
of the `FormulaImpl` constructor before the parser sees it. -/
theorem CellSet_double_formula_sign (parse : Parser) (s : Sheet) (this : Nat) :
    Cell.Set parse s this "==1" = .throw .CellImplException s := by
  have h : Cell.newImpl parse "==1" = .error .CellImplException := by
    unfold Cell.newImpl FormulaImpl.new
    rw [if_pos (by decide), if_pos (by decide)]
  unfold Cell.Set
  rw [h]

theorem CellSet_text (parse : Parser) (s : Sheet) (this : Nat) (text : String)
    (hs : s.NoDanglingPointer) (ht : live s.heap this)
    (hn : Cell.newImpl parse text = .ok (.TextImpl text)) :
    ∃ heap1 c, UninstallFormulaCell s.heap this = .ok heap1 ∧ deref heap1 this = some c ∧
      Cell.Set parse s this text =
        .ok ⟨s.sheet_, heap1.set this (some { c with impl_ := .TextImpl text })⟩ := by
  obtain ⟨heap1, hun, _, hl⟩ := UninstallFormulaCell_NoDanglingPointer s this hs ht
  obtain ⟨c, hc⟩ := (live_iff heap1 this).1 hl
  refine ⟨heap1, c, hun, hc, ?_⟩
  unfold Cell.Set
  rw [hn]
  simp only [TryInstallFormulaCell, hun, hc]

/-- C12: `Cell::Set` takes the empty text as Empty, a text of length above 1
that starts with the formula sign as Formula (it is handed, without the sign,
to the `FormulaImpl` constructor) and every other text as Text (so "=" alone is
Text). After a text of the third kind has been set, on a sheet without
dangling pointers, `GetText` returns the text, and `GetValue` returns the text
without its first character when it starts with the escape sign and the text
itself otherwise. -/
theorem set_classifies_and_escapes (parse : Parser) (print : FormulaAST → String) (ar : Arith)
    (s : Sheet) (this : Nat) (text : String) (hs : s.NoDanglingPointer) (ht : live s.heap this) :
    (text.length = 0 → Cell.newImpl parse text = .ok .EmptyImpl) ∧
    (text.data.head? = some FORMULA_SIGN ∧ 1 < text.length →
      Cell.newImpl parse text = FormulaImpl.new parse (String.mk (text.data.drop 1))) ∧
    (text.length ≠ 0 → ¬ (text.data.head? = some FORMULA_SIGN ∧ 1 < text.length) →
      Cell.newImpl parse text = .ok (.TextImpl text) ∧
      ∃ s1, Cell.Set parse s this text = .ok s1 ∧
        Cell.GetText print s1.heap this = some text ∧
        ∀ fuel, GetValue ar s1.sheet_ (fuel + 1) s1.heap this =
          .ok (.text (if text.data.head? = some ESCAPE_SIGN then String.mk (text.data.drop 1)
            else text), s1.heap)) := by
  refine ⟨?_, ?_, ?_⟩
  · intro h0
    unfold Cell.newImpl
    rw [if_neg (by omega), if_neg (by omega)]
  · intro h1
    unfold Cell.newImpl
    rw [if_pos ⟨h1.2, h1.1⟩]
  · intro h0 h1
    have hn : Cell.newImpl parse text = .ok (.TextImpl text) := by
      unfold Cell.newImpl TextImpl.new
      rw [if_neg (fun h => h1 ⟨h.2, h.1⟩), if_pos h0, if_neg h0]
    refine ⟨hn, ?_⟩
    obtain ⟨heap1, c, _, hc, hset⟩ := CellSet_text parse s this text hs ht hn
    refine ⟨_, hset, ?_, ?_⟩
    · unfold Cell.GetText
      simp only
      rw [deref_set_live _ _ _ _ (by unfold live; rw [hc]; simp), if_pos rfl]
    · intro fuel
      rw [GetValue]
      simp only
      rw [deref_set_live _ _ _ _ (by unfold live; rw [hc]; simp), if_pos rfl]
      simp only [TextImpl.GetValue]
      have hpos : text.length > 0 := by omega
      by_cases he : text.data.head? = some ESCAPE_SIGN
      · rw [if_pos ⟨hpos, he⟩, if_pos he]
      · rw [if_neg (fun h => he h.2), if_neg he]

/-- C12, the scenario: the text that is an apostrophe followed by "=1+2", set on
the fresh cell A1, has that text and the value "=1+2". -/
theorem set_classifies_and_escapes_witness :
    ∃ s1, Cell.Set refParser (Sheet.empty.AllocCell A1).1 0 "\x27=1+2" = .ok s1 ∧
      Cell.GetText examplePrint s1.heap 0 = some "\x27=1+2" ∧
      ∀ fuel, GetValue exampleArith s1.sheet_ (fuel + 1) s1.heap 0 = .ok (.text "=1+2", s1.heap) :=
  ((set_classifies_and_escapes refParser examplePrint exampleArith (Sheet.empty.AllocCell A1).1 0
    "\x27=1+2" (AllocCell_NoDanglingPointer Sheet.empty A1 (by decide) NoDanglingPointer_empty).1
    (by decide)).2.2 (by decide) (by decide)).2

/-! ## Theorems: `GetReferencedCells` -/

theorem firstOccurrence_mem (p : Position) : ∀ l : List Position,
    p ∈ firstOccurrence l ↔ p ∈ l := by
  intro l
  induction l with
  | nil => simp [firstOccurrence]
  | cons a l ih =>
    rw [firstOccurrence]
    by_cases h : p = a
    · simp [h]
    · simp [h, ih]

theorem firstOccurrence_nodup : ∀ l : List Position, (firstOccurrence l).Nodup := by
  intro l
  induction l with
  | nil => simp [firstOccurrence]
  | cons a l ih =>
    rw [firstOccurrence, List.nodup_cons]
    exact ⟨by simp, ih.filter _⟩

theorem unique_eq_firstOccurrence : ∀ l : List Position, equalsAdjacent l = true →
    unique l = firstOccurrence l := by
  intro l
  induction l with
  | nil => intro _; rfl
  | cons a l ih =>
    intro h
    rw [equalsAdjacent, Bool.and_eq_true, decide_eq_true_eq] at h
    have ih1 := ih h.2
    cases l with
    | nil => rfl
    | cons b r =>
      by_cases hab : a = b
      · subst hab
        rw [unique, if_pos rfl, ih1]
        simp [firstOccurrence, List.filter_filter]
      · have hnot : a ∉ b :: r := by
          intro hmem
          have := h.1 hmem
          simp at this
          exact hab this.symm
        rw [unique, if_neg hab, ih1]
        rw [firstOccurrence.eq_2 a]
        congr 1
        symm
        rw [List.filter_eq_self]
        intro x hx
        have hx1 := (firstOccurrence_mem x _).1 hx
        simp only [decide_eq_true_eq]
        intro hxa
        exact hnot (hxa ▸ hx1)

/-- Where `std::unique` is enough: when equal positions are neighbours in the
cell list of the AST (as in a sorted list), `GetReferencedCells` returns a
sequence without repetition that holds exactly the positions of the cell list,
in the order of their first occurrence. -/
theorem referenced_cells_first_occurrence (ast_ : FormulaAST)
    (h : equalsAdjacent ast_.cells_ = true) :
    ast_.GetReferencedCells.Nodup ∧ (∀ p, p ∈ ast_.GetReferencedCells ↔ p ∈ ast_.cells_) ∧
      ast_.GetReferencedCells = firstOccurrence ast_.cells_ := by
  have heq : ast_.GetReferencedCells = firstOccurrence ast_.cells_ :=
    unique_eq_firstOccurrence _ h
  rw [heq]
  exact ⟨firstOccurrence_nodup _, fun p => firstOccurrence_mem p _, rfl⟩

/-- An instance: the cell list A1, A1, B1 yields A1, B1. -/
theorem referenced_cells_first_occurrence_instance :
    sumAAB.GetReferencedCells.Nodup ∧ (∀ p, p ∈ sumAAB.GetReferencedCells ↔ p ∈ sumAAB.cells_) ∧
      sumAAB.GetReferencedCells = firstOccurrence sumAAB.cells_ :=
  referenced_cells_first_occurrence sumAAB (by decide)

/-! ## Theorems: the search of `ThrowIfCircularDependency`, step by step -/

theorem deref_mem (heap : Heap) (a : Nat) (c : Cell) (h : deref heap a = some c) :
    some c ∈ heap := by
  have hlt := deref_lt heap a c h
  unfold deref at h
  rw [List.getElem?_eq_getElem hlt] at h
  simp only [Option.join] at h
  have : heap[a] = some c := by
    cases hx : heap[a] with
    | none => rw [hx] at h; cases h
    | some c1 => rw [hx] at h; simpa using h
  rw [← this]
  exact List.getElem_mem hlt

theorem checkPointers_sound (s : Sheet) (h : s.checkPointers = true) : s.NoDanglingPointer := by
  unfold Sheet.checkPointers at h
  rw [Bool.and_eq_true, List.all_eq_true, List.all_eq_true] at h
  constructor
  · intro a
    cases hd : deref s.heap a with
    | none =>
      unfold outOf inOf
      rw [hd]
      exact ⟨fun b hb => (by cases hb), fun b hb => (by cases hb)⟩
    | some c =>
      have := h.1 (some c) (deref_mem _ _ _ hd)
      simp only [Bool.and_eq_true, List.all_eq_true, decide_eq_true_eq] at this
      unfold outOf inOf
      rw [hd]
      exact this
  · intro r c a ha
    unfold cellAt at ha
    by_cases hr : r < s.sheet_.length
    · by_cases hc : c < (s.sheet_.getD r []).length
      · have hrow : s.sheet_.getD r [] ∈ s.sheet_ := by
          rw [List.getD_eq_getElem _ _ hr]
          exact List.getElem_mem hr
        have hx : some a ∈ s.sheet_.getD r [] := by
          rw [← ha, List.getD_eq_getElem _ _ hc]
          exact List.getElem_mem hc
        have := h.2 _ hrow
        rw [List.all_eq_true] at this
        have := this _ hx
        simpa using this
      · rw [List.getD_eq_default _ _ (by omega)] at ha
        cases ha
    · rw [List.getD_eq_default s.sheet_ [] (by omega)] at ha
      simp at ha

theorem trace_nil (heap : Heap) (this n : Nat) (V : List (Option Nat)) :
    searchTrace heap this (n + 1) [] V = (.ok (), []) := by
  rw [searchTrace]

theorem trace_visited (heap : Heap) (this n : Nat) (front : Option Nat)
    (W V : List (Option Nat)) (h : front ∈ V) :
    searchTrace heap this (n + 1) (front :: W) V = searchTrace heap this n W V := by
  cases front <;> rw [searchTrace, if_pos h]

theorem trace_this (heap : Heap) (this n : Nat) (W V : List (Option Nat))
    (h : some this ∉ V) :
    searchTrace heap this (n + 1) (some this :: W) V =
      (.throw .CircularDependencyException, []) := by
  rw [searchTrace, if_neg h, if_pos rfl]

theorem trace_null (heap : Heap) (this n : Nat) (W V : List (Option Nat))
    (h : none ∉ V) :
    searchTrace heap this (n + 1) (none :: W) V = searchTrace heap this n W (none :: V) := by
  rw [searchTrace, if_neg h, if_neg (by simp)]

theorem trace_dangling (heap : Heap) (this n a : Nat) (W V : List (Option Nat))
    (h : some a ∉ V) (ha : a ≠ this) (hd : deref heap a = none) :
    searchTrace heap this (n + 1) (some a :: W) V = (.undefined, []) := by
  rw [searchTrace, if_neg h, if_neg (by simpa using ha)]
  simp only [hd]

theorem trace_expand (heap : Heap) (this n a : Nat) (W V : List (Option Nat)) (c : Cell)
    (h : some a ∉ V) (ha : a ≠ this) (hd : deref heap a = some c) :
    searchTrace heap this (n + 1) (some a :: W) V =
      ((searchTrace heap this n (c.out_nodes_.map some ++ W) (some a :: V)).1,
        a :: (searchTrace heap this n (c.out_nodes_.map some ++ W) (some a :: V)).2) := by
  rw [searchTrace, if_neg h, if_neg (by simpa using ha)]
  simp only [hd]

/-- The record keeps the result of the search as it is; a cell is expanded
only when it is not in the visited set and is not `this`, and no cell is
expanded twice. -/
theorem searchTrace_spec (heap : Heap) (this : Nat) :
    ∀ (fuel : Nat) (W V : List (Option Nat)),
      (searchTrace heap this fuel W V).1 = ThrowIfCircularDependencyLoop heap this fuel W V ∧
      (∀ a ∈ (searchTrace heap this fuel W V).2, some a ∉ V ∧ a ≠ this) ∧
      (searchTrace heap this fuel W V).2.Nodup := by
  intro fuel
  induction fuel with
  | zero =>
    intro W V
    rw [searchTrace, ThrowIfCircularDependencyLoop]
    exact ⟨rfl, fun a ha => (by cases ha), List.nodup_nil⟩
  | succ n ih =>
    intro W V
    cases W with
    | nil =>
      rw [trace_nil, loop_nil]
      exact ⟨rfl, fun a ha => (by cases ha), List.nodup_nil⟩
    | cons front W =>
      by_cases hv : front ∈ V
      · rw [trace_visited _ _ _ _ _ _ hv, loop_visited _ _ _ _ _ _ hv]
        exact ih W V
      · cases front with
        | none =>
          rw [trace_null _ _ _ _ _ hv, loop_null _ _ _ _ _ hv]
          obtain ⟨h1, h2, h3⟩ := ih W (none :: V)
          exact ⟨h1, fun a ha => ⟨fun hm => (h2 a ha).1 (List.mem_cons_of_mem _ hm),
            (h2 a ha).2⟩, h3⟩
        | some a =>
          by_cases hat : a = this
          · subst hat
            rw [trace_this _ _ _ _ _ hv, loop_this _ _ _ _ _ hv]
            exact ⟨rfl, fun a ha => (by cases ha), List.nodup_nil⟩
          · cases hd : deref heap a with
            | none =>
              rw [trace_dangling _ _ _ _ _ _ hv hat hd, loop_dangling _ _ _ _ _ _ hv hat hd]
              exact ⟨rfl, fun a ha => (by cases ha), List.nodup_nil⟩
            | some c =>
              rw [trace_expand _ _ _ _ _ _ c hv hat hd, loop_expand _ _ _ _ _ _ c hv hat hd]
              obtain ⟨h1, h2, h3⟩ := ih (c.out_nodes_.map some ++ W) (some a :: V)
              refine ⟨h1, ?_, ?_⟩
              · intro b hb
                rcases List.mem_cons.1 hb with hba | hb1
                · subst hba; exact ⟨hv, hat⟩
                · exact ⟨fun hm => (h2 b hb1).1 (List.mem_cons_of_mem _ hm), (h2 b hb1).2⟩
              · rw [List.nodup_cons]
                exact ⟨fun hm => (h2 a hm).1 (by simp), h3⟩

/-- C19: the search of `ThrowIfCircularDependency` terminates, whatever the
graph (a cycle that does not pass through `this` included) and whatever the
positions (those of absent cells included): it never runs out of its fuel, and
on a sheet without dangling pointers it returns or throws. Along the search no
cell has its `out_nodes_` expanded twice, `this` is never expanded, and the
search throws at once when it takes `this` from the work list. -/
theorem search_terminates (s : Sheet) (this : Nat) (O : List Position)
    (hs : s.NoDanglingPointer) :
    (ThrowIfCircularDependency s this O = .ok () ∨
      ∃ e, ThrowIfCircularDependency s this O = .throw e) ∧
    (∀ W, collectCells s O [] = .ok W →
      (searchTrace s.heap this (W.length + outDegreeSum s.heap + 1) W []).1 =
        ThrowIfCircularDependency s this O ∧
      (searchTrace s.heap this (W.length + outDegreeSum s.heap + 1) W []).2.Nodup ∧
      this ∉ (searchTrace s.heap this (W.length + outDegreeSum s.heap + 1) W []).2) ∧
    (∀ n W V, some this ∉ V →
      searchTrace s.heap this (n + 1) (some this :: W) V =
        (.throw .CircularDependencyException, [])) := by
  refine ⟨?_, ?_, fun n W V h => trace_this _ _ _ _ _ h⟩
  · have h1 := ThrowIfCircularDependency_fuel s this O
    have h2 := (ThrowIfCircularDependency_defined s this O hs).1
    cases h : ThrowIfCircularDependency s this O with
    | ok u => exact Or.inl rfl
    | throw e => exact Or.inr ⟨e, rfl⟩
    | undefined => exact absurd h h2
    | fuel => exact absurd h h1
  · intro W hW
    obtain ⟨h1, h2, h3⟩ := searchTrace_spec s.heap this (W.length + outDegreeSum s.heap + 1) W []
    refine ⟨?_, h3, fun hm => (h2 this hm).2 rfl⟩
    rw [h1]
    unfold ThrowIfCircularDependency
    rw [hW]

/-- C19, an instance: on a sheet with the cycle A1, B1 the search for C1 from the
positions A1 and C3 (absent) returns, having expanded each cell once. -/
theorem search_terminates_witness :
    (ThrowIfCircularDependency loopSheet 2 [A1, C3] = .ok () ∨
      ∃ e, ThrowIfCircularDependency loopSheet 2 [A1, C3] = .throw e) ∧
    (searchTrace loopSheet.heap 2 (2 + outDegreeSum loopSheet.heap + 1) [none, some 0] []).1 =
      ThrowIfCircularDependency loopSheet 2 [A1, C3] ∧
    (searchTrace loopSheet.heap 2 (2 + outDegreeSum loopSheet.heap + 1) [none, some 0] []).2.Nodup ∧
    2 ∉ (searchTrace loopSheet.heap 2 (2 + outDegreeSum loopSheet.heap + 1) [none, some 0] []).2 :=
  ⟨(search_terminates loopSheet 2 [A1, C3] (checkPointers_sound loopSheet (by decide))).1,
    (search_terminates loopSheet 2 [A1, C3] (checkPointers_sound loopSheet (by decide))).2.1
      [none, some 0] (by decide)⟩

/-! ## Theorems: the caches the invalidation traversal clears -/

theorem ClearCache_ClearCache (c : Cell) : ClearCache (ClearCache c) = ClearCache c := by
  unfold ClearCache
  cases h : c.impl_ <;> simp [h]

theorem ClearCache_not_populated (c : Cell) (f : FormulaAST) (v : Value) :
    (ClearCache c).impl_ ≠ .FormulaImpl f (some v) := by
  unfold ClearCache
  cases h : c.impl_ <;> simp [h]

theorem Populated_set_clear (heap : Heap) (x : Nat) (c : Cell) (hd : deref heap x = some c)
    (z : Nat) :
    Populated (heap.set x (some (ClearCache c))) z ↔ Populated heap z ∧ z ≠ x := by
  have hl : live heap x := by unfold live; rw [hd]; simp
  unfold Populated
  rw [deref_set_live heap x z _ hl]
  by_cases hzx : x = z
  · rw [if_pos hzx]
    constructor
    · rintro ⟨c1, f, v, h1, h2⟩
      cases h1
      exact absurd h2 (ClearCache_not_populated c f v)
    · rintro ⟨_, h⟩
      exact absurd hzx.symm h
  · rw [if_neg hzx]
    constructor
    · intro h
      exact ⟨h, fun hh => hzx hh.symm⟩
    · intro h
      exact h.1

theorem popStep_set_clear (heap : Heap) (x : Nat) (c : Cell) (hd : deref heap x = some c)
    (a b : Nat) :
    popStep (heap.set x (some (ClearCache c))) a b ↔ popStep heap a b ∧ b ≠ x := by
  unfold popStep
  rw [inOf_set_same heap x c (ClearCache c) hd (ClearCache_in c), Populated_set_clear heap x c hd]
  tauto

/-- A path that does not end in `x` either avoids `x` altogether, or has a tail
that starts at a successor of `x` and avoids `x`. -/
theorem reach_avoid {α : Type} (r r2 : α → α → Prop) (x : α)
    (h2 : ∀ a b, r a b → b ≠ x → r2 a b) {w y : α} (h : Relation.ReflTransGen r w y)
    (hy : y ≠ x) :
    (w ≠ x ∧ Relation.ReflTransGen r2 w y) ∨
      ∃ z, r x z ∧ z ≠ x ∧ Relation.ReflTransGen r2 z y := by
  induction h using Relation.ReflTransGen.head_induction_on with
  | refl => exact Or.inl ⟨hy, Relation.ReflTransGen.refl⟩
  | @head a b h1 _ ih =>
    rcases ih with ⟨hbx, hr⟩ | hz
    · by_cases hax : a = x
      · subst hax
        exact Or.inr ⟨b, h1, hbx, hr⟩
      · exact Or.inl ⟨hax, Relation.ReflTransGen.head (h2 a b h1 hbx) hr⟩
    · exact Or.inr hz

theorem ClearedFrom_step (heap : Heap) (x : Nat) (c : Cell) (rest : List Nat)
    (hd : deref heap x = some c) (hpop : Populated heap x) (y : Nat) (hy : y ≠ x) :
    ClearedFrom (heap.set x (some (ClearCache c))) (c.in_nodes_.reverse ++ rest) y ↔
      ClearedFrom heap (x :: rest) y := by
  constructor
  · rintro ⟨w, hw, hp2, hr2⟩
    have hp := (Populated_set_clear heap x c hd w).1 hp2
    have hr : Relation.ReflTransGen (popStep heap) w y :=
      Relation.ReflTransGen.mono (fun a b hab => ((popStep_set_clear heap x c hd a b).1 hab).1) hr2
    rcases List.mem_append.1 hw with h1 | h1
    · refine ⟨x, by simp, hpop, Relation.ReflTransGen.head ⟨?_, hp.1⟩ hr⟩
      rw [inOf_of_deref heap x c hd]
      exact List.mem_reverse.1 h1
    · exact ⟨w, List.mem_cons_of_mem _ h1, hp.1, hr⟩
  · rintro ⟨w, hw, hp, hr⟩
    rcases reach_avoid (popStep heap) (popStep (heap.set x (some (ClearCache c)))) x
        (fun a b hab hb => (popStep_set_clear heap x c hd a b).2 ⟨hab, hb⟩) hr hy with
      ⟨hwx, hr2⟩ | ⟨z, hxz, hzx, hr2⟩
    · rcases List.mem_cons.1 hw with h1 | h1
      · exact absurd h1 hwx
      · exact ⟨w, List.mem_append_right _ h1, (Populated_set_clear heap x c hd w).2 ⟨hp, hwx⟩, hr2⟩
    · refine ⟨z, List.mem_append_left _ (List.mem_reverse.2 ?_),
        (Populated_set_clear heap x c hd z).2 ⟨hxz.2, hzx⟩, hr2⟩
      rw [← inOf_of_deref heap x c hd]
      exact hxz.1

/-- The loop of `InvalidateCache` clears the cache of the cells reached from
the work list through cells with a populated cache, and changes nothing else. -/
theorem InvalidateCacheLoop_exact : ∀ (fuel : Nat) (heap : Heap) (W : List Nat) (heap1 : Heap),
    InvalidateCacheLoop fuel heap W = .ok heap1 → ∀ y,
      (ClearedFrom heap W y → deref heap1 y = (deref heap y).map ClearCache) ∧
      (¬ ClearedFrom heap W y → deref heap1 y = deref heap y) := by
  intro fuel
  induction fuel with
  | zero => intro heap W heap1 h; rw [InvalidateCacheLoop] at h; cases h
  | succ n ih =>
    intro heap W heap1 h y
    cases W with
    | nil =>
      rw [inv_nil] at h
      have he : heap = heap1 := by injection h
      subst he
      exact ⟨fun ⟨w, hw, _⟩ => (by cases hw), fun _ => rfl⟩
    | cons x rest =>
      cases hd : deref heap x with
      | none => rw [inv_dangling n heap x rest hd] at h; cases h
      | some c =>
        rcases impl_cases c with ⟨f, v, hi⟩ | hi
        · rw [inv_clear n heap x rest c f v hd hi] at h
          have hl : live heap x := by unfold live; rw [hd]; simp
          have hpop : Populated heap x := ⟨c, f, v, hd, hi⟩
          obtain ⟨ih1, ih2⟩ := ih _ _ _ h y
          by_cases hyx : y = x
          · subst hyx
            have hd2 : deref (heap.set y (some (ClearCache c))) y = some (ClearCache c) := by
              rw [deref_set_live heap y y _ hl, if_pos rfl]
            have hx1 : deref heap1 y = some (ClearCache c) := by
              by_cases hcl : ClearedFrom (heap.set y (some (ClearCache c)))
                  (c.in_nodes_.reverse ++ rest) y
              · rw [ih1 hcl, hd2, Option.map_some', ClearCache_ClearCache]
              · rw [ih2 hcl, hd2]
            constructor
            · intro _
              rw [hx1, hd, Option.map_some']
            · intro hn
              exact absurd ⟨y, by simp, hpop, Relation.ReflTransGen.refl⟩ hn
          · have hderef : deref (heap.set x (some (ClearCache c))) y = deref heap y := by
              rw [deref_set_live heap x y _ hl, if_neg (fun hh => hyx hh.symm)]
            have hiff := ClearedFrom_step heap x c rest hd hpop y hyx
            constructor
            · intro hc
              rw [ih1 (hiff.2 hc), hderef]
            · intro hn
              rw [ih2 (fun hh => hn (hiff.1 hh)), hderef]
        · rw [inv_skip n heap x rest c hd hi] at h
          obtain ⟨ih1, ih2⟩ := ih _ _ _ h y
          have hiff : ClearedFrom heap rest y ↔ ClearedFrom heap (x :: rest) y := by
            constructor
            · rintro ⟨w, hw, hp, hr⟩
              exact ⟨w, List.mem_cons_of_mem _ hw, hp, hr⟩
            · rintro ⟨w, hw, hp, hr⟩
              rcases List.mem_cons.1 hw with h1 | h1
              · subst h1
                obtain ⟨c1, f, v, hc1, hf⟩ := hp
                rw [hd] at hc1
                cases hc1
                exact absurd hf (hi f v)
              · exact ⟨w, h1, hp, hr⟩
          constructor
          · intro hc
            exact ih1 (hiff.2 hc)
          · intro hn
            exact ih2 (fun hh => hn (hiff.1 hh))

theorem InvalidatedFrom_iff (heap : Heap) (this : Nat) (c : Cell) (hd : deref heap this = some c)
    (y : Nat) : InvalidatedFrom heap this y ↔ ClearedFrom heap c.in_nodes_.reverse y := by
  unfold InvalidatedFrom ClearedFrom
  rw [Relation.TransGen.head'_iff]
  constructor
  · rintro ⟨w, ⟨hw, hp⟩, hr⟩
    rw [inOf_of_deref heap this c hd] at hw
    exact ⟨w, List.mem_reverse.2 hw, hp, hr⟩
  · rintro ⟨w, hw, hp, hr⟩
    refine ⟨w, ⟨?_, hp⟩, hr⟩
    rw [inOf_of_deref heap this c hd]
    exact List.mem_reverse.1 hw

/-- C18: on a heap whose `in_nodes_` name no destroyed cell, `InvalidateCache`
at the cell `this` returns. A cell reached from `this` along `in_nodes_` by a
path on which every cell after `this` is a formula cell with a populated cache
is such a formula cell itself, and afterwards it is the same formula cell, with
the same `in_nodes_` and `out_nodes_`, and an empty cache. Every other slot of
the heap is exactly as it was. -/
theorem invalidate_clears_exactly (heap : Heap) (this : Nat)
    (hin : ∀ a b, b ∈ inOf heap a → live heap b) (ht : live heap this) :
    ∃ heap1, InvalidateCache heap this = .ok heap1 ∧ heap1.length = heap.length ∧
      ∀ y, (InvalidatedFrom heap this y →
          ∃ f v i o, deref heap y = some ⟨.FormulaImpl f (some v), i, o⟩ ∧
            deref heap1 y = some ⟨.FormulaImpl f none, i, o⟩) ∧
        (¬ InvalidatedFrom heap this y → deref heap1 y = deref heap y) := by
  obtain ⟨c, hd⟩ := (live_iff heap this).1 ht
  have hfuel := InvalidateCacheLoop_fuel heap c.in_nodes_.reverse
  rw [List.length_reverse] at hfuel
  have hW : ∀ b ∈ c.in_nodes_.reverse, live heap b := by
    intro b hb
    apply hin this b
    rw [inOf_of_deref heap this c hd]
    exact List.mem_reverse.1 hb
  obtain ⟨heap1, hok, _⟩ := InvalidateCacheLoop_ok _ heap _ hin hW hfuel
  have hinv : InvalidateCache heap this = .ok heap1 := by
    unfold InvalidateCache
    rw [hd]
    exact hok
  refine ⟨heap1, hinv, InvalidateCacheLoop_length _ _ _ _ hok, ?_⟩
  intro y
  obtain ⟨h1, h2⟩ := InvalidateCacheLoop_exact _ _ _ _ hok y
  have hiff := InvalidatedFrom_iff heap this c hd y
  refine ⟨?_, ?_⟩
  · intro hy
    obtain ⟨b, _, hb⟩ := Relation.TransGen.tail'_iff.1 hy
    obtain ⟨cy, f, v, hcy, hf⟩ := hb.2
    obtain ⟨impl, i, o⟩ := cy
    simp only at hf
    subst hf
    refine ⟨f, v, i, o, hcy, ?_⟩
    rw [h1 (hiff.1 hy), hcy]
    rfl
  · intro hy
    exact h2 (fun hh => hy (hiff.2 hh))

/-- C18, an instance: the chain A1 = "10", B1 = "=A1", C1 = "=B1" with 10.0 in
both caches, invalidated from A1: both caches are emptied and nothing else
changes. -/
theorem invalidate_clears_exactly_witness :
    InvalidateCache (chainSheet (some (.number ten)) (some (.number ten))).heap 0 =
      .ok (chainSheet none none).heap ∧
    ∃ heap1, InvalidateCache (chainSheet (some (.number ten)) (some (.number ten))).heap 0 =
        .ok heap1 ∧
      heap1.length = (chainSheet (some (.number ten)) (some (.number ten))).heap.length ∧
      ∀ y, (InvalidatedFrom (chainSheet (some (.number ten)) (some (.number ten))).heap 0 y →
          ∃ f v i o, deref (chainSheet (some (.number ten)) (some (.number ten))).heap y =
              some ⟨.FormulaImpl f (some v), i, o⟩ ∧
            deref heap1 y = some ⟨.FormulaImpl f none, i, o⟩) ∧
        (¬ InvalidatedFrom (chainSheet (some (.number ten)) (some (.number ten))).heap 0 y →
          deref heap1 y = deref (chainSheet (some (.number ten)) (some (.number ten))).heap y) :=
  ⟨by decide,
    invalidate_clears_exactly (chainSheet (some (.number ten)) (some (.number ten))).heap 0
      (fun a b hb => ((checkPointers_sound _ (by decide)).1 a).2 b hb) (by decide)⟩

/-! ## Theorems: reading a cell -/

/-- The visitor `VarVal`, case by case. -/
theorem VarVal_cases (ar : Arith) :
    (∀ d, VarVal ar (.number d) = some (.ok d)) ∧
    (∀ e, VarVal ar (.error e) = some (.error e)) ∧
    VarVal ar (.text "") = some (.ok zero) ∧
    (∀ s d, s.length ≠ 0 → ar.extract s = (some d, true) → VarVal ar (.text s) = some (.ok d)) ∧
    (∀ s, s.length ≠ 0 → ar.extract s = (none, true) → VarVal ar (.text s) = none) ∧
    (∀ s, s.length ≠ 0 → (ar.extract s).2 = false →
      VarVal ar (.text s) = some (.error .Value)) := by
  refine ⟨fun d => rfl, fun e => rfl, rfl, ?_, ?_, ?_⟩
  · intro s d h0 h
    simp only [VarVal]
    rw [if_neg h0, h, if_pos rfl]
  · intro s h0 h
    simp only [VarVal]
    rw [if_neg h0, h, if_pos rfl]
  · intro s h0 h
    simp only [VarVal]
    rw [if_neg h0, if_neg (by simp [h])]

/-- The operand a referenced position contributes, case by case: an invalid
position throws, an absent cell gives 0.0, a cell gives its value converted by
`VarVal`. -/
theorem argsOf_cases (ar : Arith) (sheet_ : List (List (Option Nat)))
    (getValue : Heap → Nat → Res (Value × Heap)) (pos : Position) (heap : Heap) :
    (∀ e, Sheet.GetCell ⟨sheet_, heap⟩ pos = .error e →
      argsOf ar sheet_ getValue pos heap = .throw e) ∧
    (Sheet.GetCell ⟨sheet_, heap⟩ pos = .ok none →
      argsOf ar sheet_ getValue pos heap = .ok (.ok zero, heap)) ∧
    (∀ cell v heap1 d, Sheet.GetCell ⟨sheet_, heap⟩ pos = .ok (some cell) →
      getValue heap cell = .ok (v, heap1) → VarVal ar v = some d →
      argsOf ar sheet_ getValue pos heap = .ok (d, heap1)) ∧
    (∀ cell v heap1, Sheet.GetCell ⟨sheet_, heap⟩ pos = .ok (some cell) →
      getValue heap cell = .ok (v, heap1) → VarVal ar v = none →
      argsOf ar sheet_ getValue pos heap = .undefined) := by
  refine ⟨?_, ?_, ?_, ?_⟩
  · intro e h
    unfold argsOf
    rw [h]
  · intro h
    unfold argsOf
    rw [h]
  · intro cell v heap1 d h hv hd
    unfold argsOf
    rw [h]
    simp only [hv, hd]
  · intro cell v heap1 h hv hd
    unfold argsOf
    rw [h]
    simp only [hv, hd]

/-- C11: a read of a formula cell whose cache is present does not return the
cached value. After `set A1 "10"`, `set B1 "=A1"` and a read of B1, the cache of
B1 holds 10.0; `set A1 "20"` leaves it there; the next read of B1 evaluates the
formula, returns 20.0 and overwrites the cache. -/
theorem GetValue_evaluates_despite_cache :
    Sheet.run refParser Sheet.empty [.set A1 "10", .set B1 "=A1"] = some (pairSheet "10" none) ∧
    Sheet.read exampleArith 2 (pairSheet "10" none) B1 =
      .ok (some (.number ten), pairSheet "10" (some (.number ten))) ∧
    (pairSheet "10" (some (.number ten))).SetCell refParser A1 "20" =
      .ok (pairSheet "20" (some (.number ten))) ∧
    Sheet.read exampleArith 2 (pairSheet "20" (some (.number ten))) B1 =
      .ok (some (.number twenty), pairSheet "20" (some (.number twenty))) := by
  refine ⟨by decide, by decide, by decide, by decide⟩

/-- C15: a second `set(p, s)` changes the sheet. On the sheet after
`set A1 "10"`, `set B1 "=A1"` and a read of B1, one `set A1 "=C3"` leaves the
cached 10.0 in B1, a second `set A1 "=C3"` clears it. -/
theorem set_twice_differs :
    Sheet.run refParser Sheet.empty [.set A1 "10", .set B1 "=A1"] = some (pairSheet "10" none) ∧
    Sheet.read exampleArith 2 (pairSheet "10" none) B1 =
      .ok (some (.number ten), pairSheet "10" (some (.number ten))) ∧
    Sheet.run refParser (pairSheet "10" (some (.number ten))) [.set A1 "=C3"] =
      some (tripleSheet (some (.number ten))) ∧
    Sheet.run refParser (pairSheet "10" (some (.number ten))) [.set A1 "=C3", .set A1 "=C3"] =
      some (tripleSheet none) ∧
    tripleSheet (some (.number ten)) ≠ tripleSheet none := by
  refine ⟨by decide, by decide, by decide, by decide, by decide⟩

theorem GetValue_text (ar : Arith) (sheet_ : List (List (Option Nat))) (fuel : Nat)
    (heap : Heap) (this : Nat) (str_ : String) (i o : List Nat)
    (hd : deref heap this = some ⟨.TextImpl str_, i, o⟩) :
    GetValue ar sheet_ (fuel + 1) heap this = .ok (TextImpl.GetValue str_, heap) := by
  rw [GetValue]
  simp only [hd]

/-- A read of B1 = "=A1" over a text in A1: the operand `VarVal` makes of the
text decides the outcome, whatever the cache of B1 holds. -/
theorem read_pairSheet (ar : Arith) (a1 : String) (cacheB : Option Value) :
    Sheet.read ar 2 (pairSheet a1 cacheB) B1 =
      match VarVal ar (TextImpl.GetValue a1) with
      | some (.ok d) => .ok (some (.number d), pairSheet a1 (some (.number d)))
      | some (.error fe) => .ok (some (.error fe), pairSheet a1 (some (.error fe)))
      | none => .undefined := by
  have hg : (pairSheet a1 cacheB).GetCell B1 = .ok (some 1) := rfl
  have hga : Sheet.GetCell ⟨(pairSheet a1 cacheB).sheet_, (pairSheet a1 cacheB).heap⟩ A1 =
      .ok (some 0) := rfl
  have h0 : GetValue ar (pairSheet a1 cacheB).sheet_ 1 (pairSheet a1 cacheB).heap 0 =
      .ok (TextImpl.GetValue a1, (pairSheet a1 cacheB).heap) :=
    GetValue_text ar _ 0 _ 0 a1 [1] [] rfl
  have hd1 : deref (pairSheet a1 cacheB).heap 1 =
      some ⟨.FormulaImpl ⟨.cell A1, [A1]⟩ cacheB, [], [0]⟩ := rfl
  unfold Sheet.read
  rw [hg]
  simp only
  rw [GetValue]
  simp only [hd1, Evaluate, Execute, argsOf, hga, h0]
  cases VarVal ar (TextImpl.GetValue a1) with
  | none => rfl
  | some r => cases r <;> rfl

/-- C17: a text at whose end the extraction of a double fails is not a
`Value` error. For the text "-" the extraction leaves `eof()` set; the code
asks for nothing else, so B1 = "=A1" over A1 = "-" has as value the number the
extraction wrote to `arg` (and the read is undefined if it wrote none), and
not `FormulaError(Value)`. -/
theorem failed_extraction_is_a_number (ar : Arith) (h : (ar.extract "-").2 = true) :
    Sheet.run refParser Sheet.empty [.set A1 "-", .set B1 "=A1"] = some (pairSheet "-" none) ∧
    Sheet.read ar 2 (pairSheet "-" none) B1 =
      match (ar.extract "-").1 with
      | some arg => .ok (some (.number arg), pairSheet "-" (some (.number arg)))
      | none => .undefined := by
  refine ⟨by decide, ?_⟩
  have hv : VarVal ar (TextImpl.GetValue "-") =
      match (ar.extract "-").1 with
      | some arg => some (.ok arg)
      | none => none := by
    have ht : TextImpl.GetValue "-" = .text "-" := by decide
    rw [ht]
    simp only [VarVal]
    rw [if_neg (by decide), if_pos h]
  rw [read_pairSheet, hv]
  cases (ar.extract "-").1 <;> rfl

/-- C17, the failing input with the extraction of the C++ library on "-": the
value of B1 is 0.0. -/
theorem failed_extraction_is_a_number_witness :
    Sheet.run refParser Sheet.empty [.set A1 "-", .set B1 "=A1"] = some (pairSheet "-" none) ∧
    Sheet.read exampleArith 2 (pairSheet "-" none) B1 =
      .ok (some (.number zero), pairSheet "-" (some (.number zero))) :=
  failed_extraction_is_a_number exampleArith (by decide)

/-- C20, the failing input: a read whose value is indeterminate. On a text of
one space the stream sentry fails: the extraction writes nothing to `arg` and
leaves `eof()` set, and `VarVal` returns the `double arg` that was never given
a value. After `set A1 " "`, `set B1 "=A1"` a read of B1, whatever the cache of
B1 holds, is undefined behaviour: it is not the result of evaluating the
formula (a `Value` error), and two reads need not agree. -/
theorem read_of_blank_text_is_undefined (ar : Arith) (h : ar.extract " " = (none, true)) :
    Sheet.run refParser Sheet.empty [.set A1 " ", .set B1 "=A1"] = some (pairSheet " " none) ∧
    ∀ cacheB, Sheet.read ar 2 (pairSheet " " cacheB) B1 = .undefined := by
  refine ⟨by decide, ?_⟩
  intro cacheB
  have ht : TextImpl.GetValue " " = .text " " := by decide
  rw [read_pairSheet, ht, (VarVal_cases ar).2.2.2.2.1 " " (by decide) h]

/-- C20, the failing input with the extraction of the C++ library on " ". -/
theorem read_of_blank_text_is_undefined_witness :
    Sheet.run refParser Sheet.empty [.set A1 " ", .set B1 "=A1"] = some (pairSheet " " none) ∧
    ∀ cacheB, Sheet.read exampleArith 2 (pairSheet " " cacheB) B1 = .undefined :=
  read_of_blank_text_is_undefined exampleArith (by decide)

/-! ## Theorems: `GetValue` against the reference `valueOf` -/

theorem forgetCache_eq (c : Cell) : forgetCache c = ClearCache c := by
  obtain ⟨impl, i, o⟩ := c
  cases impl <;> rfl

theorem eraseCaches_eq (heap : Heap) : eraseCaches heap = heap.map (Option.map ClearCache) := by
  unfold eraseCaches
  rw [show forgetCache = ClearCache from funext forgetCache_eq]

theorem deref_eraseCaches (heap : Heap) (a : Nat) :
    deref (eraseCaches heap) a = (deref heap a).map ClearCache := by
  rw [eraseCaches_eq]
  unfold deref
  rw [List.getElem?_map]
  cases heap[a]? with
  | none => rfl
  | some x => cases x <;> rfl

theorem eraseCaches_length (heap : Heap) : (eraseCaches heap).length = heap.length := by
  rw [eraseCaches_eq]
  rw [List.length_map]

theorem eraseCaches_set (heap : Heap) (a : Nat) (c c1 : Cell) (hd : deref heap a = some c)
    (hc : ClearCache c1 = ClearCache c) :
    eraseCaches (heap.set a (some c1)) = eraseCaches heap := by
  have hlt := deref_lt heap a c hd
  rw [eraseCaches_eq, eraseCaches_eq]
  apply List.ext_getElem?
  intro n
  rw [List.getElem?_map, List.getElem?_map, List.getElem?_set]
  by_cases han : a = n
  · subst han
    rw [if_pos rfl, if_pos hlt]
    unfold deref at hd
    cases hx : heap[a]? with
    | none => rw [hx] at hd; cases hd
    | some x =>
      rw [hx] at hd
      have hxc : x = some c := by simpa using hd
      subst hxc
      simp only [Option.map_some', hc]
  · rw [if_neg han]

theorem eraseCaches_idem (heap : Heap) : eraseCaches (eraseCaches heap) = eraseCaches heap := by
  rw [eraseCaches_eq, eraseCaches_eq]
  rw [List.map_map]
  apply List.map_congr_left
  intro x _
  cases x with
  | none => rfl
  | some c => simp only [Function.comp, Option.map_some', ClearCache_ClearCache]

theorem ClearCache_formula (f : FormulaAST) (cache : Option Value) (i o : List Nat) :
    ClearCache ⟨.FormulaImpl f cache, i, o⟩ = ⟨.FormulaImpl f none, i, o⟩ := rfl

/-- A cell that agrees with a formula cell but for the cache. -/
theorem ClearCache_eq_formula (c : Cell) (f : FormulaAST) (i o : List Nat)
    (h : ClearCache c = ⟨.FormulaImpl f none, i, o⟩) : ∃ cache, c = ⟨.FormulaImpl f cache, i, o⟩ := by
  obtain ⟨impl, i1, o1⟩ := c
  cases impl with
  | EmptyImpl => cases h
  | TextImpl s => cases h
  | FormulaImpl f1 cache =>
    rw [ClearCache_formula] at h
    cases h
    exact ⟨cache, rfl⟩

theorem deref_of_erase_eq (h1 h2 : Heap) (a : Nat) (f : FormulaAST) (cache : Option Value)
    (i o : List Nat) (he : eraseCaches h1 = eraseCaches h2)
    (hd : deref h2 a = some ⟨.FormulaImpl f cache, i, o⟩) :
    ∃ cache1, deref h1 a = some ⟨.FormulaImpl f cache1, i, o⟩ := by
  have h := deref_eraseCaches h1 a
  rw [he, deref_eraseCaches, hd, Option.map_some', ClearCache_formula] at h
  cases hd1 : deref h1 a with
  | none => rw [hd1] at h; cases h
  | some c =>
    rw [hd1, Option.map_some'] at h
    obtain ⟨cache1, hc⟩ := ClearCache_eq_formula c f i o (Option.some.inj h).symm
    exact ⟨cache1, by rw [hc]⟩

theorem setCache_formula (heap : Heap) (this : Nat) (v : Value) (f : FormulaAST)
    (cache : Option Value) (i o : List Nat)
    (hd : deref heap this = some ⟨.FormulaImpl f cache, i, o⟩) :
    setCache heap this v = some (heap.set this (some ⟨.FormulaImpl f (some v), i, o⟩)) ∧
      eraseCaches (heap.set this (some ⟨.FormulaImpl f (some v), i, o⟩)) = eraseCaches heap ∧
      deref (heap.set this (some ⟨.FormulaImpl f (some v), i, o⟩)) this =
        some ⟨.FormulaImpl f (some v), i, o⟩ := by
  refine ⟨?_, eraseCaches_set heap this _ _ hd rfl, ?_⟩
  · unfold setCache
    rw [hd]
  · rw [deref_set_live heap this this _ (by unfold live; rw [hd]; simp), if_pos rfl]

theorem Sim_cases {α : Type} (E : Heap) (r : Res (α × Heap)) (p : Res α) (h : Sim E r p) :
    (∃ x heap, r = .ok (x, heap) ∧ p = .ok x ∧ eraseCaches heap = E) ∨
    (∃ e, r = .throw e ∧ p = .throw e) ∨ (r = .undefined ∧ p = .undefined) ∨
    (r = .fuel ∧ p = .fuel) := by
  cases r with
  | ok xh =>
    obtain ⟨x, heap⟩ := xh
    cases p with
    | ok y => exact Or.inl ⟨x, heap, rfl, by rw [h.1], h.2⟩
    | throw e => exact absurd h id
    | undefined => exact absurd h id
    | fuel => exact absurd h id
  | throw e =>
    cases p with
    | ok y => exact absurd h id
    | throw e1 => exact Or.inr (Or.inl ⟨e, rfl, by rw [show e = e1 from h]⟩)
    | undefined => exact absurd h id
    | fuel => exact absurd h id
  | undefined =>
    cases p with
    | ok y => exact absurd h id
    | throw e1 => exact absurd h id
    | undefined => exact Or.inr (Or.inr (Or.inl ⟨rfl, rfl⟩))
    | fuel => exact absurd h id
  | fuel =>
    cases p with
    | ok y => exact absurd h id
    | throw e1 => exact absurd h id
    | undefined => exact absurd h id
    | fuel => exact Or.inr (Or.inr (Or.inr ⟨rfl, rfl⟩))

theorem Sim_ok {α : Type} (E : Heap) (x : α) (heap : Heap) (h : eraseCaches heap = E) :
    Sim E (.ok (x, heap)) (.ok x) := ⟨rfl, h⟩

/-- The evaluation of an expression by `Execute` follows the reference, when
the lookup of cells does. -/
theorem Execute_sim (ar : Arith) (E : Heap)
    (args : Position → Heap → Res (Except FormulaError Double × Heap))
    (operand : Position → Res (Except FormulaError Double))
    (hargs : ∀ p heap, eraseCaches heap = E → Sim E (args p heap) (operand p)) :
    ∀ (e : Expr) (heap : Heap), eraseCaches heap = E →
      Sim E (Execute ar args e heap) (evalExpr ar operand e) := by
  intro e
  induction e with
  | number d => intro heap hE; exact Sim_ok E _ heap hE
  | cell p => intro heap hE; exact hargs p heap hE
  | unary op e ih =>
    intro heap hE
    rcases Sim_cases E _ _ (ih heap hE) with ⟨x, h1, hr, hp, hE1⟩ | ⟨e1, hr, hp⟩ | ⟨hr, hp⟩ | ⟨hr, hp⟩
    · cases x with
      | ok d => simp only [Execute, evalExpr, hr, hp]; exact Sim_ok E _ h1 hE1
      | error fe => simp only [Execute, evalExpr, hr, hp]; exact Sim_ok E _ h1 hE1
    · simp only [Execute, evalExpr, hr, hp]; exact rfl
    · simp only [Execute, evalExpr, hr, hp]; exact trivial
    · simp only [Execute, evalExpr, hr, hp]; exact trivial
  | binary op l r ihl ihr =>
    intro heap hE
    rcases Sim_cases E _ _ (ihl heap hE) with ⟨x, h1, hr, hp, hE1⟩ | ⟨e1, hr, hp⟩ | ⟨hr, hp⟩ | ⟨hr, hp⟩
    · cases x with
      | ok d =>
        rcases Sim_cases E _ _ (ihr h1 hE1) with
          ⟨y, h2, hr2, hp2, hE2⟩ | ⟨e1, hr2, hp2⟩ | ⟨hr2, hp2⟩ | ⟨hr2, hp2⟩
        · cases y with
          | ok d2 => simp only [Execute, evalExpr, hr, hp, hr2, hp2]; exact Sim_ok E _ h2 hE2
          | error fe => simp only [Execute, evalExpr, hr, hp, hr2, hp2]; exact Sim_ok E _ h2 hE2
        · simp only [Execute, evalExpr, hr, hp, hr2, hp2]; exact rfl
        · simp only [Execute, evalExpr, hr, hp, hr2, hp2]; exact trivial
        · simp only [Execute, evalExpr, hr, hp, hr2, hp2]; exact trivial
      | error fe => simp only [Execute, evalExpr, hr, hp]; exact Sim_ok E _ h1 hE1
    · simp only [Execute, evalExpr, hr, hp]; exact rfl
    · simp only [Execute, evalExpr, hr, hp]; exact trivial
    · simp only [Execute, evalExpr, hr, hp]; exact trivial

theorem argsOf_sim (ar : Arith) (sheet_ : List (List (Option Nat))) (E : Heap)
    (getValue : Heap → Nat → Res (Value × Heap)) (value : Nat → Res Value)
    (hget : ∀ heap a, eraseCaches heap = E → Sim E (getValue heap a) (value a))
    (p : Position) (heap : Heap) (hE : eraseCaches heap = E) :
    Sim E (argsOf ar sheet_ getValue p heap) (operandOf ar sheet_ E value p) := by
  unfold argsOf operandOf
  have hg : Sheet.GetCell ⟨sheet_, heap⟩ p = Sheet.GetCell ⟨sheet_, E⟩ p := rfl
  rw [hg]
  cases Sheet.GetCell ⟨sheet_, E⟩ p with
  | error e => exact rfl
  | ok cell =>
    cases cell with
    | none => exact Sim_ok E _ heap hE
    | some b =>
      simp only
      rcases Sim_cases E _ _ (hget heap b hE) with
        ⟨x, h1, hr, hp, hE1⟩ | ⟨e1, hr, hp⟩ | ⟨hr, hp⟩ | ⟨hr, hp⟩
      · rw [hr, hp]
        simp only
        cases VarVal ar x with
        | none => exact trivial
        | some d => exact Sim_ok E _ h1 hE1
      · rw [hr, hp]; exact rfl
      · rw [hr, hp]; exact trivial
      · rw [hr, hp]; exact trivial

theorem Evaluate_sim (ar : Arith) (sheet_ : List (List (Option Nat))) (E : Heap)
    (getValue : Heap → Nat → Res (Value × Heap)) (value : Nat → Res Value)
    (hget : ∀ heap a, eraseCaches heap = E → Sim E (getValue heap a) (value a))
    (f : FormulaAST) (heap : Heap) (hE : eraseCaches heap = E) :
    Sim E (Evaluate ar sheet_ getValue f heap)
      (resultValue (evalExpr ar (operandOf ar sheet_ E value) f.root_expr_)) := by
  unfold Evaluate resultValue
  rcases Sim_cases E _ _ (Execute_sim ar E _ _
      (fun p h hh => argsOf_sim ar sheet_ E getValue value hget p h hh) f.root_expr_ heap hE) with
    ⟨x, h1, hr, hp, hE1⟩ | ⟨e1, hr, hp⟩ | ⟨hr, hp⟩ | ⟨hr, hp⟩
  · cases x with
    | ok d => rw [hr, hp]; exact Sim_ok E _ h1 hE1
    | error fe => rw [hr, hp]; exact Sim_ok E _ h1 hE1
  · rw [hr, hp]; exact rfl
  · rw [hr, hp]; exact trivial
  · rw [hr, hp]; exact trivial

/-- The method `GetValue` follows the reference `valueOf`, whatever the caches
hold: it returns the value the reference computes on the heap with the caches
erased, it changes the heap in cached values only, and it leaves the value it
returns in the cache of a formula cell. -/
theorem GetValue_sim (ar : Arith) (sheet_ : List (List (Option Nat))) (E : Heap) :
    ∀ (fuel : Nat) (heap : Heap) (this : Nat), eraseCaches heap = E →
      Sim E (GetValue ar sheet_ fuel heap this) (valueOf ar sheet_ E fuel this) ∧
      ∀ v heap1, GetValue ar sheet_ fuel heap this = .ok (v, heap1) →
        ∀ f cache i o, deref heap this = some ⟨.FormulaImpl f cache, i, o⟩ →
          deref heap1 this = some ⟨.FormulaImpl f (some v), i, o⟩ := by
  intro fuel
  induction fuel with
  | zero =>
    intro heap this _
    rw [GetValue, valueOf]
    exact ⟨trivial, fun v heap1 h => by cases h⟩
  | succ n ih =>
    intro heap this hE
    have hdE := deref_eraseCaches heap this
    rw [hE] at hdE
    rw [GetValue, valueOf, hdE]
    cases hd : deref heap this with
    | none => exact ⟨trivial, fun v heap1 h => by cases h⟩
    | some c =>
      obtain ⟨impl, i, o⟩ := c
      cases impl with
      | EmptyImpl =>
        refine ⟨Sim_ok E _ heap hE, ?_⟩
        intro v heap1 _ f cache i1 o1 hf
        cases hf
      | TextImpl str_ =>
        refine ⟨Sim_ok E _ heap hE, ?_⟩
        intro v heap1 _ f cache i1 o1 hf
        cases hf
      | FormulaImpl f cache =>
        simp only [Option.map_some', ClearCache_formula]
        have hev := Evaluate_sim ar sheet_ E (GetValue ar sheet_ n) (valueOf ar sheet_ E n)
          (fun h a hh => (ih h a hh).1) f heap hE
        rcases Sim_cases E _ _ hev with ⟨x, h1, hr, hp, hE1⟩ | ⟨e1, hr, hp⟩ | ⟨hr, hp⟩ | ⟨hr, hp⟩
        · obtain ⟨cache1, hd1⟩ := deref_of_erase_eq h1 heap this f cache i o (by rw [hE1, hE]) hd
          obtain ⟨hs1, hs2, hs3⟩ := setCache_formula h1 this x f cache1 i o hd1
          rw [hr, hp]
          simp only [hs1]
          refine ⟨Sim_ok E _ _ (by rw [hs2, hE1]), ?_⟩
          intro v heap1 hv f1 cache2 i1 o1 hf
          cases hf
          cases hv
          exact hs3
        · rw [hr, hp]
          exact ⟨rfl, fun v heap1 h => by cases h⟩
        · rw [hr, hp]
          exact ⟨trivial, fun v heap1 h => by cases h⟩
        · rw [hr, hp]
          exact ⟨trivial, fun v heap1 h => by cases h⟩

/-- An expression has a settled result, for every fuel from some bound on,
when each of its operands has. -/
theorem evalExpr_total (ar : Arith) (operand : Nat → Position → Res (Except FormulaError Double)) :
    ∀ e : Expr, (∀ p ∈ e.cells, ∃ N r, r ≠ .fuel ∧ ∀ fuel, N ≤ fuel → operand fuel p = r) →
      ∃ N r, r ≠ .fuel ∧ ∀ fuel, N ≤ fuel → evalExpr ar (operand fuel) e = r := by
  intro e
  induction e with
  | number d => intro _; exact ⟨0, .ok (.ok d), by simp, fun fuel _ => rfl⟩
  | cell p => intro h; exact h p (by simp [Expr.cells])
  | unary op e ih =>
    intro h
    obtain ⟨N, r, hne, hr⟩ := ih h
    cases r with
    | ok x =>
      cases x with
      | ok x =>
        refine ⟨N, .ok (checkFinite ar (applyUnary ar op x)), by simp, fun fuel hf => ?_⟩
        simp only [evalExpr, hr fuel hf]
      | error fe =>
        refine ⟨N, .ok (.error fe), by simp, fun fuel hf => ?_⟩
        simp only [evalExpr, hr fuel hf]
    | throw e1 =>
      refine ⟨N, .throw e1, by simp, fun fuel hf => ?_⟩
      simp only [evalExpr, hr fuel hf]
    | undefined =>
      refine ⟨N, .undefined, by simp, fun fuel hf => ?_⟩
      simp only [evalExpr, hr fuel hf]
    | fuel => exact absurd rfl hne
  | binary op l r ihl ihr =>
    intro h
    obtain ⟨N1, r1, hne1, hr1⟩ := ihl (fun p hp => h p (by simp [Expr.cells, hp]))
    obtain ⟨N2, r2, hne2, hr2⟩ := ihr (fun p hp => h p (by simp [Expr.cells, hp]))
    cases r1 with
    | ok x =>
      cases x with
      | error fe =>
        refine ⟨N1, .ok (.error fe), by simp, fun fuel hf => ?_⟩
        simp only [evalExpr, hr1 fuel hf]
      | ok x =>
        cases r2 with
        | ok y =>
          cases y with
          | error fe =>
            refine ⟨max N1 N2, .ok (.error fe), by simp, fun fuel hf => ?_⟩
            simp only [evalExpr, hr1 fuel (le_trans (le_max_left _ _) hf),
              hr2 fuel (le_trans (le_max_right _ _) hf)]
          | ok y =>
            refine ⟨max N1 N2, .ok (checkFinite ar (applyBinary ar op x y)), by simp,
              fun fuel hf => ?_⟩
            simp only [evalExpr, hr1 fuel (le_trans (le_max_left _ _) hf),
              hr2 fuel (le_trans (le_max_right _ _) hf)]
        | throw e1 =>
          refine ⟨max N1 N2, .throw e1, by simp, fun fuel hf => ?_⟩
          simp only [evalExpr, hr1 fuel (le_trans (le_max_left _ _) hf),
            hr2 fuel (le_trans (le_max_right _ _) hf)]
        | undefined =>
          refine ⟨max N1 N2, .undefined, by simp, fun fuel hf => ?_⟩
          simp only [evalExpr, hr1 fuel (le_trans (le_max_left _ _) hf),
            hr2 fuel (le_trans (le_max_right _ _) hf)]
        | fuel => exact absurd rfl hne2
    | throw e1 =>
      refine ⟨N1, .throw e1, by simp, fun fuel hf => ?_⟩
      simp only [evalExpr, hr1 fuel hf]
    | undefined =>
      refine ⟨N1, .undefined, by simp, fun fuel hf => ?_⟩
      simp only [evalExpr, hr1 fuel hf]
    | fuel => exact absurd rfl hne1

/-- The reference `valueOf` settles for every cell, from some fuel on, on a
sheet whose grid holds no destroyed cell, whose formulas refer to valid
positions only, and whose references form no cycle: the fuel does not run
out. -/
theorem valueOf_total (ar : Arith) (s : Sheet) (hgrid : s.GridLive) (hvalid : s.RefsValid)
    (hacyc : ∀ a, ¬ Relation.TransGen (refEdge s) a a) (a : Nat) (ha : live s.heap a) :
    ∃ N r, r ≠ .fuel ∧
      ∀ fuel, N ≤ fuel → valueOf ar s.sheet_ (eraseCaches s.heap) fuel a = r := by
  let r1 : Fin s.heap.length → Fin s.heap.length → Prop :=
    fun y x => Relation.TransGen (refEdge s) x.val y.val
  haveI : IsTrans (Fin s.heap.length) r1 := ⟨fun _ _ _ hab hbc => Relation.TransGen.trans hbc hab⟩
  haveI : IsIrrefl (Fin s.heap.length) r1 := ⟨fun x h => hacyc x.val h⟩
  have wf : WellFounded r1 := Finite.wellFounded_of_trans_of_irrefl r1
  have main : ∀ x : Fin s.heap.length, live s.heap x.val →
      ∃ N r, r ≠ .fuel ∧
        ∀ fuel, N ≤ fuel → valueOf ar s.sheet_ (eraseCaches s.heap) fuel x.val = r := by
    intro x
    induction x using wf.induction with
    | _ x ih =>
      intro hx
      obtain ⟨c, hc⟩ := (live_iff _ _).1 hx
      have hdE := deref_eraseCaches s.heap x.val
      rw [hc] at hdE
      obtain ⟨impl, i, o⟩ := c
      cases impl with
      | EmptyImpl =>
        refine ⟨1, .ok (.text ""), by simp, fun fuel hf => ?_⟩
        obtain ⟨k, rfl⟩ : ∃ k, fuel = k + 1 := ⟨fuel - 1, by omega⟩
        rw [valueOf, hdE]
        rfl
      | TextImpl str_ =>
        refine ⟨1, .ok (TextImpl.GetValue str_), by simp, fun fuel hf => ?_⟩
        obtain ⟨k, rfl⟩ : ∃ k, fuel = k + 1 := ⟨fuel - 1, by omega⟩
        rw [valueOf, hdE]
        rfl
      | FormulaImpl f cache =>
        have hop : ∀ p ∈ f.root_expr_.cells, ∃ N r, r ≠ .fuel ∧ ∀ fuel, N ≤ fuel →
            operandOf ar s.sheet_ (eraseCaches s.heap)
              (valueOf ar s.sheet_ (eraseCaches s.heap) fuel) p = r := by
          intro p hp
          have hpv := hvalid x.val _ f cache hc rfl p hp
          have hg : Sheet.GetCell ⟨s.sheet_, eraseCaches s.heap⟩ p = s.GetCell p := rfl
          cases hcell : s.GetCell p with
          | error e =>
            rw [GetCell_eq_cellAt s p hpv] at hcell
            cases hcell
          | ok cell =>
            cases cell with
            | none =>
              refine ⟨0, .ok (.ok zero), by simp, fun fuel _ => ?_⟩
              unfold operandOf
              rw [hg, hcell]
            | some b =>
              have hb : live s.heap b := hgrid _ _ _ ((GetCell_some_iff s p b).1 hcell).2
              obtain ⟨N, r, hne, hv⟩ := ih ⟨b, live_lt _ _ hb⟩
                (Relation.TransGen.single ⟨_, f, cache, hc, rfl, p, hp, hcell⟩) hb
              cases r with
              | ok v =>
                cases hvv : VarVal ar v with
                | some d =>
                  refine ⟨N, .ok d, by simp, fun fuel hf => ?_⟩
                  unfold operandOf
                  rw [hg, hcell]
                  simp only [hv fuel hf, hvv]
                | none =>
                  refine ⟨N, .undefined, by simp, fun fuel hf => ?_⟩
                  unfold operandOf
                  rw [hg, hcell]
                  simp only [hv fuel hf, hvv]
              | throw e1 =>
                refine ⟨N, .throw e1, by simp, fun fuel hf => ?_⟩
                unfold operandOf
                rw [hg, hcell]
                simp only [hv fuel hf]
              | undefined =>
                refine ⟨N, .undefined, by simp, fun fuel hf => ?_⟩
                unfold operandOf
                rw [hg, hcell]
                simp only [hv fuel hf]
              | fuel => exact absurd rfl hne
        obtain ⟨N, r, hne, hr⟩ := evalExpr_total ar _ f.root_expr_ hop
        refine ⟨N + 1, resultValue r, ?_, fun fuel hf => ?_⟩
        · cases r with
          | ok x => cases x <;> simp [resultValue]
          | throw e1 => simp [resultValue]
          | undefined => simp [resultValue]
          | fuel => exact absurd rfl hne
        · obtain ⟨k, rfl⟩ : ∃ k, fuel = k + 1 := ⟨fuel - 1, by omega⟩
          rw [valueOf, hdE]
          simp only [Option.map_some', ClearCache_formula, hr k (by omega)]
  exact main ⟨a, live_lt _ _ ha⟩ ha

theorem checkRefs_sound (s : Sheet) (h : s.checkRefs = true) : s.RefsValid := by
  unfold Sheet.checkRefs at h
  rw [List.all_eq_true] at h
  intro a c f cache hd hi p hp
  have h1 := h (some c) (deref_mem _ _ _ hd)
  obtain ⟨impl, i, o⟩ := c
  simp only at hi
  subst hi
  simp only [List.all_eq_true] at h1
  exact h1 p hp

theorem checkRefsDescend_sound (s : Sheet) (h : s.checkRefsDescend = true) :
    ∀ a, ¬ Relation.TransGen (refEdge s) a a := by
  have hstep : ∀ a b, refEdge s a b → b < a := by
    rintro a b ⟨c, f, cache, hd, hi, p, hp, hg⟩
    unfold Sheet.checkRefsDescend at h
    rw [List.all_eq_true] at h
    have h1 := h a (List.mem_range.2 (deref_lt _ _ _ hd))
    obtain ⟨impl, i, o⟩ := c
    simp only at hi
    subst hi
    rw [hd] at h1
    simp only [List.all_eq_true] at h1
    have h2 := h1 p hp
    rw [hg] at h2
    simpa using h2
  have hreach : ∀ a b, Relation.TransGen (refEdge s) a b → b < a := by
    intro a b hab
    induction hab with
    | single h1 => exact hstep _ _ h1
    | tail _ h1 ih => exact lt_trans (hstep _ _ h1) ih
  intro a ha
  exact lt_irrefl a (hreach a a ha)

/-- The method `GetValue` settles, and apart from undefined behaviour reads
are never stale. On a sheet whose grid holds no destroyed cell, whose formulas
refer to valid positions only and whose references form no cycle, every cell
has an outcome `r` that is not a lack of fuel: the one the reference `valueOf`
computes from the contents of the cells without reading a cache. With enough
fuel `GetValue` has that outcome on every heap that differs from the heap of
the sheet in cached values only, whatever those caches hold; when it returns a
value it changes cached values only, and the cache of a formula cell holds the
value afterwards. -/
theorem GetValue_settles (ar : Arith) (s : Sheet) (this : Nat) (hl : live s.heap this)
    (hgrid : s.GridLive) (hvalid : s.RefsValid)
    (hacyc : ∀ a, ¬ Relation.TransGen (refEdge s) a a) :
    ∃ r N, r ≠ .fuel ∧
      (∀ fuel, N ≤ fuel → valueOf ar s.sheet_ (eraseCaches s.heap) fuel this = r) ∧
      ∀ fuel, N ≤ fuel → ∀ heap, eraseCaches heap = eraseCaches s.heap →
        Sim (eraseCaches s.heap) (GetValue ar s.sheet_ fuel heap this) r ∧
        ∀ v heap1, GetValue ar s.sheet_ fuel heap this = .ok (v, heap1) →
          ∀ f cache i o, deref heap this = some ⟨.FormulaImpl f cache, i, o⟩ →
            deref heap1 this = some ⟨.FormulaImpl f (some v), i, o⟩ := by
  obtain ⟨N, r, hne, hv⟩ := valueOf_total ar s hgrid hvalid hacyc this hl
  refine ⟨r, N, hne, hv, ?_⟩
  intro fuel hf heap hE
  obtain ⟨hsim, hcache⟩ := GetValue_sim ar s.sheet_ (eraseCaches s.heap) fuel heap this hE
  rw [hv fuel hf] at hsim
  exact ⟨hsim, hcache⟩

/-- An instance: the cell C1 of the chain A1 = "10", B1 = "=A1", C1 = "=B1",
with an out-of-date 20.0 in the cache of B1, reads as 10.0. -/
theorem GetValue_settles_instance :
    GetValue exampleArith (chainSheet (some (.number twenty)) none).sheet_ 3
        (chainSheet (some (.number twenty)) none).heap 2 =
      .ok (.number ten, (chainSheet (some (.number ten)) (some (.number ten))).heap) ∧
    ∃ r N, r ≠ .fuel ∧
      (∀ fuel, N ≤ fuel →
        valueOf exampleArith (chainSheet (some (.number twenty)) none).sheet_
          (eraseCaches (chainSheet (some (.number twenty)) none).heap) fuel 2 = r) ∧
      ∀ fuel, N ≤ fuel → ∀ heap,
        eraseCaches heap = eraseCaches (chainSheet (some (.number twenty)) none).heap →
        Sim (eraseCaches (chainSheet (some (.number twenty)) none).heap)
          (GetValue exampleArith (chainSheet (some (.number twenty)) none).sheet_ fuel heap 2) r ∧
        ∀ v heap1,
          GetValue exampleArith (chainSheet (some (.number twenty)) none).sheet_ fuel heap 2 =
            .ok (v, heap1) →
          ∀ f cache i o, deref heap 2 = some ⟨.FormulaImpl f cache, i, o⟩ →
            deref heap1 2 = some ⟨.FormulaImpl f (some v), i, o⟩ :=
  ⟨by decide,
    GetValue_settles exampleArith (chainSheet (some (.number twenty)) none) 2 (by decide)
      (checkPointers_sound _ (by decide)).2 (checkRefs_sound _ (by decide))
      (checkRefsDescend_sound _ (by decide))⟩

end Spreadsheet
